import Mathlib

/-!
# Verification of the np-feasibility core

A shallow embedding of the np-feasibility analyser (a Rust program that
decides whether a set of non-preemptive real-time jobs is *certainly
infeasible* on a fixed number of identical cores), together with proofs and
refutations of the frozen claims about it.

The embedding mirrors the source files:
* `src/problem.rs`      — the `Job` / `Constraint` / `Problem` data model;
* `src/permutation.rs`  — `ProblemPermutation::possible` / `transform_back`;
* `src/bounds/constraints.rs` — `strengthen_bounds_using_constraints`;
* `src/bounds/occupation.rs`  — the certain-occupation timeline;
* `src/necessary/pack.rs`     — the bin-packing oracle;
* `src/necessary/load.rs`     — the feasibility load test;
* `src/necessary/interval_tree.rs` and `src/necessary/interval.rs`
  — the interval tree and the feasibility interval test;
* `src/main.rs`         — the pipeline driver.

Rust `i64` time values (`pub type Time = i64;` in src/problem.rs) are
modelled as `Int` (the analysed scenarios stay far
from the 64-bit range, and the source does not rely on wrap-around).  Rust
panics (out-of-bounds indexing, violated `assert!`) are modelled by returning
`none` from an `Option`.  Rust's truncating `i64` division `/` agrees with
Lean's `Int` division `/`.  Rust's `sort`/`sort_by_key` is a stable sort;
it is modelled with the stable (and kernel-computable) `List.insertionSort`,
which produces the same list as every other stable sort by the same key.
-/

/-- The `Job` struct from src/problem.rs. -/
structure Job where
  index : Nat
  execution_time : Int
  earliest_start : Int
  latest_start : Int
deriving DecidableEq, Repr

namespace Job

/-- `Job::release_to_deadline` from src/problem.rs (the `assert!(execution_time > 0)`
is a precondition; callers in the analysed scenarios satisfy it). -/
def release_to_deadline (index : Nat) (release_time execution_time deadline : Int) : Job :=
  { index := index, execution_time := execution_time,
    earliest_start := release_time, latest_start := deadline - execution_time }

/-- `Job::dummy` from src/problem.rs. -/
def dummy : Job :=
  { index := 0, execution_time := 1, earliest_start := 0, latest_start := 0 }

/-- `Job::get_earliest_finish` from src/problem.rs. -/
def get_earliest_finish (j : Job) : Int := j.earliest_start + j.execution_time

/-- `Job::get_latest_finish` from src/problem.rs. -/
def get_latest_finish (j : Job) : Int := j.latest_start + j.execution_time

/-- `Job::set_earliest_finish` from src/problem.rs. -/
def set_earliest_finish (j : Job) (earliest_finish : Int) : Job :=
  { j with earliest_start := earliest_finish - j.execution_time }

/-- `Job::set_latest_finish` from src/problem.rs. -/
def set_latest_finish (j : Job) (latest_finish : Int) : Job :=
  { j with latest_start := latest_finish - j.execution_time }

/-- `Job::is_certainly_infeasible` from src/problem.rs. -/
def is_certainly_infeasible (j : Job) : Bool := decide (j.earliest_start > j.latest_start)

end Job

/-- The `ConstraintType` enum from src/problem.rs. -/
inductive ConstraintType where
  | StartToStart
  | FinishToStart
deriving DecidableEq, Repr

/-- The `Constraint` struct from src/problem.rs. -/
structure Constraint where
  before : Nat
  after : Nat
  constraint_type : ConstraintType
  delay : Int
deriving DecidableEq, Repr

namespace Constraint

/-- `Constraint::new` from src/problem.rs (argument order of the source). -/
def new (before after : Nat) (delay : Int) (constraint_type : ConstraintType) : Constraint :=
  { before := before, after := after, constraint_type := constraint_type, delay := delay }

/-- `Constraint::dummy` from src/problem.rs. -/
def dummy : Constraint :=
  { before := 0, after := 0, constraint_type := .StartToStart, delay := 0 }

end Constraint

/-- The `Problem` struct from src/problem.rs.  Rust's `Vec` is modelled as
`List`; the `u32` core count as `Nat`. -/
structure Problem where
  jobs : List Job
  constraints : List Constraint
  num_cores : Nat
deriving DecidableEq, Repr

namespace Problem

/-- `Problem::is_certainly_infeasible` from src/problem.rs. -/
def is_certainly_infeasible (p : Problem) : Bool :=
  p.jobs.any Job.is_certainly_infeasible

/-- `Problem::update_job_indices` from src/problem.rs: re-stamps `jobs[i].index := i`. -/
def update_job_indices (p : Problem) : Problem :=
  { p with jobs := p.jobs.mapIdx fun i j => { j with index := i } }

/-- `Problem::is_job_order_possible` from src/problem.rs:
`c.before < c.after` for all constraints. -/
def is_job_order_possible (p : Problem) : Bool :=
  p.constraints.all fun c => decide (c.before < c.after)

/-- The checks of `Problem::validate` from src/problem.rs, as a predicate
(the source `assert!`s them). -/
def validate (p : Problem) : Prop :=
  (∀ i (h : i < p.jobs.length), (p.jobs.get ⟨i, h⟩).index = i) ∧
  (∀ c ∈ p.constraints, 0 ≤ c.delay ∧ c.before < p.jobs.length ∧ c.after < p.jobs.length)

end Problem

/-! ## The bin-packing oracle, src/necessary/pack.rs -/

/-- One summand of the `min_wasted_space` accumulation in
`is_certainly_unpackable` (src/necessary/pack.rs, the `for index in
(1 .. jobs.len()).rev()` loop body), for the sorted size list `sorted`. -/
def wasted_space_at (bin_size : Int) (sorted : List Int) (smallest2 : Int)
    (index : Nat) : Int :=
  let duration := sorted.getD index 0
  if bin_size < duration + sorted.getD 0 0 then
    bin_size - duration
  else if 1 < index ∧ bin_size < duration + sorted.getD 1 0 then
    bin_size - sorted.getD 0 0 - duration
  else if 2 < index ∧ bin_size < duration + smallest2 then
    bin_size - sorted.getD 1 0 - duration
  else 0

/-- `is_certainly_unpackable` from src/necessary/pack.rs.  The Rust function
sorts its `jobs` vector in place; the embedding is pure.  The Rust loop
accumulates the waste summands from the highest index down to index 1; the
embedding sums the same summands. -/
def is_certainly_unpackable (num_processors : Nat) (bin_size : Int)
    (jobs : List Int) : Bool :=
  if jobs.isEmpty then false
  else if jobs.any fun j => decide (bin_size < j) then true
  else
    let total := jobs.sum
    if jobs.length ≤ num_processors then false
    else if decide ((num_processors : Int) * bin_size < total) then true
    else if num_processors = 1 ∨ jobs.length ≤ 2 then false
    else
      let sorted := List.insertionSort (· ≤ ·) jobs
      if jobs.length = 3 then
        decide (bin_size < sorted.getD 0 0 + sorted.getD 1 0)
      else
        let smallest2 := min (sorted.getD 2 0) (sorted.getD 0 0 + sorted.getD 1 0)
        let min_wasted_space :=
          (((List.range sorted.length).drop 1).map
            (wasted_space_at bin_size sorted smallest2)).sum
        decide ((num_processors : Int) * bin_size < total + min_wasted_space)

/-- The packing notion of claim C5: the multiset of `sizes` can be split into
at most `m` groups, each of total size at most `B`.  (Formalised from the
claim's words; `is_certainly_unpackable` is supposed to imply its negation.) -/
def CanPack (m : Nat) (B : Int) (sizes : List Int) : Prop :=
  ∃ groups : List (List Int),
    groups.length ≤ m ∧ List.Perm groups.flatten sizes ∧ ∀ g ∈ groups, g.sum ≤ B

/-! ## The sorted-job iterator, src/sorted_job_iterator.rs -/

/-- The `FatJob` struct from src/sorted_job_iterator.rs. -/
structure FatJob where
  job : Nat
  value : Int
deriving DecidableEq, Repr

/-- The `SortedJobIterator` struct from src/sorted_job_iterator.rs.  The Rust
struct stores the full sorted vector plus a cursor `index`; the embedding
stores the not-yet-consumed suffix (`jobs.drop index`), which the cursor never
moves back over. -/
structure SortedJobIterator where
  jobs : List FatJob
deriving DecidableEq, Repr

namespace SortedJobIterator

/-- `SortedJobIterator::new` from src/sorted_job_iterator.rs: jobs mapped to
`(index, key)` pairs and stably sorted by key (`sort_by_key`). -/
def new (jobs : List Job) (compute_value : Job → Int) : SortedJobIterator :=
  ⟨List.insertionSort (fun a b => a.value ≤ b.value)
    (jobs.map fun j => FatJob.mk j.index (compute_value j))⟩

/-- `SortedJobIterator::next` from src/sorted_job_iterator.rs: consume and
return the next job index iff its key satisfies `condition`. -/
def next (it : SortedJobIterator) (condition : Int → Bool) :
    Option Nat × SortedJobIterator :=
  match it.jobs with
  | [] => (none, it)
  | fj :: rest => if condition fj.value then (some fj.job, ⟨rest⟩) else (none, it)

end SortedJobIterator

/-! ## The feasibility load test, src/necessary/load.rs -/

/-- The `LoadResult` enum from src/necessary/load.rs. -/
inductive LoadResult where
  | Finished
  | Running
  | CertainlyInfeasible
deriving DecidableEq, Repr

/-- The `LoadJob` struct from src/necessary/load.rs. -/
structure LoadJob where
  job : Nat
  maximum_remaining_time : Int
deriving DecidableEq, Repr

/-- `LoadJob::get_minimum_spent_time` from src/necessary/load.rs. -/
def LoadJob.get_minimum_spent_time (lj : LoadJob) (execution_time : Int) : Int :=
  execution_time - lj.maximum_remaining_time

/-- The `LoadTest` struct from src/necessary/load.rs. -/
structure LoadTest where
  problem : Problem
  jobs_by_earliest_start : SortedJobIterator
  jobs_by_latest_start : SortedJobIterator
  times_of_interest : List Int
  current_time : Int
  time_index : Nat
  certainly_finished_jobs_load : Int
  minimum_executed_load : Int
  maximum_executed_load : Int
  possibly_running_jobs : List LoadJob
  certainly_started_jobs : List LoadJob
deriving Repr

namespace LoadTest

/-- `LoadTest::new` from src/necessary/load.rs.  The Rust code collects all
`latest_start` / `latest_finish` values into a `HashSet`, removes `0`, and
sorts ascending; the embedding produces the same sorted duplicate-free list. -/
def new (p : Problem) : LoadTest :=
  let times_of_interest :=
    List.insertionSort (· ≤ ·)
      (((p.jobs.flatMap fun j => [j.latest_start, j.get_latest_finish]).dedup).filter
        fun t => decide (t ≠ 0))
  { problem := p
    jobs_by_earliest_start := SortedJobIterator.new p.jobs fun j => j.earliest_start
    jobs_by_latest_start := SortedJobIterator.new p.jobs fun j => j.latest_start
    times_of_interest := times_of_interest
    current_time := 0, time_index := 0
    certainly_finished_jobs_load := 0
    minimum_executed_load := 0
    maximum_executed_load := 0
    possibly_running_jobs := []
    certainly_started_jobs := [] }

/-- The `min_by_key` over `possibly_running_jobs` in `LoadTest::next`
(src/necessary/load.rs): the minimum `earliest_start` among the possibly
running jobs, `none` when there are none (job lookups may fail). -/
def possibly_running_min_es (jobs : List Job) (l : List LoadJob) :
    Option (Option Int) :=
  l.foldl
    (fun acc rj => do
      let cur ← acc
      let j ← jobs.get? rj.job
      some (some (match cur with
        | none => j.earliest_start
        | some v => min v j.earliest_start)))
    (some none)

/-- The first `retain_mut` of `LoadTest::next` (over `possibly_running_jobs`):
returns the retained list, the `maximum_load_this_step` contribution and the
`certainly_finished_jobs_load` contribution. -/
def retain_possibly_running (jobs : List Job) (spent_time : Int) :
    List LoadJob → Option (List LoadJob × Int × Int)
  | [] => some ([], 0, 0)
  | rj :: rest =>
    if spent_time < rj.maximum_remaining_time then do
      let (kept, ml, fl) ← retain_possibly_running jobs spent_time rest
      some ({ rj with maximum_remaining_time := rj.maximum_remaining_time - spent_time } :: kept,
        ml + spent_time, fl)
    else do
      let j ← jobs.get? rj.job
      let (kept, ml, fl) ← retain_possibly_running jobs spent_time rest
      some (kept, ml + rj.maximum_remaining_time, fl + j.execution_time)

/-- The first `while let` drain of `LoadTest::next`: admit every job whose
`earliest_start` key is `≤ next_time`.  Returns the advanced iterator, the
extended `possibly_running_jobs`, and the updated `maximum_load_this_step`,
`certainly_finished_jobs_load` and `earliest_step_arrival` accumulators
(recursion over the iterator's unconsumed suffix). -/
def admit_arrived_go (p : Problem) (next_time : Int) :
    List FatJob → List LoadJob → Int → Int → Int →
    Option (SortedJobIterator × List LoadJob × Int × Int × Int)
  | [], pr, ml, fl, ea => some (⟨[]⟩, pr, ml, fl, ea)
  | fj :: rest, pr, ml, fl, ea =>
    if fj.value ≤ next_time then do
      let early_job ← p.jobs.get? fj.job
      if next_time < early_job.get_latest_finish then
        admit_arrived_go p next_time rest
          (pr ++ [⟨fj.job, early_job.get_latest_finish - next_time⟩])
          (ml + min early_job.execution_time (next_time - early_job.earliest_start)) fl ea
      else
        admit_arrived_go p next_time rest pr (ml + early_job.execution_time)
          (fl + early_job.execution_time) (min ea early_job.earliest_start)
    else some (⟨fj :: rest⟩, pr, ml, fl, ea)

/-- The first `while let` drain of `LoadTest::next` (the recursion of
`admit_arrived_go` over the iterator's unconsumed suffix inlines
`SortedJobIterator.next`, which consumes the head iff its key satisfies the
condition `time ≤ next_time`). -/
def admit_arrived (p : Problem) (next_time : Int) (it : SortedJobIterator)
    (pr : List LoadJob) (ml fl ea : Int) :
    Option (SortedJobIterator × List LoadJob × Int × Int × Int) :=
  admit_arrived_go p next_time it.jobs pr ml fl ea

/-- The second `retain_mut` of `LoadTest::next` (over `certainly_started_jobs`):
keep jobs with residual time, refreshing their residual to
`latest_finish - next_time`. -/
def retain_certainly_started (jobs : List Job) (spent_time next_time : Int) :
    List LoadJob → Option (List LoadJob)
  | [] => some []
  | sj :: rest =>
    if spent_time < sj.maximum_remaining_time then do
      let j ← jobs.get? sj.job
      let kept ← retain_certainly_started jobs spent_time next_time rest
      some ({ sj with maximum_remaining_time := j.get_latest_finish - next_time } :: kept)
    else
      retain_certainly_started jobs spent_time next_time rest

/-- The second `while let` drain of `LoadTest::next`: admit every job whose
`latest_start` key is `≤ next_time` into `certainly_started_jobs` (only those
with `latest_finish > next_time`). -/
def admit_certainly_started_go (p : Problem) (next_time : Int) :
    List FatJob → List LoadJob →
    Option (SortedJobIterator × List LoadJob)
  | [], cs => some (⟨[]⟩, cs)
  | fj :: rest, cs =>
    if fj.value ≤ next_time then do
      let late_job ← p.jobs.get? fj.job
      if next_time < late_job.get_latest_finish then
        admit_certainly_started_go p next_time rest
          (cs ++ [⟨fj.job, late_job.get_latest_finish - next_time⟩])
      else
        admit_certainly_started_go p next_time rest cs
    else some (⟨fj :: rest⟩, cs)

/-- The second `while let` drain of `LoadTest::next`, like `admit_arrived`. -/
def admit_certainly_started (p : Problem) (next_time : Int)
    (it : SortedJobIterator) (cs : List LoadJob) :
    Option (SortedJobIterator × List LoadJob) :=
  admit_certainly_started_go p next_time it.jobs cs

/-- Sum of full execution times over a list of load jobs (the first `while`
of the minimum-load reconstruction in `LoadTest::next`). -/
def sum_full_exec (jobs : List Job) : List LoadJob → Option Int
  | [] => some 0
  | sj :: rest => do
    let j ← jobs.get? sj.job
    let s ← sum_full_exec jobs rest
    some (j.execution_time + s)

/-- Sum of `get_minimum_spent_time` over a list of load jobs (the second
`while` of the minimum-load reconstruction in `LoadTest::next`). -/
def sum_minimum_spent (jobs : List Job) : List LoadJob → Option Int
  | [] => some 0
  | sj :: rest => do
    let j ← jobs.get? sj.job
    let s ← sum_minimum_spent jobs rest
    some (sj.get_minimum_spent_time j.execution_time + s)

/-- The `for running_job in &self.possibly_running_jobs` loop of
`LoadTest::next`: add all execution times to `max_load_bound2` and fold the
`earliest_step_arrival` minimum. -/
def bound2_fold (jobs : List Job) : List LoadJob → Int → Int →
    Option (Int × Int)
  | [], b2, ea => some (b2, ea)
  | rj :: rest, b2, ea => do
    let j ← jobs.get? rj.job
    bound2_fold jobs rest (b2 + j.execution_time) (min ea j.earliest_start)

/-- `LoadTest::next` from src/necessary/load.rs.  Out-of-bounds vector
accesses of the Rust code are modelled by `none`. -/
def next (lt : LoadTest) : Option (LoadResult × LoadTest) := do
  let next_time ← lt.times_of_interest.get? lt.time_index
  let time_index := lt.time_index + 1
  let spent_time := next_time - lt.current_time
  let min_es ← possibly_running_min_es lt.problem.jobs lt.possibly_running_jobs
  let earliest_step_arrival :=
    match min_es with
    | none => next_time
    | some v => min next_time v
  let (pr1, maximum_load_this_step, finished1) ←
    retain_possibly_running lt.problem.jobs spent_time lt.possibly_running_jobs
  let certainly_finished1 := lt.certainly_finished_jobs_load + finished1
  let (it_es, pr2, ml2, certainly_finished2, ea2) ←
    admit_arrived lt.problem next_time lt.jobs_by_earliest_start pr1
      maximum_load_this_step certainly_finished1 earliest_step_arrival
  let cs1 ← retain_certainly_started lt.problem.jobs spent_time next_time
    lt.certainly_started_jobs
  let (it_ls, cs2) ← admit_certainly_started lt.problem next_time
    lt.jobs_by_latest_start cs1
  let cs3 := List.insertionSort
    (fun a b => a.maximum_remaining_time ≤ b.maximum_remaining_time) cs2
  let num_cores := lt.problem.num_cores
  let surplus := if num_cores < cs3.length then cs3.length - num_cores else 0
  let sf ← sum_full_exec lt.problem.jobs (cs3.take surplus)
  let sp ← sum_minimum_spent lt.problem.jobs (cs3.drop surplus)
  let minimum_executed_load := certainly_finished2 + sf + sp
  let (max_load_bound2, ea3) ← bound2_fold lt.problem.jobs pr2
    certainly_finished2 ea2
  let ea4 := max ea3 lt.current_time
  let max1 := lt.maximum_executed_load +
    min ((num_cores : Int) * (next_time - ea4)) ml2
  let maximum_executed_load := min max1 max_load_bound2
  let lt' := { lt with
    time_index := time_index
    current_time := next_time
    certainly_finished_jobs_load := certainly_finished2
    minimum_executed_load := minimum_executed_load
    maximum_executed_load := maximum_executed_load
    possibly_running_jobs := pr2
    certainly_started_jobs := cs3
    jobs_by_earliest_start := it_es
    jobs_by_latest_start := it_ls }
  let result :=
    if maximum_executed_load < minimum_executed_load then
      LoadResult.CertainlyInfeasible
    else if time_index < lt.times_of_interest.length then LoadResult.Running
    else LoadResult.Finished
  some (result, lt')

end LoadTest

/-- The `loop` of `run_feasibility_load_test` (src/necessary/load.rs), with
explicit fuel.  Each iteration advances `time_index`, and `Running` is only
returned while `time_index` is below the length of `times_of_interest`, so
fuel `times_of_interest.length` never runs out from a fresh `LoadTest` (when
the list is empty the very first vector access fails, which is `none` just
like fuel 0). -/
def load_test_go : Nat → LoadTest → Option Bool
  | 0, _ => none
  | fuel + 1, lt => do
    let (result, lt') ← lt.next
    match result with
    | .CertainlyInfeasible => some true
    | .Finished => some false
    | .Running => load_test_go fuel lt'

/-- `run_feasibility_load_test` from src/necessary/load.rs. -/
def run_feasibility_load_test (p : Problem) : Option Bool :=
  let lt := LoadTest.new p
  load_test_go lt.times_of_interest.length lt

/-! ## The topological permutation, src/permutation.rs -/

/-- The `ProblemPermutation` struct from src/permutation.rs: the `jobs` vector
(`completed_jobs`, position → old job index) and the `constraints` vector
(`constraint_permutation`, original constraint index → sorted position). -/
structure ProblemPermutation where
  jobs : List Nat
  constraints : List Nat
deriving DecidableEq, Repr

namespace ProblemPermutation

/-- The `sorted_constraints` vector built by `ProblemPermutation::possible`
(src/permutation.rs): a counting sort that groups the constraints by their
`before` job, preserving the original relative order inside each group.  The
bucket of job `j` starts at offset `Σ_{b < j} #\x7bc | c.before = b\x7d`, so the
whole vector is the concatenation of the per-job filtered sublists. -/
def sorted_constraints_by_before (n : Nat) (constraints : List Constraint) :
    List Constraint :=
  (List.range n).flatMap fun j => constraints.filter fun c => decide (c.before = j)

/-- The `constraint_permutation` vector of `ProblemPermutation::possible`:
entry `i` is the position of constraint `i` inside `sorted_constraints_by_before`,
namely its bucket offset plus the number of earlier constraints in the same
bucket. -/
def constraint_permutation (constraints : List Constraint) : List Nat :=
  constraints.enum.map fun (i, c) =>
    (constraints.filter fun d => decide (d.before < c.before)).length +
    ((constraints.take i).filter fun d => decide (d.before = c.before)).length

/-- One pass over the popped job's successor bucket in the Kahn loop of
`ProblemPermutation::possible`: decrement each successor's
`remaining_predecessors`, fail (`assert!`) if one would become negative, and
push every successor that reaches zero onto the work stack.  `builder_job j`
is the `job` field of builder `j` (`problem.jobs[j].get_index()`). -/
def process_bucket (builder_job : Nat → Nat) (bucket : List Constraint)
    (remaining : Nat → Int) (stack : List Nat) :
    Option ((Nat → Int) × List Nat) :=
  match bucket with
  | [] => some (remaining, stack)
  | c :: rest =>
    let r := remaining c.after - 1
    if r < 0 then none
    else
      process_bucket builder_job rest
        (fun x => if x = c.after then r else remaining x)
        (if r = 0 then builder_job c.after :: stack else stack)

/-- The `while !next_jobs.is_empty()` Kahn loop of
`ProblemPermutation::possible`.  The Rust `Vec` stack pops from the end; the
embedding conses pushes to the front and pops the head, which is the same
LIFO order.  `fuel` only bounds the recursion; it is chosen large enough in
`possible` that a run that would terminate in Rust never exhausts it. -/
def kahn_go (n : Nat) (builder_job : Nat → Nat) (constraints : List Constraint) :
    Nat → (Nat → Int) → List Nat → List Nat → Option (List Nat)
  | 0, _, _, _ => none
  | _ + 1, _, [], completed => some completed
  | fuel + 1, remaining, predecessor :: rest, completed =>
    if predecessor < n then do
      let (remaining', stack') ←
        process_bucket builder_job
          (constraints.filter fun c => decide (c.before = predecessor))
          remaining rest
      kahn_go n builder_job constraints fuel remaining' stack'
        (completed ++ [predecessor])
    else none

/-- `ProblemPermutation::possible` from src/permutation.rs.  Returns the
mutated problem together with the permutation handle; `none` models both the
cyclic case and a Rust panic (out-of-range indexing / failed `assert!`). -/
def possible (p : Problem) : Option (Problem × ProblemPermutation) := do
  let n := p.jobs.length
  -- `builders[constraint.get_before()]` / `builders[constraint.get_after()]`
  -- panic when an endpoint is out of range.
  if p.constraints.all fun c => decide (c.before < n) && decide (c.after < n) then
    let builder_job : Nat → Nat := fun i => (p.jobs.getD i Job.dummy).index
    let remaining : Nat → Int := fun j =>
      ((p.constraints.filter fun c => decide (c.after = j)).length : Int)
    -- seed: builders with zero remaining predecessors, pushed in builder
    -- order (so the last one is popped first)
    let seed := (((List.range n).filter fun j => decide (remaining j = 0)).map
      builder_job).reverse
    let completed ← kahn_go n builder_job p.constraints
      (2 * n + p.constraints.length + 1) remaining seed []
    if completed.length = n then
      let sorted := sorted_constraints_by_before n p.constraints
      let new_jobs := completed.map fun j => p.jobs.getD j Job.dummy
      let p1 := Problem.update_job_indices { p with jobs := new_jobs }
      let new_constraints := sorted.map fun old =>
        Constraint.new (completed.getD old.before 0) (completed.getD old.after 0)
          old.delay old.constraint_type
      some ({ p1 with constraints := new_constraints },
        ⟨completed, constraint_permutation p.constraints⟩)
    else none
  else none

/-- `ProblemPermutation::transform_back` from src/permutation.rs, written as
the source's two write loops over freshly allocated vectors (`List.set` models
`vec[i] = v`; an out-of-range `List.set` is a no-op where Rust would panic,
which does not occur in the analysed runs). -/
def transform_back (perm : ProblemPermutation) (p : Problem) : Problem :=
  let start : List Job × List Nat :=
    (List.replicate p.jobs.length Job.dummy, List.replicate p.jobs.length 0)
  let jr := (List.range perm.jobs.length).foldl
    (fun (acc : List Job × List Nat) original_index =>
      let current_index := perm.jobs.getD original_index 0
      (acc.1.set original_index (p.jobs.getD current_index Job.dummy),
       acc.2.set current_index original_index))
    start
  let new_jobs := jr.1
  let reverse_job_mapping := jr.2
  let p1 := Problem.update_job_indices { p with jobs := new_jobs }
  let new_constraints := (List.range perm.constraints.length).foldl
    (fun (acc : List Constraint) original_index =>
      let current_index := perm.constraints.getD original_index 0
      let current_constraint := p.constraints.getD current_index Constraint.dummy
      let original_constraint := Constraint.new
        (reverse_job_mapping.getD current_constraint.before 0)
        (reverse_job_mapping.getD current_constraint.after 0)
        current_constraint.delay current_constraint.constraint_type
      acc.set current_index original_constraint)
    (List.replicate p.constraints.length Constraint.dummy)
  { p1 with constraints := new_constraints }

end ProblemPermutation

/-! ## Precedence bound strengthening, src/bounds/constraints.rs -/

/-- The `StrengthenConstraintsResult` enum from src/bounds/constraints.rs. -/
inductive StrengthenConstraintsResult where
  | Nothing
  | Modified
  | Cyclic
deriving DecidableEq, Repr

/-- The inner `for constraint in &sorted_constraints[start_index..bound_index]`
loop of the first (latest-start) phase of `strengthen_bounds_using_constraints`
(src/bounds/constraints.rs): for each constraint of the popped successor's
bucket, decrement the predecessor's `remaining` (the `assert!` is `none`),
tighten the predecessor's `latest_start`, and push predecessors that reach
zero.  `builder_job j` is `builders[j].job`, i.e. `problem.jobs[j].get_index()`
of the original job vector. -/
def strengthen_phase1_bucket (builder_job : Nat → Nat)
    (latest_successor_start : Int) :
    List Constraint → (Nat → Int) → List Nat → List Job → Bool →
    Option ((Nat → Int) × List Nat × List Job × Bool)
  | [], remaining, stack, jobs, modified => some (remaining, stack, jobs, modified)
  | c :: rest, remaining, stack, jobs, modified => do
    let r := remaining c.before - 1
    if r < 0 then none
    else
      let idx := builder_job c.before
      let predecessor_job ← jobs.get? idx
      let gap := c.delay +
        (if c.constraint_type = .FinishToStart then predecessor_job.execution_time else 0)
      let bound := latest_successor_start - gap
      let next :=
        if bound < predecessor_job.latest_start then
          (jobs.set idx { predecessor_job with latest_start := bound }, true)
        else (jobs, modified)
      strengthen_phase1_bucket builder_job latest_successor_start rest
        (fun x => if x = c.before then r else remaining x)
        (if r = 0 then idx :: stack else stack) next.1 next.2

/-- The `while !next_jobs.is_empty()` loop of the first phase of
`strengthen_bounds_using_constraints`: pop a successor, read its (final)
`latest_start`, and process its bucket of incoming constraints (the
constraints counting-sorted by their `after` job). -/
def strengthen_phase1_go (builder_job : Nat → Nat) (constraints : List Constraint) :
    Nat → (Nat → Int) → List Nat → List Nat → List Job → Bool →
    Option (List Job × List Nat × Bool)
  | 0, _, _, _, _, _ => none
  | _ + 1, _, [], completed, jobs, modified => some (jobs, completed, modified)
  | fuel + 1, remaining, successor :: rest, completed, jobs, modified => do
    let successor_job ← jobs.get? successor
    let (remaining1, stack1, jobs1, modified1) ←
      strengthen_phase1_bucket builder_job successor_job.latest_start
        (constraints.filter fun c => decide (c.after = successor))
        remaining rest jobs modified
    strengthen_phase1_go builder_job constraints fuel remaining1 stack1
      (completed ++ [successor]) jobs1 modified1

/-- The inner loop of the second (earliest-start) phase of
`strengthen_bounds_using_constraints`: for each constraint of the visited
predecessor's bucket (the constraints counting-sorted by their `before` job),
decrement the successor's `remaining`, and raise the successor's
`earliest_start`. -/
def strengthen_phase2_bucket (builder_job : Nat → Nat)
    (earliest_predecessor_start predecessor_execution_time : Int) :
    List Constraint → (Nat → Int) → List Job → Bool →
    Option ((Nat → Int) × List Job × Bool)
  | [], remaining, jobs, modified => some (remaining, jobs, modified)
  | c :: rest, remaining, jobs, modified => do
    let r := remaining c.after - 1
    if r < 0 then none
    else
      let idx := builder_job c.after
      let successor_job ← jobs.get? idx
      let gap := c.delay +
        (if c.constraint_type = .FinishToStart then predecessor_execution_time else 0)
      let bound := earliest_predecessor_start + gap
      let next :=
        if successor_job.earliest_start < bound then
          (jobs.set idx { successor_job with earliest_start := bound }, true)
        else (jobs, modified)
      strengthen_phase2_bucket builder_job earliest_predecessor_start
        predecessor_execution_time rest
        (fun x => if x = c.after then r else remaining x) next.1 next.2

/-- The `for predecessor in completed_jobs.iter().rev()` loop of the second
phase of `strengthen_bounds_using_constraints` (the argument list is the
already-reversed `completed_jobs`). -/
def strengthen_phase2_go (builder_job : Nat → Nat) (constraints : List Constraint) :
    List Nat → (Nat → Int) → List Job → Bool → Option (List Job × Bool)
  | [], _, jobs, modified => some (jobs, modified)
  | predecessor :: rest, remaining, jobs, modified => do
    let predecessor_job ← jobs.get? predecessor
    let (remaining1, jobs1, modified1) ←
      strengthen_phase2_bucket builder_job predecessor_job.earliest_start
        predecessor_job.execution_time
        (constraints.filter fun c => decide (c.before = predecessor))
        remaining jobs modified
    strengthen_phase2_go builder_job constraints rest remaining1 jobs1 modified1

/-- `strengthen_bounds_using_constraints` from src/bounds/constraints.rs.
Returns the mutated problem together with the tri-valued result; `none`
models a Rust panic (out-of-range indexing / failed `assert!`). -/
def strengthen_bounds_using_constraints (p : Problem) :
    Option (Problem × StrengthenConstraintsResult) := do
  let n := p.jobs.length
  -- `builders[constraint.get_before()]` / `builders[constraint.get_after()]`
  -- panic when an endpoint is out of range.
  if p.constraints.all fun c => decide (c.before < n) && decide (c.after < n) then
    let builder_job : Nat → Nat := fun i => (p.jobs.getD i Job.dummy).index
    let remaining1 : Nat → Int := fun j =>
      ((p.constraints.filter fun c => decide (c.before = j)).length : Int)
    let seed1 := (((List.range n).filter fun j => decide (remaining1 j = 0)).map
      builder_job).reverse
    let (jobs1, completed, modified1) ←
      strengthen_phase1_go builder_job p.constraints
        (2 * n + p.constraints.length + 1) remaining1 seed1 [] p.jobs false
    if completed.length = n then
      let remaining2 : Nat → Int := fun j =>
        ((p.constraints.filter fun c => decide (c.after = j)).length : Int)
      let (jobs2, modified2) ←
        strengthen_phase2_go builder_job p.constraints completed.reverse
          remaining2 jobs1 modified1
      some ({ p with jobs := jobs2 },
        if modified2 then .Modified else .Nothing)
    else
      some ({ p with jobs := jobs1 }, .Cyclic)
  else none

/-! ## The certain-occupation timeline, src/bounds/occupation.rs -/

/-- The `OccupationStrengthenResult` enum from src/bounds/occupation.rs. -/
inductive OccupationStrengthenResult where
  | Unchanged
  | Modified
  | Infeasible
deriving DecidableEq, Repr

/-- The `OccupationInterval` struct from src/bounds/occupation.rs. -/
structure OccupationInterval where
  start : Int
  num_cores : Nat
deriving DecidableEq, Repr

/-- The `RefineResult` enum from src/bounds/occupation.rs. -/
inductive RefineResult where
  | Unchanged
  | ModifiedJob
  | ModifiedJobAndIntervals
  | Infeasible
deriving DecidableEq, Repr

/-- The `OccupationTimeline` struct from src/bounds/occupation.rs. -/
structure OccupationTimeline where
  intervals : List OccupationInterval
  max_num_cores : Nat
deriving DecidableEq, Repr

namespace OccupationTimeline

/-- `OccupationTimeline::new` from src/bounds/occupation.rs. -/
def new (num_cores : Nat) : OccupationTimeline :=
  ⟨[⟨0, 0⟩], num_cores⟩

/-- `intervals.binary_search_by_key(&key, |i| i.start)` on the (sorted)
interval list: `Sum.inl i` for `Ok(i)` (the index holding `key`; interval
starts are pairwise distinct in well-formed timelines) and `Sum.inr i` for
`Err(i)` (the insertion point, i.e. the number of entries below `key`). -/
def binary_search_start (intervals : List OccupationInterval) (key : Int) :
    Nat ⊕ Nat :=
  match intervals.findIdx? fun i => decide (i.start = key) with
  | some i => Sum.inl i
  | none => Sum.inr (intervals.filter fun i => decide (i.start < key)).length

/-- The `for index in start_index ..= end_index` increment loop of
`OccupationTimeline::insert`: increment the busy-core count of each step; as
soon as a count would exceed `max_num_cores`, stop and report infeasibility,
leaving the earlier increments (and any splits) in place. -/
def increment_go (max_num_cores : Nat) :
    Nat → List OccupationInterval → Nat → Bool × List OccupationInterval
  | 0, intervals, _ => (false, intervals)
  | count + 1, intervals, index =>
    let iv := intervals.getD index ⟨0, 0⟩
    let more_cores := iv.num_cores + 1
    if max_num_cores < more_cores then (true, intervals)
    else
      increment_go max_num_cores count
        (intervals.set index { iv with num_cores := more_cores }) (index + 1)

/-- The `for index in start_index ..= end_index` loop, entered with the
number of indices in the (possibly empty) inclusive range. -/
def increment_range (max_num_cores : Nat) (intervals : List OccupationInterval)
    (start_index end_index : Nat) : Bool × List OccupationInterval :=
  increment_go max_num_cores (end_index + 1 - start_index) intervals start_index

/-- The first coalescing `while` of `OccupationTimeline::insert`: drop the
entry at `start_index` while it repeats the count of its left neighbour
(each removal also decrements `end_index`). -/
def coalesce_left (intervals : List OccupationInterval)
    (start_index end_index fuel : Nat) : List OccupationInterval × Nat :=
  match fuel with
  | 0 => (intervals, end_index)
  | fuel + 1 =>
    if 0 < start_index ∧ start_index < intervals.length ∧
        (intervals.getD start_index ⟨0, 0⟩).num_cores =
          (intervals.getD (start_index - 1) ⟨0, 0⟩).num_cores then
      coalesce_left (intervals.eraseIdx start_index) start_index (end_index - 1) fuel
    else (intervals, end_index)

/-- The second coalescing `while` of `OccupationTimeline::insert`: drop the
entry after `end_index` while it repeats the count at `end_index`. -/
def coalesce_right (intervals : List OccupationInterval)
    (end_index fuel : Nat) : List OccupationInterval :=
  match fuel with
  | 0 => intervals
  | fuel + 1 =>
    if end_index + 1 < intervals.length ∧
        (intervals.getD end_index ⟨0, 0⟩).num_cores =
          (intervals.getD (end_index + 1) ⟨0, 0⟩).num_cores then
      coalesce_right (intervals.eraseIdx (end_index + 1)) end_index fuel
    else intervals

/-- `OccupationTimeline::insert` from src/bounds/occupation.rs.  The `Bool`
is the Rust return value (`true` = certainly infeasible); the timeline is the
mutated `self`.  `none` models a Rust panic (a `usize` underflow on an
out-of-range binary-search result; impossible on well-formed timelines with
`start ≥ 0` entries and jobs of positive execution time).  The coalescing
loops get fuel `intervals.length`, which bounds the possible removals. -/
def insert (tl : OccupationTimeline) (job : Job) :
    Option (Bool × OccupationTimeline) := do
  if job.get_earliest_finish ≤ job.latest_start then
    some (false, tl)
  else
    -- locate / create the step boundary at `earliest_finish`
    let (end_index0, intervals0) ←
      match binary_search_start tl.intervals job.get_earliest_finish with
      | Sum.inl exact_bound_index =>
        if exact_bound_index = 0 then none
        else some (exact_bound_index - 1, tl.intervals)
      | Sum.inr bound_index =>
        if bound_index = 0 then none
        else
          let end_index := bound_index - 1
          some (end_index, tl.intervals.insertIdx bound_index
            ⟨job.get_earliest_finish,
             (tl.intervals.getD end_index ⟨0, 0⟩).num_cores⟩)
    -- locate / create the step boundary at `latest_start`
    let (start_index, end_index, intervals1) ←
      match binary_search_start intervals0 job.latest_start with
      | Sum.inl exact_start_index => some (exact_start_index, end_index0, intervals0)
      | Sum.inr next_start_index =>
        if next_start_index = 0 then none
        else
          let num_cores := (intervals0.getD (next_start_index - 1) ⟨0, 0⟩).num_cores
          let nxt := intervals0.getD next_start_index ⟨0, 0⟩
          if next_start_index < intervals0.length ∧
              num_cores + 1 = nxt.num_cores ∧
              job.get_earliest_finish ≤ nxt.start then
            some (next_start_index, end_index0,
              intervals0.set next_start_index { nxt with start := job.latest_start })
          else
            some (next_start_index, end_index0 + 1,
              intervals0.insertIdx next_start_index ⟨job.latest_start, num_cores⟩)
    let (overflow, intervals2) :=
      increment_range tl.max_num_cores intervals1 start_index end_index
    if overflow then
      some (true, { tl with intervals := intervals2 })
    else
      let (intervals3, end_index3) :=
        coalesce_left intervals2 start_index end_index intervals2.length
      let intervals4 := coalesce_right intervals3 end_index3 intervals3.length
      some (false, { tl with intervals := intervals4 })

/-- `OccupationTimeline::find_interruption` from src/bounds/occupation.rs:
the first step index in the range covering `[start, bound)` whose count
equals `max_num_cores`.  The outer `Option` models the Rust panic on a
`usize` underflow (key below every entry). -/
def find_interruption (tl : OccupationTimeline) (start bound : Int) :
    Option (Option Nat) := do
  let start_index ←
    match binary_search_start tl.intervals start with
    | Sum.inl i => some i
    | Sum.inr 0 => none
    | Sum.inr (n + 1) => some n
  let bound_index :=
    match binary_search_start tl.intervals bound with
    | Sum.inl i => i
    | Sum.inr n => n
  some ((List.range' start_index (bound_index - start_index)).find? fun index =>
    decide ((tl.intervals.getD index ⟨0, 0⟩).num_cores = tl.max_num_cores))

/-- The first `loop` of `OccupationTimeline::refine`: advance
`earliest_start` past interruptions in `[earliest_start, interruption_bound)`.
Fueled; each Rust iteration strictly advances `earliest_start` on a
well-formed timeline, so `intervals.length + 1` iterations always suffice
there (`none` models divergence / a panic of the Rust loop). -/
def refine_advance_es (tl : OccupationTimeline) (old : Job) :
    Nat → Job → Option Job
  | 0, _ => none
  | fuel + 1, job => do
    let interruption_bound :=
      if old.latest_start < old.get_earliest_finish then
        min job.get_earliest_finish old.latest_start
      else job.get_earliest_finish
    let maybe_interruption ← tl.find_interruption job.earliest_start interruption_bound
    match maybe_interruption with
    | none => some job
    | some interruption_index => do
      let nxt ← tl.intervals.get? (interruption_index + 1)
      let job1 := { job with earliest_start := nxt.start }
      if old.latest_start < old.get_earliest_finish then
        let job2 := { job1 with earliest_start := min job1.earliest_start old.latest_start }
        if job2.earliest_start = job2.latest_start then some job2
        else refine_advance_es tl old fuel job2
      else refine_advance_es tl old fuel job1

/-- The second `loop` of `OccupationTimeline::refine`: pull `latest_finish`
down past interruptions in `[max(latest_start, earliest_finish), latest_finish)`. -/
def refine_retreat_lf (tl : OccupationTimeline) (old : Job) :
    Nat → Job → Option Job
  | 0, _ => none
  | fuel + 1, job => do
    let maybe_interruption ← tl.find_interruption
      (max job.latest_start job.get_earliest_finish) job.get_latest_finish
    match maybe_interruption with
    | none => some job
    | some interruption_index =>
      let iv := tl.intervals.getD interruption_index ⟨0, 0⟩
      let job1 := job.set_latest_finish iv.start
      if old.latest_start < old.get_earliest_finish then
        let job2 := job1.set_latest_finish
          (max job1.get_latest_finish old.get_earliest_finish)
        if job2.earliest_start = job2.latest_start then some job2
        else refine_retreat_lf tl old fuel job2
      else refine_retreat_lf tl old fuel job1

/-- `OccupationTimeline::refine` from src/bounds/occupation.rs, instrumented:
returns the result, the mutated timeline and the mutated job, plus one extra
`Bool` recording whether one of the two internal `self.insert(..)` calls
returned `true` — the source *discards* those return values (only their
mutation of the timeline is kept); `refine` below projects the extra flag
away again. -/
def refine_full (tl : OccupationTimeline) (job : Job) :
    Option (RefineResult × OccupationTimeline × Job × Bool) := do
  if job.latest_start ≤ job.earliest_start then
    some (.Unchanged, tl, job, false)
  else
    let old := job
    let job1 ← refine_advance_es tl old (tl.intervals.length + 1) job
    let job2 ← refine_retreat_lf tl old (tl.intervals.length + 1) job1
    if job2.is_certainly_infeasible then
      some (.Infeasible, tl, job2, false)
    else if job2 = old then
      some (.Unchanged, tl, job2, false)
    else
      if old.latest_start < old.get_earliest_finish then do
        let (tl1, result1, over1) ←
          if job2.latest_start < old.latest_start then do
            let (overA, tlA) ← tl.insert (Job.release_to_deadline job2.index
              job2.latest_start (old.latest_start - job2.latest_start)
              old.latest_start)
            some (tlA, RefineResult.ModifiedJobAndIntervals, overA)
          else
            some (tl, RefineResult.ModifiedJob, false)
        let (tl2, result2, over2) ←
          if old.get_earliest_finish < job2.get_earliest_finish then do
            let (overB, tlB) ← tl1.insert (Job.release_to_deadline job2.index
              old.get_earliest_finish
              (job2.get_earliest_finish - old.get_earliest_finish)
              job2.get_earliest_finish)
            some (tlB, RefineResult.ModifiedJobAndIntervals, over1 || overB)
          else
            some (tl1, result1, over1)
        some (result2, tl2, job2, over2)
      else if job2.latest_start < job2.get_earliest_finish then do
        let (overC, tlC) ← tl.insert job2
        some (.ModifiedJobAndIntervals, tlC, job2, overC)
      else
        some (.ModifiedJob, tl, job2, false)

/-- `OccupationTimeline::refine` from src/bounds/occupation.rs: exactly
`refine_full` with the instrumentation flag dropped, i.e. the interface of
the Rust method. -/
def refine (tl : OccupationTimeline) (job : Job) :
    Option (RefineResult × OccupationTimeline × Job) :=
  (tl.refine_full job).map fun r => (r.1, r.2.1, r.2.2.1)

end OccupationTimeline

/-- The `for job in &problem.jobs { timeline.insert(*job) }` prefix of
`strengthen_bounds_using_core_occupation` (src/bounds/occupation.rs):
`Sum.inl` when some insert reports certain infeasibility. -/
def occupation_insert_all (tl : OccupationTimeline) :
    List Job → Option (OccupationTimeline ⊕ OccupationTimeline)
  | [] => some (Sum.inr tl)
  | job :: rest => do
    let (infeasible, tl1) ← tl.insert job
    if infeasible then some (Sum.inl tl1)
    else occupation_insert_all tl1 rest

/-- One `for job in &mut problem.jobs` refinement pass of
`strengthen_bounds_using_core_occupation`: refines every job in order,
threading the timeline and the mutated job list, and reporting whether any
refinement modified an interval or a job. -/
def occupation_refine_pass (tl : OccupationTimeline) :
    List Job → Option ((OccupationTimeline × List Job) ⊕ (OccupationTimeline × List Job × Bool × Bool))
  | [] => some (Sum.inr (tl, [], false, false))
  | job :: rest => do
    let (result, tl1, job1) ← tl.refine job
    if result = .Infeasible then
      some (Sum.inl (tl1, job1 :: rest))
    else do
      let r ← occupation_refine_pass tl1 rest
      match r with
      | Sum.inl (tl2, rest2) => some (Sum.inl (tl2, job1 :: rest2))
      | Sum.inr (tl2, rest2, modified_interval, modified_job) =>
        some (Sum.inr (tl2, job1 :: rest2,
          (modified_interval || decide (result = .ModifiedJobAndIntervals)),
          (modified_job || decide (result = .ModifiedJob))))

/-- The fixed-point `loop` of `strengthen_bounds_using_core_occupation`,
with explicit fuel for the number of passes (the Rust loop terminates because
bounds only tighten; the fuel only bounds the recursion). -/
def occupation_fixpoint (fuel : Nat) (tl : OccupationTimeline) (jobs : List Job)
    (modified_anything : Bool) :
    Option ((OccupationTimeline × List Job) ⊕ (List Job × Bool)) :=
  match fuel with
  | 0 => none
  | fuel + 1 => do
    let r ← occupation_refine_pass tl jobs
    match r with
    | Sum.inl bad => some (Sum.inl bad)
    | Sum.inr (tl1, jobs1, modified_interval, modified_job) =>
      let modified1 := modified_anything || modified_interval || modified_job
      if modified_interval then occupation_fixpoint fuel tl1 jobs1 modified1
      else some (Sum.inr (jobs1, modified1))

/-- `strengthen_bounds_using_core_occupation` from src/bounds/occupation.rs,
with explicit fuel for the fixed-point loop.  Returns the mutated problem and
the tri-valued result (on `Infeasible` the problem holds the jobs refined so
far, as in the in-place Rust mutation). -/
def strengthen_bounds_using_core_occupation (fuel : Nat) (p : Problem) :
    Option (Problem × OccupationStrengthenResult) := do
  let tl0 := OccupationTimeline.new p.num_cores
  let ins ← occupation_insert_all tl0 p.jobs
  match ins with
  | Sum.inl _ => some (p, .Infeasible)
  | Sum.inr tl1 => do
    let fix ← occupation_fixpoint fuel tl1 p.jobs false
    match fix with
    | Sum.inl (_, jobs1) => some ({ p with jobs := jobs1 }, .Infeasible)
    | Sum.inr (jobs1, modified_anything) =>
      some ({ p with jobs := jobs1 },
        if modified_anything then .Modified else .Unchanged)

/-! ## The interval tree, src/necessary/interval_tree.rs -/

/-- The `JobInterval` struct from src/necessary/interval_tree.rs (the Rust
field `end` is called `end_time` here because `end` is a Lean keyword). -/
structure JobInterval where
  job : Nat
  start : Int
  end_time : Int
deriving DecidableEq, Repr

/-- The `IntervalTree` struct from src/necessary/interval_tree.rs.  The Rust
struct has two `Option<Rc<Self>>` children which `split` either leaves both
`None` (a leaf; `split_time` stays `0`) or sets both; the embedding uses a
`leaf` / `node` inductive for exactly these two shapes.  (The `stack` field
is only scratch space of `query`.) -/
inductive IntervalTree where
  | leaf (middle : List JobInterval)
  | node (split_time : Int) (middle : List JobInterval)
      (before after : IntervalTree)
deriving Repr

namespace IntervalTree

/-- `IntervalTree::split` from src/necessary/interval_tree.rs, applied to a
fresh node holding the inserted intervals in `middle` (that is the only state
in which the source ever calls it).  The source recurses while a node holds
at least 50 intervals; when every interval falls into one child the Rust
recursion never terminates (a stack overflow), which the explicit `fuel`
models: on fuel 0 the node is left unsplit. -/
def split_list (fuel : Nat) (middle : List JobInterval) : IntervalTree :=
  match fuel with
  | 0 => .leaf middle
  | fuel + 1 =>
    if middle.length < 50 then .leaf middle
    else
      let sorted := List.insertionSort
        (fun a b => a.start + a.end_time ≤ b.start + b.end_time) middle
      let split_interval := sorted.getD (sorted.length / 2) ⟨0, 0, 0⟩
      let split_time := (split_interval.start + split_interval.end_time) / 2
      let before_list := sorted.filter fun i => decide (i.end_time ≤ split_time)
      let after_list := sorted.filter fun i =>
        decide (¬ i.end_time ≤ split_time) && decide (split_time ≤ i.start)
      let kept := sorted.filter fun i =>
        decide (¬ i.end_time ≤ split_time) && decide (¬ split_time ≤ i.start)
      .node split_time kept (split_list fuel before_list) (split_list fuel after_list)

/-- `IntervalTree::query` from src/necessary/interval_tree.rs: collect, from
every node whose half-plane the query interval touches, the `middle` entries
with `start < interval.end ∧ end > interval.start`.  The Rust code drives an
explicit stack and appends to an output vector; the embedding returns the
same collection (the multiset of emitted intervals is identical, the DFS
emission order is not preserved). -/
def query (t : IntervalTree) (interval : JobInterval) : List JobInterval :=
  match t with
  | .leaf middle =>
    middle.filter fun c =>
      decide (c.start < interval.end_time) && decide (interval.start < c.end_time)
  | .node split_time middle before after =>
    (middle.filter fun c =>
      decide (c.start < interval.end_time) && decide (interval.start < c.end_time)) ++
    (if interval.start < split_time then before.query interval else []) ++
    (if split_time < interval.end_time then after.query interval else [])

end IntervalTree

/-! ## The feasibility interval test, src/necessary/interval.rs -/

/-- The `for interval in &self.relevant_jobs` loop of `IntervalTest::next`
(src/necessary/interval.rs): turn every overlapping interval into its
required in-window load `min(exec - non_overlapping, window length)`,
skipping intervals with `exec ≤ non_overlapping`. -/
def required_loads_go (p : Problem) (start_time end_time : Int) :
    List JobInterval → Option (List Int)
  | [] => some []
  | interval :: rest => do
    let j ← p.jobs.get? interval.job
    let non1 := if interval.start < start_time then start_time - interval.start else 0
    let non_overlapping_time :=
      if end_time < interval.end_time then max non1 (interval.end_time - end_time)
      else non1
    let rest1 ← required_loads_go p start_time end_time rest
    if non_overlapping_time < j.execution_time then
      some (min (j.execution_time - non_overlapping_time) (end_time - start_time) :: rest1)
    else
      some rest1

/-- The interval tree built by `IntervalTest::new` (src/necessary/interval.rs):
one interval `[earliest_start, latest_finish)` per job, then one `split()`. -/
def interval_test_tree (split_fuel : Nat) (p : Problem) : IntervalTree :=
  IntervalTree.split_list split_fuel
    (p.jobs.map fun j => ⟨j.index, j.earliest_start, j.get_latest_finish⟩)

/-- The `loop` of `run_feasibility_interval_test` iterating `IntervalTest::next`
(src/necessary/interval.rs) over the remaining suffix of the job vector
(`next_job_index` is the cursor).  Like the Rust code, an empty job vector
makes the first `next` index out of bounds (`none`). -/
def interval_test_go (p : Problem) (tree : IntervalTree) :
    List Job → Option Bool
  | [] => none
  | next_job :: rest => do
    let start_time := next_job.earliest_start
    let end_time := next_job.get_latest_finish
    let relevant_jobs := tree.query ⟨next_job.index, start_time, end_time⟩
    let required_loads ← required_loads_go p start_time end_time relevant_jobs
    if is_certainly_unpackable p.num_cores (end_time - start_time) required_loads then
      some true
    else
      match rest with
      | [] => some false
      | _ => interval_test_go p tree rest

/-- `run_feasibility_interval_test` from src/necessary/interval.rs (the
interval-tree `split` gets explicit fuel, see `IntervalTree.split_list`). -/
def run_feasibility_interval_test (split_fuel : Nat) (p : Problem) : Option Bool :=
  interval_test_go p (interval_test_tree split_fuel p) p.jobs

/-! ## The pipeline driver, src/main.rs -/

/-- The three verdicts printed by `main` (src/main.rs): `INFEASIBLE`,
the cyclic message, and the "may or may not be feasible" message. -/
inductive Verdict where
  | INFEASIBLE
  | CYCLIC
  | UNKNOWN
deriving DecidableEq, Repr

/-- The pipeline driver `main` from src/main.rs (after parsing): permute,
strengthen by constraints (run once — the `debug_assert!` re-run is compiled
out of release builds and is a fixed point), strengthen by core occupation
(its result is discarded by the source!), permute back, then the certain
infeasibility check, the load test and the interval test.  `occupation_fuel`
and `split_fuel` are passed to the two fueled analyses; `none` models a Rust
panic in any stage. -/
def main_verdict (occupation_fuel split_fuel : Nat) (p : Problem) :
    Option Verdict := do
  match ProblemPermutation.possible p with
  | none => some .CYCLIC
  | some (p1, permutation) => do
    let (p2, _) ← strengthen_bounds_using_constraints p1
    let (p3, _) ← strengthen_bounds_using_core_occupation occupation_fuel p2
    let p4 := permutation.transform_back p3
    if p4.is_certainly_infeasible then some .INFEASIBLE
    else do
      let load ← run_feasibility_load_test p4
      if load then some .INFEASIBLE
      else do
        let itest ← run_feasibility_interval_test split_fuel p4
        if itest then some .INFEASIBLE else some .UNKNOWN

/-! ## Schedules (the feasibility notion of claim C1)

Formalised from the claim's words: an assignment of a start time and a core
to every job such that each job starts within
`[earliest_start, latest_start]`, executes for `execution_time` units
non-preemptively, at most `num_cores` jobs execute at any instant, and every
constraint's finish-to-start / start-to-start relation with its delay holds. -/

/-- Constraint satisfaction by a start-time assignment (`starts` is indexed
like `p.jobs`): finish-to-start means
`start(after) ≥ start(before) + execution_time(before) + delay`,
start-to-start means `start(after) ≥ start(before) + delay`. -/
def ConstraintSatisfied (p : Problem) (starts : List Int) (c : Constraint) : Prop :=
  match c.constraint_type with
  | .FinishToStart =>
    starts.getD c.before 0 + (p.jobs.getD c.before Job.dummy).execution_time +
      c.delay ≤ starts.getD c.after 0
  | .StartToStart =>
    starts.getD c.before 0 + c.delay ≤ starts.getD c.after 0

/-- A feasible schedule for `p`: start times and cores for all jobs, window
respected, at most `num_cores` jobs executing at any instant, constraints
satisfied. -/
def FeasibleSchedule (p : Problem) (starts : List Int) (cores : List Nat) : Prop :=
  starts.length = p.jobs.length ∧ cores.length = p.jobs.length ∧
  (∀ i, i < p.jobs.length →
    cores.getD i 0 < p.num_cores ∧
    (p.jobs.getD i Job.dummy).earliest_start ≤ starts.getD i 0 ∧
    starts.getD i 0 ≤ (p.jobs.getD i Job.dummy).latest_start) ∧
  (∀ t : Int,
    ((Finset.range p.jobs.length).filter fun i =>
      starts.getD i 0 ≤ t ∧ t < starts.getD i 0 + (p.jobs.getD i Job.dummy).execution_time).card
      ≤ p.num_cores) ∧
  (∀ c ∈ p.constraints, ConstraintSatisfied p starts c)

/-! ## Timeline operation sequences (claim C6) -/

/-- One mutation of an `OccupationTimeline`: a public `insert` or a `refine`
(src/bounds/occupation.rs). -/
inductive TimelineOp where
  | ins (j : Job)
  | ref (j : Job)

/-- Run one operation, keeping only runs in which nothing signalled
infeasibility: an `insert` must return `false`, a `refine` must not return
`Infeasible`, and — the condition added by the amended claim C6 — no insert
performed *internally* by `refine` may return `true` either (the source
discards those signals). -/
def run_op (tl : OccupationTimeline) : TimelineOp → Option OccupationTimeline
  | .ins j => do
    let (infeasible, tl1) ← tl.insert j
    if infeasible then none else some tl1
  | .ref j => do
    let (result, tl1, _, internal_overflow) ← tl.refine_full j
    if result = .Infeasible ∨ internal_overflow then none else some tl1

/-- Run a sequence of operations from a given timeline. -/
def run_ops (tl : OccupationTimeline) (ops : List TimelineOp) :
    Option OccupationTimeline :=
  ops.foldlM run_op tl

/-- The step-function invariant of claim C6: entries strictly sorted by start
time, adjacent entries with distinct busy-core counts, every count at most
`max_num_cores`. -/
def TimelineWF (tl : OccupationTimeline) : Prop :=
  List.Chain' (fun a b => a.start < b.start ∧ a.num_cores ≠ b.num_cores)
    tl.intervals ∧
  ∀ iv ∈ tl.intervals, iv.num_cores ≤ tl.max_num_cores

/-- Positional strict sortedness of interval starts. -/
def SortedP (l : List OccupationInterval) : Prop :=
  ∀ j k, j < k → k < l.length →
    (l.getD j ⟨0, 0⟩).start < (l.getD k ⟨0, 0⟩).start

/-- Positional bound on the per-step core counts. -/
def CntLeP (l : List OccupationInterval) (m : Nat) : Prop :=
  ∀ k, k < l.length → (l.getD k ⟨0, 0⟩).num_cores ≤ m

/-- Positional distinctness of adjacent core counts. -/
def AdjP (l : List OccupationInterval) : Prop :=
  ∀ k, k + 1 < l.length →
    (l.getD k ⟨0, 0⟩).num_cores ≠ (l.getD (k + 1) ⟨0, 0⟩).num_cores

/-- Positional access to a job list, with the `Job.dummy` default. -/
def jD (jobs : List Job) (i : Nat) : Job := jobs.getD i Job.dummy

/-- Constraints with a given `before` endpoint whose `after` endpoint is not
yet completed. -/
def cntB (cs : List Constraint) (x : Nat) (C : List Nat) : Nat :=
  cs.countP fun c => decide (c.before = x ∧ c.after ∉ C)

/-- Constraints with a given `before` endpoint. -/
def cntIn (cs : List Constraint) (x : Nat) : Nat :=
  cs.countP fun c => decide (c.before = x)

/-- Constraints with a given `after` endpoint whose `before` endpoint is not
yet processed. -/
def cntA (cs : List Constraint) (x : Nat) (C : List Nat) : Nat :=
  cs.countP fun c => decide (c.after = x ∧ c.before ∉ C)

/-- Constraints with a given `after` endpoint. -/
def cntInA (cs : List Constraint) (x : Nat) : Nat :=
  cs.countP fun c => decide (c.after = x)

/-- The phase-1 postcondition for one constraint: the predecessor's latest
start leaves room for the successor's latest start minus the gap. -/
def P1bound (c : Constraint) (jobs : List Job) : Prop :=
  (jD jobs c.before).latest_start ≤
    (jD jobs c.after).latest_start -
      (c.delay + (if c.constraint_type = .FinishToStart then
        (jD jobs c.before).execution_time else 0))

/-- The phase-2 postcondition for one constraint: the successor's earliest
start is at least the predecessor's earliest start plus the gap. -/
def P2bound (c : Constraint) (jobs : List Job) : Prop :=
  (jD jobs c.before).earliest_start +
    (c.delay + (if c.constraint_type = .FinishToStart then
      (jD jobs c.before).execution_time else 0)) ≤
    (jD jobs c.after).earliest_start

/-! ## Concrete instances used by the claims -/

/-- A valid, acyclic problem whose topological order is not an involution
(`completed_jobs = [1, 2, 0]`): job 1 precedes job 2 precedes job 0. -/
def permutation_cex_problem : Problem :=
  { jobs := [Job.release_to_deadline 0 0 1 10, Job.release_to_deadline 1 0 2 10,
             Job.release_to_deadline 2 0 3 10]
    constraints := [Constraint.new 1 2 0 .FinishToStart,
                    Constraint.new 2 0 0 .FinishToStart]
    num_cores := 1 }

/-- A feasible problem (schedule: job 1 at 0, job 2 at 1, job 0 at 9 on the
single core) with the same non-involutive precedence shape. -/
def pipeline_cex_problem : Problem :=
  { jobs := [Job.release_to_deadline 0 9 1 20, Job.release_to_deadline 1 0 1 2,
             Job.release_to_deadline 2 0 1 4]
    constraints := [Constraint.new 1 2 0 .FinishToStart,
                    Constraint.new 2 0 0 .FinishToStart]
    num_cores := 1 }

/-- Start times of the exhibited feasible schedule of `pipeline_cex_problem`. -/
def pipeline_cex_starts : List Int := [9, 0, 1]

/-- Core assignment of the exhibited feasible schedule (one core). -/
def pipeline_cex_cores : List Nat := [0, 0, 0]

/-- The load-test scenario of claim C8: `num_cores = 1`, jobs
`release_to_deadline(0, 0, 5, 16)`, `(1, 0, 3, 10)`, `(2, 0, 8, 10)`. -/
def load_scenario_problem : Problem :=
  { jobs := [Job.release_to_deadline 0 0 5 16, Job.release_to_deadline 1 0 3 10,
             Job.release_to_deadline 2 0 8 10]
    constraints := []
    num_cores := 1 }

/-- A size list with a negative entry: `is_certainly_unpackable 1 5` reports
it unpackable although `[6, -2]` fits in one bin of size 5. -/
def pack_cex_sizes : List Int := [6, -2]

/-- A job whose certain occupation `[5, 8)` saturates a single core
(`release_to_deadline 0 5 3 8`: start window `[5, 5]`, execution time 3). -/
def occupation_cex_blocker : Job := Job.release_to_deadline 0 5 3 8

/-- The job refined in the C6 counterexample (`release_to_deadline 1 5 2 8`:
earliest start 5, execution time 2, latest start 6).  Refining it against the
blocker's timeline moves its earliest start to 6, and the grown certain
coverage `[7, 8)` is re-inserted; that internal insert hits the blocker's
saturated step and aborts, skipping the coalescing step. -/
def occupation_cex_victim : Job := Job.release_to_deadline 1 5 2 8

/-- Running a timeline operation under the reading of claim C6 as stated:
an `insert` must return `false` and a `refine` must not return `Infeasible`
(nothing is required of the inserts `refine` performs internally, whose
results the source discards). -/
def run_op_claimed (tl : OccupationTimeline) : TimelineOp → Option OccupationTimeline
  | .ins j => do
    let (infeasible, tl1) ← tl.insert j
    if infeasible then none else some tl1
  | .ref j => do
    let (result, tl1, _) ← tl.refine j
    if result = .Infeasible then none else some tl1

/-- Run a sequence of operations under the reading of claim C6 as stated. -/
def run_ops_claimed (tl : OccupationTimeline) (ops : List TimelineOp) :
    Option OccupationTimeline :=
  ops.foldlM run_op_claimed tl

/-- A problem containing a job with `earliest_start ≥ latest_finish` (an
empty, inverted window `[10, 1)`): `release_to_deadline 0 10 1 1`. -/
def interval_cex_problem : Problem :=
  { jobs := [Job.release_to_deadline 0 10 1 1], constraints := [], num_cores := 1 }

/-- A problem whose job `index` fields do not match their positions
(positions 1 and 2 carry indices 2 and 1): `strengthen_bounds_using_constraints`
then redirects the earliest-start update of job 1 to job 2. -/
def strengthen_cex_problem : Problem :=
  { jobs := [⟨0, 1, 0, 100⟩, ⟨2, 1, 0, 100⟩, ⟨1, 1, 0, 100⟩]
    constraints := [Constraint.new 0 1 5 .StartToStart]
    num_cores := 1 }

/-- A small valid two-job chain used to witness the strengthening
postcondition. -/
def strengthen_wit_problem : Problem :=
  { jobs := [Job.release_to_deadline 0 0 2 20, Job.release_to_deadline 1 0 3 20]
    constraints := [Constraint.new 0 1 1 .FinishToStart]
    num_cores := 1 }

/-- The strengthened form of `strengthen_wit_problem`: job 0 pulled back to
`latest_start = 14`, job 1 pushed up to `earliest_start = 3`. -/
def strengthen_wit_result : Problem :=
  { jobs := [⟨0, 2, 0, 14⟩, ⟨1, 3, 3, 17⟩]
    constraints := [Constraint.new 0 1 1 .FinishToStart]
    num_cores := 1 }

instance (p : Problem) : Decidable p.validate :=
  inferInstanceAs (Decidable (_ ∧ _))

/-! ## Flatten-position bookkeeping (for the bin-packing soundness proof) -/

/-- Which group of `G` a position of `G.flatten` falls into. -/
def groupIdx : List (List Int) → Nat → Nat
  | [], _ => 0
  | g :: G, p => if p < g.length then 0 else groupIdx G (p - g.length) + 1

/-- The offset inside its group of a position of `G.flatten`. -/
def innerIdx : List (List Int) → Nat → Nat
  | [], p => p
  | g :: G, p => if p < g.length then p else innerIdx G (p - g.length)

/-- The flat position of offset `a` inside group `j` of `G`. -/
def flatPos : List (List Int) → Nat → Nat → Nat
  | [], _, a => a
  | _ :: _, 0, a => a
  | g :: G, j + 1, a => g.length + flatPos G j a

/-!
# Theorems
-/

/-! ## Shared lemmas for the bin-packing soundness proof (C5) -/

/-- A permutation of lists induces a position bijection preserving values. -/
theorem perm_get_equiv {α : Type} {l1 l2 : List α} (h : l1.Perm l2) :
    ∃ e : Fin l1.length ≃ Fin l2.length, ∀ i, l1.get i = l2.get (e i) := by
  induction h with
  | nil => exact ⟨Equiv.refl _, fun i => i.elim0⟩
  | cons x _ ih =>
    obtain ⟨e, he⟩ := ih
    refine ⟨(finSuccEquiv _).trans (e.optionCongr.trans (finSuccEquiv _).symm),
      fun i => ?_⟩
    refine Fin.cases ?_ (fun j => ?_) i
    · simp [finSuccEquiv_zero, Equiv.optionCongr_apply, finSuccEquiv_symm_none]
    · simpa [finSuccEquiv_succ, Equiv.optionCongr_apply, finSuccEquiv_symm_some,
        List.get_cons_succ] using he j
  | swap x y l =>
    have h0 : 0 < (y :: x :: l).length := by simp
    have h1 : 1 < (y :: x :: l).length := by
      simp only [List.length_cons]
      omega
    have hlen2 : (y :: x :: l).length = (x :: y :: l).length := rfl
    refine ⟨(Equiv.swap ⟨0, h0⟩ ⟨1, h1⟩).trans (finCongr hlen2), fun i => ?_⟩
    rcases i with ⟨iv, hiv⟩
    rcases iv with _ | iv
    · have h00 : (⟨0, hiv⟩ : Fin (y :: x :: l).length) = ⟨0, h0⟩ := rfl
      rw [h00, Equiv.trans_apply, Equiv.swap_apply_left]
      rfl
    · rcases iv with _ | iv
      · have h11 : (⟨0 + 1, hiv⟩ : Fin (y :: x :: l).length) = ⟨1, h1⟩ := rfl
        rw [h11, Equiv.trans_apply, Equiv.swap_apply_right]
        rfl
      · rw [Equiv.trans_apply, Equiv.swap_apply_of_ne_of_ne
          (show (⟨iv + 1 + 1, hiv⟩ : Fin (y :: x :: l).length) ≠ ⟨0, h0⟩ by
            simp [Fin.ext_iff])
          (show (⟨iv + 1 + 1, hiv⟩ : Fin (y :: x :: l).length) ≠ ⟨1, h1⟩ by
            simp [Fin.ext_iff])]
        rfl
  | trans _ _ ih1 ih2 =>
    obtain ⟨e1, he1⟩ := ih1
    obtain ⟨e2, he2⟩ := ih2
    exact ⟨e1.trans e2, fun i => (he1 i).trans (he2 (e1 i))⟩

theorem groupIdx_lt (G : List (List Int)) (p : Nat) (hp : p < G.flatten.length) :
    groupIdx G p < G.length := by
  induction G generalizing p with
  | nil => simp at hp
  | cons g G ih =>
    rw [groupIdx]
    split
    · simp
    · have hlen : p - g.length < G.flatten.length := by
        simp only [List.flatten_cons, List.length_append] at hp
        omega
      simpa using ih (p - g.length) hlen

theorem innerIdx_lt (G : List (List Int)) (p : Nat) (hp : p < G.flatten.length) :
    innerIdx G p < (G.getD (groupIdx G p) []).length := by
  induction G generalizing p with
  | nil => simp at hp
  | cons g G ih =>
    rw [groupIdx, innerIdx]
    split
    · simpa
    · have hlen : p - g.length < G.flatten.length := by
        simp only [List.flatten_cons, List.length_append] at hp
        omega
      simpa using ih (p - g.length) hlen

theorem flatten_getD_eq (G : List (List Int)) (p : Nat) (hp : p < G.flatten.length) :
    G.flatten.getD p 0 = (G.getD (groupIdx G p) []).getD (innerIdx G p) 0 := by
  induction G generalizing p with
  | nil => simp at hp
  | cons g G ih =>
    rw [groupIdx, innerIdx, List.flatten_cons]
    split
    · rw [List.getD_append _ _ _ _ (by assumption)]
      simp
    · have hlen : p - g.length < G.flatten.length := by
        simp only [List.flatten_cons, List.length_append] at hp
        omega
      rw [List.getD_append_right _ _ _ _ (by omega)]
      simpa using ih (p - g.length) hlen

theorem flatPos_spec (G : List (List Int)) (j a : Nat) (hj : j < G.length)
    (ha : a < (G.getD j []).length) :
    flatPos G j a < G.flatten.length ∧ groupIdx G (flatPos G j a) = j ∧
      innerIdx G (flatPos G j a) = a := by
  induction G generalizing j with
  | nil => simp at hj
  | cons g G ih =>
    rcases j with _ | j
    · simp only [List.getD_cons_zero] at ha
      refine ⟨?_, ?_, ?_⟩
      · simp only [flatPos, List.flatten_cons, List.length_append]
        omega
      · simp [flatPos, groupIdx, ha]
      · simp [flatPos, innerIdx, ha]
    · have hj' : j < G.length := by simpa using hj
      have ha' : a < (G.getD j []).length := by simpa using ha
      obtain ⟨h1, h2, h3⟩ := ih j hj' ha'
      refine ⟨?_, ?_, ?_⟩
      · simp only [flatPos, List.flatten_cons, List.length_append]
        omega
      · simp only [flatPos, groupIdx]
        rw [if_neg (by omega), Nat.add_sub_cancel_left, h2]
      · simp only [flatPos, innerIdx]
        rw [if_neg (by omega), Nat.add_sub_cancel_left, h3]

theorem list_sum_eq_fin_sum (g : List Int) : g.sum = ∑ i : Fin g.length, g.get i := by
  conv_lhs => rw [← List.ofFn_get g]
  exact List.sum_ofFn

theorem getD_sum_range (G : List (List Int)) :
    ∑ j in Finset.range G.length, (G.getD j []).sum = G.flatten.sum := by
  induction G with
  | nil => simp
  | cons g G ih =>
    rw [List.length_cons, Finset.sum_range_succ']
    simp only [List.getD_cons_succ, List.getD_cons_zero, List.flatten_cons, List.sum_append]
    rw [ih]
    ring

theorem fin_single_le_sum (g : List Int) (hnn : ∀ x ∈ g, 0 ≤ x) (a : Fin g.length) :
    g.get a ≤ g.sum := by
  rw [list_sum_eq_fin_sum]
  have hsub : ({a} : Finset (Fin g.length)) ⊆ Finset.univ := Finset.subset_univ _
  calc g.get a = ∑ b in ({a} : Finset (Fin g.length)), g.get b := by rw [Finset.sum_singleton]
    _ ≤ ∑ b : Fin g.length, g.get b :=
        Finset.sum_le_sum_of_subset_of_nonneg hsub
          (fun b _ _ => hnn _ (List.get_mem g b.val b.isLt))

theorem fin_pair_le_sum (g : List Int) (hnn : ∀ x ∈ g, 0 ≤ x) (a b : Fin g.length)
    (hab : a ≠ b) : g.get a + g.get b ≤ g.sum := by
  rw [list_sum_eq_fin_sum]
  have hsub : ({a, b} : Finset (Fin g.length)) ⊆ Finset.univ := Finset.subset_univ _
  calc g.get a + g.get b = ∑ c in ({a, b} : Finset (Fin g.length)), g.get c :=
        (Finset.sum_pair hab).symm
    _ ≤ ∑ c : Fin g.length, g.get c :=
        Finset.sum_le_sum_of_subset_of_nonneg hsub
          (fun c _ _ => hnn _ (List.get_mem g c.val c.isLt))

theorem fin_triple_le_sum (g : List Int) (hnn : ∀ x ∈ g, 0 ≤ x) (a b c : Fin g.length)
    (hab : a ≠ b) (hac : a ≠ c) (hbc : b ≠ c) :
    g.get a + g.get b + g.get c ≤ g.sum := by
  rw [list_sum_eq_fin_sum]
  have hsub : ({a, b, c} : Finset (Fin g.length)) ⊆ Finset.univ := Finset.subset_univ _
  have hsum3 : ∑ d in ({a, b, c} : Finset (Fin g.length)), g.get d =
      g.get a + g.get b + g.get c := by
    rw [Finset.sum_insert (by simp [hab, hac]), Finset.sum_pair hbc]
    ring
  calc g.get a + g.get b + g.get c
      = ∑ d in ({a, b, c} : Finset (Fin g.length)), g.get d := hsum3.symm
    _ ≤ ∑ d : Fin g.length, g.get d :=
        Finset.sum_le_sum_of_subset_of_nonneg hsub
          (fun d _ _ => hnn _ (List.get_mem g d.val d.isLt))

theorem sorted_getD_le_get (t : List Int) (hs : List.Sorted (· ≤ ·) t) (k : Nat)
    (u : Fin t.length) (hk : k ≤ u.val) : t.getD k 0 ≤ t.get u := by
  have hkl : k < t.length := lt_of_le_of_lt hk u.isLt
  rw [List.getD_eq_get t 0 hkl]
  exact hs.rel_get_of_le (show (⟨k, hkl⟩ : Fin t.length) ≤ u from hk)

theorem sorted_get_le_getD (t : List Int) (hs : List.Sorted (· ≤ ·) t)
    (u : Fin t.length) (k : Nat) (hk : u.val ≤ k) (hkl : k < t.length) :
    t.get u ≤ t.getD k 0 := by
  rw [List.getD_eq_get t 0 hkl]
  exact hs.rel_get_of_le (by exact hk)

theorem waste_list_to_finset (f : Nat → Int) (n : Nat) :
    (((List.range n).drop 1).map f).sum = ∑ i in Finset.Ico 1 n, f i := by
  induction n with
  | zero => simp
  | succ n ih =>
    rcases Nat.eq_zero_or_pos n with rfl | hn
    · simp
    · rw [List.range_succ, List.drop_append_eq_append_drop, List.map_append, List.sum_append]
      rw [ih]
      have h1n : 1 - (List.range n).length = 0 := by
        simp only [List.length_range]
        omega
      rw [h1n, List.drop_zero]
      rw [Finset.sum_Ico_succ_top (by omega)]
      simp

theorem group_position_exists (t : List Int) (G : List (List Int))
    (e : Fin t.length ≃ Fin G.flatten.length)
    (he : ∀ i, t.get i = G.flatten.get (e i))
    (j : Nat) (hj : j < G.length) (a : Nat) (ha : a < (G.getD j []).length) :
    ∃ u : Fin t.length, t.get u = (G.getD j []).getD a 0 ∧ (e u).val = flatPos G j a := by
  obtain ⟨hlt, hgrp, hinn⟩ := flatPos_spec G j a hj ha
  refine ⟨e.symm ⟨flatPos G j a, hlt⟩, ?_, by simp⟩
  rw [he, e.apply_symm_apply]
  rw [← List.getD_eq_get _ 0 hlt, flatten_getD_eq G _ hlt, hgrp, hinn]

theorem sorted_getD_mono (t : List Int) (hs : List.Sorted (· ≤ ·) t) (k k' : Nat)
    (hk : k ≤ k') (hk' : k' < t.length) : t.getD k 0 ≤ t.getD k' 0 := by
  rw [List.getD_eq_get t 0 hk']
  exact sorted_getD_le_get t hs k ⟨k', hk'⟩ hk

theorem innerIdx_inj (G : List (List Int)) (p q : Nat) (hp : p < G.flatten.length)
    (hq : q < G.flatten.length) (hpq : p ≠ q) (hg : groupIdx G p = groupIdx G q) :
    innerIdx G p ≠ innerIdx G q := by
  induction G generalizing p q with
  | nil => simp at hp
  | cons g G ih =>
    by_cases hpl : p < g.length <;> by_cases hql : q < g.length
    · rw [innerIdx, innerIdx, if_pos hpl, if_pos hql]
      exact hpq
    · rw [groupIdx, groupIdx, if_pos hpl, if_neg hql] at hg
      exact absurd hg (by omega)
    · rw [groupIdx, groupIdx, if_neg hpl, if_pos hql] at hg
      exact absurd hg (by omega)
    · rw [innerIdx, innerIdx, if_neg hpl, if_neg hql]
      rw [groupIdx, groupIdx, if_neg hpl, if_neg hql] at hg
      have hp' : p - g.length < G.flatten.length := by
        simp only [List.flatten_cons, List.length_append] at hp
        omega
      have hq' : q - g.length < G.flatten.length := by
        simp only [List.flatten_cons, List.length_append] at hq
        omega
      exact ih (p - g.length) (q - g.length) hp' hq' (by omega) (by omega)

theorem get_group_value (t : List Int) (G : List (List Int))
    (e : Fin t.length ≃ Fin G.flatten.length)
    (he : ∀ i, t.get i = G.flatten.get (e i)) (i : Fin t.length) :
    (G.getD (groupIdx G (e i).val) []).getD (innerIdx G (e i).val) 0 = t.get i := by
  rw [he, ← flatten_getD_eq G _ (e i).isLt]
  rw [List.getD_eq_get _ 0 (e i).isLt]

theorem group_nonneg (sizes : List Int) (G : List (List Int))
    (hnn : ∀ s ∈ sizes, 0 ≤ s) (hperm : G.flatten.Perm sizes) (g : List Int)
    (hgG : g ∈ G) : ∀ y ∈ g, 0 ≤ y :=
  fun y hy => hnn y (hperm.mem_iff.mp (List.mem_flatten.mpr ⟨g, hgG, hy⟩))

theorem mem_sizes_le_group_sum (B : Int) (sizes : List Int) (G : List (List Int))
    (hnn : ∀ s ∈ sizes, 0 ≤ s) (hperm : G.flatten.Perm sizes)
    (hsum : ∀ g ∈ G, g.sum ≤ B) (x : Int) (hx : x ∈ sizes) : x ≤ B := by
  obtain ⟨g, hgG, hxg⟩ := List.mem_flatten.mp (hperm.mem_iff.mpr hx)
  obtain ⟨k, hk⟩ := List.mem_iff_get.mp hxg
  have h1 : g.get k ≤ g.sum := fin_single_le_sum g (group_nonneg sizes G hnn hperm g hgG) k
  rw [hk] at h1
  linarith [hsum g hgG]

theorem waste_cases (B : Int) (t : List Int) (sm2 : Int) (i : Nat)
    (h : wasted_space_at B t sm2 i ≠ 0) :
    B < t.getD i 0 + t.getD 0 0 ∨ (1 < i ∧ B < t.getD i 0 + t.getD 1 0) ∨
      (2 < i ∧ B < t.getD i 0 + sm2) := by
  simp only [wasted_space_at] at h
  split_ifs at h with h1 h2 h3
  · exact Or.inl h1
  · exact Or.inr (Or.inl h2)
  · exact Or.inr (Or.inr h3)
  · exact absurd rfl h

theorem pack_key_bound (B : Int) (t : List Int) (G : List (List Int))
    (hsorted : List.Sorted (· ≤ ·) t)
    (hnn : ∀ x ∈ t, 0 ≤ x)
    (hlen : 4 ≤ t.length)
    (hsum : ∀ g ∈ G, g.sum ≤ B)
    (hperm : t.Perm G.flatten)
    (e : Fin t.length ≃ Fin G.flatten.length)
    (he : ∀ i, t.get i = G.flatten.get (e i))
    (i : Nat) (h1i : 1 ≤ i) (hi : i < t.length) :
    wasted_space_at B t (min (t.getD 2 0) (t.getD 0 0 + t.getD 1 0)) i
      ≤ B - (G.getD (groupIdx G (e ⟨i, hi⟩).val) []).sum := by
  have hflat_pos : (e ⟨i, hi⟩).val < G.flatten.length := (e ⟨i, hi⟩).isLt
  have hjlt : groupIdx G (e ⟨i, hi⟩).val < G.length := groupIdx_lt G _ hflat_pos
  set j := groupIdx G (e ⟨i, hi⟩).val with hj
  set g := G.getD j [] with hgdef
  have hgG : g ∈ G := by
    rw [hgdef, List.getD_eq_get _ _ hjlt]
    exact List.get_mem _ _ _
  have hnng : ∀ x ∈ g, 0 ≤ x := group_nonneg t G hnn hperm.symm g hgG
  have hsumg : g.sum ≤ B := hsum g hgG
  have hinner : innerIdx G (e ⟨i, hi⟩).val < g.length := innerIdx_lt G _ hflat_pos
  set a : Fin g.length := ⟨innerIdx G (e ⟨i, hi⟩).val, hinner⟩ with ha
  have hga : g.get a = t.get ⟨i, hi⟩ := by
    rw [← get_group_value t G e he ⟨i, hi⟩, ha, List.getD_eq_get g 0 hinner]
  have hother : ∀ b : Fin g.length, b ≠ a →
      ∃ u : Fin t.length, t.get u = g.get b ∧ (e u).val = flatPos G j b.val ∧
        u ≠ ⟨i, hi⟩ := by
    intro b hb
    obtain ⟨u, hu1, hu2⟩ := group_position_exists t G e he j hjlt b.val b.isLt
    refine ⟨u, ?_, hu2, ?_⟩
    · rw [hu1, List.getD_eq_get _ 0 b.isLt]
    · intro hui
      apply hb
      have hval : (e u).val = (e ⟨i, hi⟩).val := by rw [hui]
      rw [hu2] at hval
      have hb2 := (flatPos_spec G j b.val hjlt b.isLt).2.2
      rw [hval] at hb2
      apply Fin.ext
      rw [ha]
      exact hb2.symm
  have hother2 : ∀ b b' : Fin g.length, b ≠ b' → ∀ u u' : Fin t.length,
      (e u).val = flatPos G j b.val → (e u').val = flatPos G j b'.val → u ≠ u' := by
    intro b b' hbb u u' hu hu' huu
    apply hbb
    apply Fin.ext
    rw [← (flatPos_spec G j b.val hjlt b.isLt).2.2,
      ← (flatPos_spec G j b'.val hjlt b'.isLt).2.2, ← hu, ← hu', huu]
  have ht0nn : 0 ≤ t.getD 0 0 := by
    rw [List.getD_eq_get _ 0 (by omega)]
    exact hnn _ (List.get_mem _ _ _)
  have ht1nn : 0 ≤ t.getD 1 0 := by
    rw [List.getD_eq_get _ 0 (by omega)]
    exact hnn _ (List.get_mem _ _ _)
  have ht01 : t.getD 0 0 ≤ t.getD 1 0 := sorted_getD_mono t hsorted 0 1 (by omega) (by omega)
  have ht12 : t.getD 1 0 ≤ t.getD 2 0 := sorted_getD_mono t hsorted 1 2 (by omega) (by omega)
  have hvt : t.getD i 0 = t.get ⟨i, hi⟩ := by rw [List.getD_eq_get _ 0 hi]
  simp only [wasted_space_at]
  split_ifs with hc1 hc2 hc3
  · -- duration + smallest exceed the bin: the group is a singleton
    have hall : ∀ b : Fin g.length, b = a := by
      intro b
      by_contra hbne
      obtain ⟨u, huv, hupos, huni⟩ := hother b hbne
      have hub : t.getD 0 0 ≤ t.get u := sorted_getD_le_get t hsorted 0 u (Nat.zero_le _)
      have hpair : g.get a + g.get b ≤ g.sum :=
        fin_pair_le_sum g hnng a b (fun hh => hbne hh.symm)
      rw [hga, ← huv] at hpair
      rw [hvt] at hc1
      linarith
    have huniv : (Finset.univ : Finset (Fin g.length)) = {a} := by
      ext b
      simp [hall b]
    have hsing : g.sum = g.get a := by
      rw [list_sum_eq_fin_sum, huniv, Finset.sum_singleton]
    rw [hsing, hga, hvt]
  · -- two smallest exceed the bin with the duration: at most one companion, ≤ t0
    obtain ⟨hi2, hc2b⟩ := hc2
    have hvsmall : ∀ b : Fin g.length, b ≠ a → g.get b ≤ t.getD 0 0 := by
      intro b hb
      obtain ⟨u, huv, hupos, huni⟩ := hother b hb
      by_contra hgt
      push_neg at hgt
      have hu1 : 1 ≤ u.val := by
        by_contra h0
        push_neg at h0
        have h00 : u.val = 0 := by omega
        have hu0 : t.get u = t.getD 0 0 := by
          rw [List.getD_eq_get t 0 (by omega)]
          congr 1
          exact Fin.ext h00
        rw [huv] at hu0
        linarith
      have hub : t.getD 1 0 ≤ t.get u := sorted_getD_le_get t hsorted 1 u hu1
      have hpair : g.get a + g.get b ≤ g.sum :=
        fin_pair_le_sum g hnng a b (fun hh => hb hh.symm)
      rw [hga, ← huv] at hpair
      rw [hvt] at hc2b
      linarith
    have hsingle : ∀ b ∈ Finset.univ.erase a, ∀ b' ∈ Finset.univ.erase a, b = b' := by
      intro b hb b' hb'
      by_contra hbb
      rw [Finset.mem_erase] at hb hb'
      obtain ⟨u, huv, hupos, _⟩ := hother b hb.1
      obtain ⟨u', huv', hupos', _⟩ := hother b' hb'.1
      have huu : u ≠ u' := hother2 b b' hbb u u' hupos hupos'
      have htrip : g.get a + g.get b + g.get b' ≤ g.sum :=
        fin_triple_le_sum g hnng a b b' (fun hh => hb.1 hh.symm)
          (fun hh => hb'.1 hh.symm) hbb
      have hb0 : 0 ≤ g.get b := hnng _ (List.get_mem _ _ _)
      have hb'0 : 0 ≤ g.get b' := hnng _ (List.get_mem _ _ _)
      have hone : t.getD 1 0 ≤ g.get b ∨ t.getD 1 0 ≤ g.get b' := by
        rcases Nat.lt_or_ge u.val u'.val with h | h
        · right
          rw [← huv']
          exact sorted_getD_le_get t hsorted 1 u' (by omega)
        · have hlt : u'.val < u.val := by
            rcases Nat.lt_or_ge u'.val u.val with h2 | h2
            · exact h2
            · exact absurd (Fin.ext (by omega)) huu
          left
          rw [← huv]
          exact sorted_getD_le_get t hsorted 1 u (by omega)
      rw [hga] at htrip
      rw [hvt] at hc2b
      rcases hone with h | h <;> linarith
    have hOsum : ∑ b in Finset.univ.erase a, g.get b ≤ t.getD 0 0 := by
      rcases Finset.eq_empty_or_nonempty (Finset.univ.erase a) with hemp | ⟨b, hb⟩
      · rw [hemp, Finset.sum_empty]
        exact ht0nn
      · have hOb : Finset.univ.erase a = {b} := by
          ext c
          simp only [Finset.mem_singleton]
          constructor
          · intro hc
            exact hsingle c hc b hb
          · intro hc
            rw [hc]
            exact hb
        rw [hOb, Finset.sum_singleton]
        exact hvsmall b (Finset.mem_erase.mp hb).1
    have hsplit : ∑ b in Finset.univ.erase a, g.get b + g.get a = g.sum := by
      rw [Finset.sum_erase_add _ _ (Finset.mem_univ a), ← list_sum_eq_fin_sum]
    have hfin : g.sum ≤ t.getD 0 0 + t.getD i 0 := by
      rw [← hsplit, hga, ← hvt]
      linarith
    linarith
  · -- third case: at most one companion, ≤ t1
    obtain ⟨hi3, hc3b⟩ := hc3
    have hsm2a : min (t.getD 2 0) (t.getD 0 0 + t.getD 1 0) ≤ t.getD 2 0 :=
      min_le_left _ _
    have hsm2b : min (t.getD 2 0) (t.getD 0 0 + t.getD 1 0) ≤ t.getD 0 0 + t.getD 1 0 :=
      min_le_right _ _
    have hvsmall : ∀ b : Fin g.length, b ≠ a → g.get b ≤ t.getD 1 0 := by
      intro b hb
      obtain ⟨u, huv, hupos, huni⟩ := hother b hb
      by_contra hgt
      push_neg at hgt
      have hu2 : 2 ≤ u.val := by
        by_contra h0
        push_neg at h0
        have hu0 : t.get u ≤ t.getD 1 0 :=
          sorted_get_le_getD t hsorted u 1 (by omega) (by omega)
        rw [huv] at hu0
        linarith
      have hub : t.getD 2 0 ≤ t.get u := sorted_getD_le_get t hsorted 2 u hu2
      have hpair : g.get a + g.get b ≤ g.sum :=
        fin_pair_le_sum g hnng a b (fun hh => hb hh.symm)
      rw [hga, ← huv] at hpair
      rw [hvt] at hc3b
      linarith
    have hsingle : ∀ b ∈ Finset.univ.erase a, ∀ b' ∈ Finset.univ.erase a, b = b' := by
      intro b hb b' hb'
      by_contra hbb
      rw [Finset.mem_erase] at hb hb'
      obtain ⟨u, huv, hupos, _⟩ := hother b hb.1
      obtain ⟨u', huv', hupos', _⟩ := hother b' hb'.1
      have huu : u ≠ u' := hother2 b b' hbb u u' hupos hupos'
      have htrip : g.get a + g.get b + g.get b' ≤ g.sum :=
        fin_triple_le_sum g hnng a b b' (fun hh => hb.1 hh.symm)
          (fun hh => hb'.1 hh.symm) hbb
      have hone : t.getD 0 0 + t.getD 1 0 ≤ g.get b + g.get b' := by
        rcases Nat.lt_or_ge u.val u'.val with h | h
        · have hx0 : t.getD 0 0 ≤ t.get u := sorted_getD_le_get t hsorted 0 u (Nat.zero_le _)
          have hx1 : t.getD 1 0 ≤ t.get u' := sorted_getD_le_get t hsorted 1 u' (by omega)
          rw [← huv, ← huv']
          linarith
        · have hlt : u'.val < u.val := by
            rcases Nat.lt_or_ge u'.val u.val with h2 | h2
            · exact h2
            · exact absurd (Fin.ext (by omega)) huu
          have hx0 : t.getD 0 0 ≤ t.get u' := sorted_getD_le_get t hsorted 0 u' (Nat.zero_le _)
          have hx1 : t.getD 1 0 ≤ t.get u := sorted_getD_le_get t hsorted 1 u (by omega)
          rw [← huv, ← huv']
          linarith
      rw [hga] at htrip
      rw [hvt] at hc3b
      linarith
    have hOsum : ∑ b in Finset.univ.erase a, g.get b ≤ t.getD 1 0 := by
      rcases Finset.eq_empty_or_nonempty (Finset.univ.erase a) with hemp | ⟨b, hb⟩
      · rw [hemp, Finset.sum_empty]
        exact ht1nn
      · have hOb : Finset.univ.erase a = {b} := by
          ext c
          simp only [Finset.mem_singleton]
          constructor
          · intro hc
            exact hsingle c hc b hb
          · intro hc
            rw [hc]
            exact hb
        rw [hOb, Finset.sum_singleton]
        exact hvsmall b (Finset.mem_erase.mp hb).1
    have hsplit : ∑ b in Finset.univ.erase a, g.get b + g.get a = g.sum := by
      rw [Finset.sum_erase_add _ _ (Finset.mem_univ a), ← list_sum_eq_fin_sum]
    have hfin : g.sum ≤ t.getD 1 0 + t.getD i 0 := by
      rw [← hsplit, hga, ← hvt]
      linarith
    linarith
  · linarith

theorem sorted_pair_lower (t : List Int) (hs : List.Sorted (· ≤ ·) t)
    (h1 : 1 < t.length) (u v : Fin t.length) (huv : u ≠ v) :
    t.getD 0 0 + t.getD 1 0 ≤ t.get u + t.get v := by
  rcases Nat.lt_or_ge u.val v.val with h | h
  · have hx0 : t.getD 0 0 ≤ t.get u := sorted_getD_le_get t hs 0 u (Nat.zero_le _)
    have hx1 : t.getD 1 0 ≤ t.get v := sorted_getD_le_get t hs 1 v (by omega)
    linarith
  · have hvu : v.val < u.val := by
      rcases Nat.lt_or_ge v.val u.val with h2 | h2
      · exact h2
      · exact absurd (Fin.ext (by omega)) huv
    have hx0 : t.getD 0 0 ≤ t.get v := sorted_getD_le_get t hs 0 v (Nat.zero_le _)
    have hx1 : t.getD 1 0 ≤ t.get u := sorted_getD_le_get t hs 1 u (by omega)
    linarith

theorem exists_big_group (G : List (List Int)) (hG : G.length ≤ 2)
    (h3 : G.flatten.length = 3) :
    ∃ j, ∃ hj : j < G.length, 2 ≤ (G.getD j []).length := by
  by_contra h
  push_neg at h
  have hsum : G.flatten.length = (G.map List.length).sum := by
    rw [List.length_flatten]
  have hbound : ∀ x ∈ G.map List.length, x ≤ 1 := by
    intro x hx
    rw [List.mem_map] at hx
    obtain ⟨g, hgG, rfl⟩ := hx
    obtain ⟨n, hn⟩ := List.mem_iff_get.mp hgG
    have := h n.val n.isLt
    rw [List.getD_eq_get _ _ n.isLt] at this
    have hget : G.get ⟨n.val, n.isLt⟩ = g := by
      rw [← hn]
    rw [hget] at this
    omega
  have hle : (G.map List.length).sum ≤ (G.map List.length).length • 1 :=
    List.sum_le_card_nsmul _ 1 hbound
  rw [List.length_map, smul_eq_mul] at hle
  omega

theorem pack_waste_bound (m : Nat) (B : Int) (t : List Int) (G : List (List Int))
    (hsorted : List.Sorted (· ≤ ·) t)
    (hnn : ∀ x ∈ t, 0 ≤ x)
    (hlen : 4 ≤ t.length)
    (hGm : G.length ≤ m)
    (hperm : t.Perm G.flatten)
    (hsum : ∀ g ∈ G, g.sum ≤ B) :
    t.sum + (((List.range t.length).drop 1).map
        (wasted_space_at B t (min (t.getD 2 0) (t.getD 0 0 + t.getD 1 0)))).sum
      ≤ (m : Int) * B := by
  obtain ⟨e, he⟩ := perm_get_equiv hperm
  have hB0 : 0 ≤ B := by
    have h0 : 0 < t.length := by omega
    have hx : t.get ⟨0, h0⟩ ∈ t := List.get_mem _ _ _
    have hxB : t.get ⟨0, h0⟩ ≤ B :=
      mem_sizes_le_group_sum B t G hnn hperm.symm hsum _ hx
    linarith [hnn _ hx]
  rw [waste_list_to_finset]
  set w : Nat → Int :=
    fun i => wasted_space_at B t (min (t.getD 2 0) (t.getD 0 0 + t.getD 1 0)) i with hw
  set s : Finset Nat := (Finset.Ico 1 t.length).filter (fun i => w i ≠ 0) with hs
  have hfilter : ∑ i in Finset.Ico 1 t.length, w i = ∑ i in s, w i := by
    rw [hs]
    exact (Finset.sum_filter_of_ne (fun x _ h => h)).symm
  set A : Nat → Nat :=
    fun i => if h : i < t.length then groupIdx G (e ⟨i, h⟩).val else 0 with hA
  have hAdef : ∀ i, ∀ h : i < t.length, A i = groupIdx G (e ⟨i, h⟩).val := by
    intro i h
    rw [hA]
    exact dif_pos h
  have hAlt : ∀ i, i < t.length → A i < G.length := by
    intro i h
    rw [hAdef i h]
    exact groupIdx_lt G _ (e ⟨i, h⟩).isLt
  have hkey : ∀ i ∈ s, w i ≤ B - (G.getD (A i) []).sum := by
    intro i hi
    rw [hs, Finset.mem_filter, Finset.mem_Ico] at hi
    obtain ⟨⟨h1i, hilt⟩, _⟩ := hi
    rw [hAdef i hilt]
    exact pack_key_bound B t G hsorted hnn hlen hsum hperm e he i h1i hilt
  have hinj : ∀ i ∈ s, ∀ k ∈ s, A i = A k → i = k := by
    intro i hi k hk hAik
    by_contra hik
    rw [hs, Finset.mem_filter, Finset.mem_Ico] at hi hk
    obtain ⟨⟨h1i, hilt⟩, hwi⟩ := hi
    obtain ⟨⟨h1k, hklt⟩, hwk⟩ := hk
    have hDi := waste_cases B t _ i hwi
    have hDk := waste_cases B t _ k hwk
    have hjlt : A i < G.length := hAlt i hilt
    set g := G.getD (A i) [] with hgdef
    have hgG : g ∈ G := by
      rw [hgdef, List.getD_eq_get _ _ hjlt]
      exact List.get_mem _ _ _
    have hnng : ∀ x ∈ g, 0 ≤ x := group_nonneg t G hnn hperm.symm g hgG
    have hfinik : (⟨i, hilt⟩ : Fin t.length) ≠ ⟨k, hklt⟩ := by
      intro hh
      apply hik
      have := congrArg Fin.val hh
      simpa using this
    have hpik : (e ⟨i, hilt⟩).val ≠ (e ⟨k, hklt⟩).val := by
      intro hh
      exact hfinik (e.injective (Fin.ext hh))
    have hvi := get_group_value t G e he ⟨i, hilt⟩
    rw [← hAdef i hilt, ← hgdef] at hvi
    have hvk := get_group_value t G e he ⟨k, hklt⟩
    rw [← hAdef k hklt, ← hAik, ← hgdef] at hvk
    have hai : innerIdx G (e ⟨i, hilt⟩).val < g.length := by
      rw [hgdef, hAdef i hilt]
      exact innerIdx_lt G _ (e ⟨i, hilt⟩).isLt
    have hak : innerIdx G (e ⟨k, hklt⟩).val < g.length := by
      rw [hgdef, hAik, hAdef k hklt]
      exact innerIdx_lt G _ (e ⟨k, hklt⟩).isLt
    have hne : innerIdx G (e ⟨i, hilt⟩).val ≠ innerIdx G (e ⟨k, hklt⟩).val := by
      apply innerIdx_inj G _ _ (e ⟨i, hilt⟩).isLt (e ⟨k, hklt⟩).isLt hpik
      rw [← hAdef i hilt, ← hAdef k hklt]
      exact hAik
    have hpair : g.get ⟨_, hai⟩ + g.get ⟨_, hak⟩ ≤ g.sum :=
      fin_pair_le_sum g hnng ⟨_, hai⟩ ⟨_, hak⟩
        (fun hh => hne (congrArg Fin.val hh))
    rw [List.getD_eq_get g 0 hai] at hvi
    rw [List.getD_eq_get g 0 hak] at hvk
    rw [hvi, hvk] at hpair
    have hsumg : g.sum ≤ B := hsum g hgG
    have hvti : t.getD i 0 = t.get ⟨i, hilt⟩ := by rw [List.getD_eq_get _ 0 hilt]
    have hvtk : t.getD k 0 = t.get ⟨k, hklt⟩ := by rw [List.getD_eq_get _ 0 hklt]
    have h1vi : t.getD 1 0 ≤ t.get ⟨i, hilt⟩ :=
      sorted_getD_le_get t hsorted 1 ⟨i, hilt⟩ h1i
    have h1vk : t.getD 1 0 ≤ t.get ⟨k, hklt⟩ :=
      sorted_getD_le_get t hsorted 1 ⟨k, hklt⟩ h1k
    have h01 : t.getD 0 0 ≤ t.getD 1 0 := sorted_getD_mono t hsorted 0 1 (by omega) (by omega)
    have h12 : t.getD 1 0 ≤ t.getD 2 0 := sorted_getD_mono t hsorted 1 2 (by omega) (by omega)
    rcases hDi with d | ⟨hi2, d⟩ | ⟨hi3, d⟩
    · rw [hvti] at d
      linarith
    · rw [hvti] at d
      linarith
    · rw [hvti] at d
      rcases Nat.lt_or_ge k 2 with hk2 | hk2
      · rcases hDk with dk | ⟨hk1, dk⟩ | ⟨hk1, dk⟩
        · rw [hvtk] at dk
          linarith
        · omega
        · omega
      · have h2vk : t.getD 2 0 ≤ t.get ⟨k, hklt⟩ :=
          sorted_getD_le_get t hsorted 2 ⟨k, hklt⟩ hk2
        linarith [min_le_left (t.getD 2 0) (t.getD 0 0 + t.getD 1 0)]
  have hstep1 : ∑ i in s, w i ≤ ∑ i in s, (B - (G.getD (A i) []).sum) :=
    Finset.sum_le_sum hkey
  have hstep2 : ∑ i in s, (B - (G.getD (A i) []).sum) =
      ∑ j in s.image A, (B - (G.getD j []).sum) := by
    rw [Finset.sum_image hinj]
  have hsub : s.image A ⊆ Finset.range G.length := by
    intro j hj
    rw [Finset.mem_image] at hj
    obtain ⟨i, his, rfl⟩ := hj
    rw [Finset.mem_range]
    rw [hs, Finset.mem_filter, Finset.mem_Ico] at his
    exact hAlt i his.1.2
  have hnonneg2 : ∀ j ∈ Finset.range G.length, j ∉ s.image A →
      0 ≤ B - (G.getD j []).sum := by
    intro j hj _
    rw [Finset.mem_range] at hj
    have hmem : G.getD j [] ∈ G := by
      rw [List.getD_eq_get _ _ hj]
      exact List.get_mem _ _ _
    linarith [hsum _ hmem]
  have hstep3 : ∑ j in s.image A, (B - (G.getD j []).sum) ≤
      ∑ j in Finset.range G.length, (B - (G.getD j []).sum) :=
    Finset.sum_le_sum_of_subset_of_nonneg hsub hnonneg2
  have hstep4 : ∑ j in Finset.range G.length, (B - (G.getD j []).sum) =
      (G.length : Int) * B - G.flatten.sum := by
    rw [Finset.sum_sub_distrib, Finset.sum_const, Finset.card_range, getD_sum_range]
    simp [nsmul_eq_mul]
  have hflatsum : G.flatten.sum = t.sum := (List.Perm.sum_eq hperm).symm
  have hGB : (G.length : Int) * B ≤ (m : Int) * B := by
    apply mul_le_mul_of_nonneg_right _ hB0
    exact_mod_cast hGm
  linarith [hfilter, hstep1, hstep2, hstep3, hstep4]

/-- C5 (amended): soundness of the bin-packing oracle for nonnegative sizes.
If every size is nonnegative and `is_certainly_unpackable m B sizes` answers
`true`, then the multiset of sizes cannot be split into at most `m` groups of
sum at most `B` each.  (The nonnegativity hypothesis is necessary:
`C5_counterexample` shows the unrestricted claim is false.) -/
theorem C5_oracle_sound (m : Nat) (B : Int) (sizes : List Int)
    (hnn : ∀ s ∈ sizes, 0 ≤ s) :
    is_certainly_unpackable m B sizes = true → ¬ CanPack m B sizes := by
  intro htrue hcan
  obtain ⟨G, hGm, hperm, hsum⟩ := hcan
  simp only [is_certainly_unpackable] at htrue
  set t := List.insertionSort (fun a b => a ≤ b) sizes with ht
  have hpermt : t.Perm G.flatten := (List.perm_insertionSort _ sizes).trans hperm.symm
  have hsorted : List.Sorted (fun a b => a ≤ b) t := List.sorted_insertionSort _ sizes
  have hnnt : ∀ x ∈ t, 0 ≤ x :=
    fun x hx => hnn x ((List.perm_insertionSort _ sizes).mem_iff.mp hx)
  have hlent : t.length = sizes.length := (List.perm_insertionSort _ sizes).length_eq
  have htsum : t.sum = sizes.sum := (List.perm_insertionSort _ sizes).sum_eq
  split_ifs at htrue with h1 h2 h3 h4 h5 h6
  · rw [List.any_eq_true] at h2
    obtain ⟨x, hxs, hxB⟩ := h2
    rw [decide_eq_true_eq] at hxB
    have hle : x ≤ B := mem_sizes_le_group_sum B sizes G hnn hperm hsum x hxs
    linarith
  · rw [decide_eq_true_eq] at h4
    have hB0 : 0 ≤ B := by
      have hne : sizes ≠ [] := by
        intro hh
        rw [hh] at h1
        simp at h1
      obtain ⟨x, hx⟩ := List.exists_mem_of_ne_nil sizes hne
      have hle : x ≤ B := mem_sizes_le_group_sum B sizes G hnn hperm hsum x hx
      linarith [hnn x hx]
    have hflatsum : G.flatten.sum = sizes.sum := hperm.sum_eq
    have hgroups : ∑ j in Finset.range G.length, (G.getD j []).sum ≤
        (G.length : Int) * B := by
      calc ∑ j in Finset.range G.length, (G.getD j []).sum
          ≤ ∑ _j in Finset.range G.length, B := by
            apply Finset.sum_le_sum
            intro j hj
            rw [Finset.mem_range] at hj
            apply hsum
            rw [List.getD_eq_get _ _ hj]
            exact List.get_mem _ _ _
        _ = (G.length : Int) * B := by
            rw [Finset.sum_const, Finset.card_range]
            simp [nsmul_eq_mul]
    rw [getD_sum_range, hflatsum] at hgroups
    have hGB : (G.length : Int) * B ≤ (m : Int) * B := by
      apply mul_le_mul_of_nonneg_right _ hB0
      exact_mod_cast hGm
    linarith
  · -- three jobs, two smallest do not fit together: need three bins but m ≤ 2
    rw [decide_eq_true_eq] at htrue
    have hflat3 : G.flatten.length = 3 := by
      rw [← hpermt.length_eq, hlent, h6]
    have hm2 : m ≤ 2 := by
      rw [h6] at h3
      omega
    obtain ⟨j, hj, h2len⟩ := exists_big_group G (by omega) hflat3
    obtain ⟨e, he⟩ := perm_get_equiv hpermt
    obtain ⟨u0, hu0v, hu0p⟩ := group_position_exists t G e he j hj 0 (by omega)
    obtain ⟨u1, hu1v, hu1p⟩ := group_position_exists t G e he j hj 1 (by omega)
    have hne : u0 ≠ u1 := by
      intro hh
      have hval : (e u0).val = (e u1).val := by rw [hh]
      rw [hu0p, hu1p] at hval
      have s0 := (flatPos_spec G j 0 hj (by omega)).2.2
      have s1 := (flatPos_spec G j 1 hj (by omega)).2.2
      rw [hval, s1] at s0
      exact absurd s0 (by omega)
    have hlent1 : 1 < t.length := by omega
    have hpl : t.getD 0 0 + t.getD 1 0 ≤ t.get u0 + t.get u1 :=
      sorted_pair_lower t hsorted hlent1 u0 u1 hne
    have hgG : G.getD j [] ∈ G := by
      rw [List.getD_eq_get _ _ hj]
      exact List.get_mem _ _ _
    have hnng : ∀ y ∈ G.getD j [], 0 ≤ y := group_nonneg t G hnnt hpermt.symm _ hgG
    have hp2 : (G.getD j []).get ⟨0, by omega⟩ + (G.getD j []).get ⟨1, by omega⟩ ≤
        (G.getD j []).sum := by
      apply fin_pair_le_sum _ hnng
      intro hh
      have := congrArg Fin.val hh
      simp at this
    rw [← List.getD_eq_get _ 0 (by omega : (0:Nat) < (G.getD j []).length),
      ← List.getD_eq_get _ 0 (by omega : (1:Nat) < (G.getD j []).length),
      ← hu0v, ← hu1v] at hp2
    linarith [hsum _ hgG]
  · -- the waste bound contradicts the final comparison
    rw [decide_eq_true_eq] at htrue
    have hlen4 : 4 ≤ t.length := by
      rw [hlent]
      have h5' : ¬ sizes.length ≤ 2 := fun hh => h5 (Or.inr hh)
      omega
    have hwb := pack_waste_bound m B t G hsorted hnnt hlen4 hGm hpermt hsum
    rw [htsum] at hwb
    linarith

/-- Witness for `C5_oracle_sound`: two processors with bins of size 100
cannot hold three jobs of size 100 (a scenario from the repository's own
tests), and the oracle reports this. -/
theorem C5_oracle_sound_witness :
    (∀ s ∈ ([100, 100, 100] : List Int), 0 ≤ s) ∧
      is_certainly_unpackable 2 100 [100, 100, 100] = true ∧
      ¬ CanPack 2 100 [100, 100, 100] :=
  ⟨by decide, by decide,
    C5_oracle_sound 2 100 [100, 100, 100] (by decide) (by decide)⟩

/-! ## Shared lemmas for the timeline invariant proof (C6) -/

/-! Positional helpers for the timeline proofs. -/

theorem ivD_set_ne (l : List OccupationInterval) (k : Nat) (iv : OccupationInterval)
    (j : Nat) (h : k ≠ j) : (l.set k iv).getD j ⟨0, 0⟩ = l.getD j ⟨0, 0⟩ := by
  simp [List.getD_eq_getElem?_getD, List.getElem?_set_ne h]

theorem ivD_set_eq (l : List OccupationInterval) (k : Nat) (iv : OccupationInterval)
    (h : k < l.length) : (l.set k iv).getD k ⟨0, 0⟩ = iv := by
  simp [List.getD_eq_getElem?_getD, List.getElem?_set_eq h]

theorem ivD_eraseIdx (l : List OccupationInterval) (k j : Nat) :
    (l.eraseIdx k).getD j ⟨0, 0⟩ =
      if j < k then l.getD j ⟨0, 0⟩ else l.getD (j + 1) ⟨0, 0⟩ := by
  simp only [List.getD_eq_getElem?_getD, List.getElem?_eraseIdx]
  split <;> rfl

theorem ivD_insertIdx_lt (l : List OccupationInterval) (x : OccupationInterval)
    (n j : Nat) (hn : n ≤ l.length) (h : j < n) :
    (List.insertIdx n x l).getD j ⟨0, 0⟩ = l.getD j ⟨0, 0⟩ := by
  have hj : j < l.length := lt_of_lt_of_le h hn
  have hj2 : j < (List.insertIdx n x l).length := by
    rw [List.length_insertIdx _ _ hn]
    omega
  rw [List.getD_eq_get _ _ hj2, List.getD_eq_get _ _ hj]
  exact List.get_insertIdx_of_lt l x n j h hj hj2

theorem ivD_insertIdx_self (l : List OccupationInterval) (x : OccupationInterval)
    (n : Nat) (hn : n ≤ l.length) :
    (List.insertIdx n x l).getD n ⟨0, 0⟩ = x := by
  have hn2 : n < (List.insertIdx n x l).length := by
    rw [List.length_insertIdx _ _ hn]
    omega
  rw [List.getD_eq_get _ _ hn2]
  exact List.get_insertIdx_self l x n hn hn2

theorem ivD_insertIdx_gt (l : List OccupationInterval) (x : OccupationInterval)
    (n j : Nat) (hn : n ≤ l.length) (h : n < j) :
    (List.insertIdx n x l).getD j ⟨0, 0⟩ = l.getD (j - 1) ⟨0, 0⟩ := by
  rcases Nat.lt_or_ge (j - 1) l.length with hj | hj
  · have hj2 : j < (List.insertIdx n x l).length := by
      rw [List.length_insertIdx _ _ hn]
      omega
    rw [List.getD_eq_get _ _ hj2, List.getD_eq_get _ _ hj]
    have hdecomp : j = n + (j - 1 - n) + 1 := by omega
    have hk' : n + (j - 1 - n) < l.length := by omega
    have := List.get_insertIdx_add_succ l x n (j - 1 - n) hk'
      (by rw [List.length_insertIdx _ _ hn]; omega)
    -- this : (insertIdx n x l).get ⟨n + (j-1-n) + 1, _⟩ = l.get ⟨n + (j-1-n), _⟩
    calc (List.insertIdx n x l).get ⟨j, hj2⟩
        = (List.insertIdx n x l).get ⟨n + (j - 1 - n) + 1, by omega⟩ := by
          congr 1
          exact Fin.ext (show j = n + (j - 1 - n) + 1 by omega)
      _ = l.get ⟨n + (j - 1 - n), hk'⟩ := List.get_insertIdx_add_succ l x n (j - 1 - n) hk' _
      _ = l.get ⟨j - 1, hj⟩ := by
          congr 1
          exact Fin.ext (show n + (j - 1 - n) = j - 1 by omega)
  · have hj2 : ¬ j < (List.insertIdx n x l).length := by
      rw [List.length_insertIdx _ _ hn]
      omega
    rw [List.getD_eq_default _ _ (by omega), List.getD_eq_default _ _ (by omega)]

theorem chain2_iff_getD (R : OccupationInterval → OccupationInterval → Prop) :
    ∀ l : List OccupationInterval, List.Chain' R l ↔
      ∀ k, k + 1 < l.length → R (l.getD k ⟨0, 0⟩) (l.getD (k + 1) ⟨0, 0⟩)
  | [] => by simp
  | [a] => by simp
  | a :: b :: t => by
    rw [List.chain'_cons, chain2_iff_getD R (b :: t)]
    constructor
    · rintro ⟨hab, htail⟩ k hk
      cases k with
      | zero => simpa using hab
      | succ k => simpa using htail k (by simpa using hk)
    · intro h
      refine ⟨by simpa using h 0 (by simp), fun k hk => ?_⟩
      have := h (k + 1) (by simp only [List.length_cons] at hk ⊢; omega)
      simpa using this

theorem forall_mem_iff_getD (P : OccupationInterval → Prop) :
    ∀ l : List OccupationInterval,
      (∀ iv ∈ l, P iv) ↔ ∀ k, k < l.length → P (l.getD k ⟨0, 0⟩)
  | [] => by simp
  | a :: t => by
    rw [List.forall_mem_cons, forall_mem_iff_getD P t]
    constructor
    · rintro ⟨ha, ht⟩ k hk
      cases k with
      | zero => simpa using ha
      | succ k => simpa using ht k (by simpa using hk)
    · intro h
      refine ⟨by simpa using h 0 (by simp), fun k hk => ?_⟩
      have := h (k + 1) (by simp only [List.length_cons]; omega)
      simpa using this

theorem sortedP_of_adj (l : List OccupationInterval)
    (h : ∀ k, k + 1 < l.length →
      (l.getD k ⟨0, 0⟩).start < (l.getD (k + 1) ⟨0, 0⟩).start) : SortedP l := by
  have hstep : ∀ d j, j + d + 1 < l.length →
      (l.getD j ⟨0, 0⟩).start < (l.getD (j + d + 1) ⟨0, 0⟩).start := by
    intro d
    induction d with
    | zero =>
      intro j hj
      exact h j hj
    | succ d ih =>
      intro j hj
      refine lt_trans (ih j (by omega)) ?_
      have h2 := h (j + d + 1) (by omega)
      have hieq : j + (d + 1) + 1 = j + d + 1 + 1 := by omega
      rw [hieq]
      exact h2
  intro j k hjk hk
  have hh := hstep (k - j - 1) j (by omega)
  have hkeq : j + (k - j - 1) + 1 = k := by omega
  rwa [hkeq] at hh

theorem timelineWF_iff (tl : OccupationTimeline) :
    TimelineWF tl ↔
      SortedP tl.intervals ∧ AdjP tl.intervals ∧
        CntLeP tl.intervals tl.max_num_cores := by
  have h1 := chain2_iff_getD
    (fun a b => a.start < b.start ∧ a.num_cores ≠ b.num_cores) tl.intervals
  have h2 := forall_mem_iff_getD
    (fun iv => iv.num_cores ≤ tl.max_num_cores) tl.intervals
  constructor
  · rintro ⟨hchain, hcnt⟩
    rw [h1] at hchain
    refine ⟨sortedP_of_adj _ (fun k hk => (hchain k hk).1),
      fun k hk => (hchain k hk).2, h2.mp hcnt⟩
  · rintro ⟨hsort, hadj, hcnt⟩
    exact ⟨h1.mpr (fun k hk => ⟨hsort k (k + 1) (Nat.lt_succ_self k) hk, hadj k hk⟩),
      h2.mpr hcnt⟩

theorem sortedP_tail (a : OccupationInterval) (t : List OccupationInterval)
    (hs : SortedP (a :: t)) : SortedP t := by
  intro j k hjk hk
  have := hs (j + 1) (k + 1) (by omega) (by simp only [List.length_cons]; omega)
  simpa using this

theorem sortedP_head_lt (a : OccupationInterval) (t : List OccupationInterval)
    (hs : SortedP (a :: t)) (k : Nat) (hk : k < t.length) :
    a.start < (t.getD k ⟨0, 0⟩).start := by
  have := hs 0 (k + 1) (by omega) (by simp only [List.length_cons]; omega)
  simpa using this

theorem sorted_filter_lt_iff (key : Int) :
    ∀ (l : List OccupationInterval), SortedP l →
      ∀ j, j < l.length →
        (j < (l.filter fun iv => decide (iv.start < key)).length ↔
          (l.getD j ⟨0, 0⟩).start < key)
  | [], _, j, hj => by simp at hj
  | a :: t, hs, j, hj => by
    rw [List.filter_cons]
    by_cases ha : a.start < key
    · rw [if_pos (by simpa using ha)]
      cases j with
      | zero => simpa using ha
      | succ j =>
        simp only [List.length_cons, List.getD_cons_succ, Nat.succ_lt_succ_iff]
        exact sorted_filter_lt_iff key t (sortedP_tail a t hs) j (by simpa using hj)
    · rw [if_neg (by simpa using ha)]
      have hall : ¬ (((a :: t).getD j ⟨0, 0⟩).start < key) := by
        cases j with
        | zero => simpa using ha
        | succ j =>
          simp only [List.getD_cons_succ]
          have hj' : j < t.length := by simpa using hj
          have := sortedP_head_lt a t hs j hj'
          omega
      have htz : t.filter (fun iv => decide (iv.start < key)) = [] := by
        rw [List.filter_eq_nil_iff]
        intro x hx
        obtain ⟨k, hk⟩ := List.mem_iff_get.mp hx
        have hlt := sortedP_head_lt a t hs k.val k.isLt
        rw [List.getD_eq_get _ _ k.isLt, hk] at hlt
        simp only [decide_eq_true_eq]
        omega
      rw [htz]
      simp only [List.length_nil]
      exact iff_of_false (by omega) hall

theorem bs_inl_spec (l : List OccupationInterval) (key : Int) (i : Nat)
    (h : OccupationTimeline.binary_search_start l key = Sum.inl i) :
    i < l.length ∧ (l.getD i ⟨0, 0⟩).start = key := by
  unfold OccupationTimeline.binary_search_start at h
  cases hfi : l.findIdx? (fun iv => decide (iv.start = key)) with
  | none =>
    rw [hfi] at h
    exact absurd h (by simp)
  | some n =>
    rw [hfi] at h
    injection h with h
    subst h
    obtain ⟨hlen, hp, _⟩ := List.findIdx?_eq_some_iff_getElem.mp hfi
    refine ⟨hlen, ?_⟩
    rw [List.getD_eq_get _ _ hlen]
    simpa using hp

theorem bs_inr_spec (l : List OccupationInterval) (key : Int) (b : Nat)
    (hs : SortedP l) (h : OccupationTimeline.binary_search_start l key = Sum.inr b) :
    b ≤ l.length ∧ (∀ j, j < b → (l.getD j ⟨0, 0⟩).start < key) ∧
      (∀ j, b ≤ j → j < l.length → key < (l.getD j ⟨0, 0⟩).start) := by
  unfold OccupationTimeline.binary_search_start at h
  cases hfi : l.findIdx? (fun iv => decide (iv.start = key)) with
  | some n =>
    rw [hfi] at h
    exact absurd h (by simp)
  | none =>
    rw [hfi] at h
    injection h with h
    subst h
    have hne : ∀ x ∈ l, x.start ≠ key := by
      have hh := List.findIdx?_eq_none_iff.mp hfi
      intro x hx
      simpa using hh x hx
    refine ⟨List.length_filter_le _ _, ?_, ?_⟩
    · intro j hj
      have hjlen : j < l.length := lt_of_lt_of_le hj (List.length_filter_le _ _)
      exact (sorted_filter_lt_iff key l hs j hjlen).mp hj
    · intro j hbj hj
      have hnlt : ¬ (l.getD j ⟨0, 0⟩).start < key := fun hlt =>
        absurd ((sorted_filter_lt_iff key l hs j hj).mpr hlt) (by omega)
      have hnej : (l.getD j ⟨0, 0⟩).start ≠ key := by
        apply hne
        rw [List.getD_eq_get _ _ hj]
        exact List.get_mem _ _ _
      omega

theorem increment_go_spec (m : Nat) :
    ∀ (cnt : Nat) (l : List OccupationInterval) (idx : Nat)
      (l2 : List OccupationInterval),
      idx + cnt ≤ l.length →
      OccupationTimeline.increment_go m cnt l idx = (false, l2) →
      l2.length = l.length ∧
      (∀ j, j < idx ∨ idx + cnt ≤ j → l2.getD j ⟨0, 0⟩ = l.getD j ⟨0, 0⟩) ∧
      (∀ j, idx ≤ j → j < idx + cnt →
        (l2.getD j ⟨0, 0⟩).start = (l.getD j ⟨0, 0⟩).start ∧
        (l2.getD j ⟨0, 0⟩).num_cores = (l.getD j ⟨0, 0⟩).num_cores + 1 ∧
        (l.getD j ⟨0, 0⟩).num_cores + 1 ≤ m)
  | 0, l, idx, l2, hle, h => by
    unfold OccupationTimeline.increment_go at h
    injection h with h1 h2
    subst h2
    exact ⟨rfl, fun j _ => rfl, fun j h1 h2 => absurd h2 (by omega)⟩
  | cnt + 1, l, idx, l2, hle, h => by
    unfold OccupationTimeline.increment_go at h
    dsimp only at h
    split at h
    · exact absurd h (by simp)
    · rename_i hover
      have hidx : idx < l.length := by omega
      have hrec := increment_go_spec m cnt
        (l.set idx { l.getD idx ⟨0, 0⟩ with
          num_cores := (l.getD idx ⟨0, 0⟩).num_cores + 1 }) (idx + 1) l2
        (by rw [List.length_set]; omega) h
      obtain ⟨hlen, hout, hin⟩ := hrec
      rw [List.length_set] at hlen
      refine ⟨hlen, ?_, ?_⟩
      · intro j hj
        rw [hout j (by omega), ivD_set_ne _ _ _ _ (by omega)]
      · intro j hj1 hj2
        rcases Nat.eq_or_lt_of_le hj1 with heq | hj1'
        · rw [hout j (by omega), ← heq, ivD_set_eq _ _ _ hidx]
          exact ⟨rfl, rfl, by omega⟩
        · obtain ⟨ha, hb, hc⟩ := hin j (by omega) (by omega)
          rw [ivD_set_ne _ _ _ _ (by omega)] at ha hb hc
          exact ⟨ha, hb, hc⟩

theorem coalesce_left_stop (l : List OccupationInterval) (s e fuel : Nat)
    (h : ¬(0 < s ∧ s < l.length ∧
      (l.getD s ⟨0, 0⟩).num_cores = (l.getD (s - 1) ⟨0, 0⟩).num_cores)) :
    OccupationTimeline.coalesce_left l s e fuel = (l, e) := by
  cases fuel with
  | zero => rfl
  | succ fuel =>
    rw [OccupationTimeline.coalesce_left, if_neg h]

theorem coalesce_left_step (l : List OccupationInterval) (s e fuel : Nat)
    (h : 0 < s ∧ s < l.length ∧
      (l.getD s ⟨0, 0⟩).num_cores = (l.getD (s - 1) ⟨0, 0⟩).num_cores) :
    OccupationTimeline.coalesce_left l s e (fuel + 1) =
      OccupationTimeline.coalesce_left (l.eraseIdx s) s (e - 1) fuel := by
  rw [OccupationTimeline.coalesce_left, if_pos h]

theorem coalesce_right_stop (l : List OccupationInterval) (e fuel : Nat)
    (h : ¬(e + 1 < l.length ∧
      (l.getD e ⟨0, 0⟩).num_cores = (l.getD (e + 1) ⟨0, 0⟩).num_cores)) :
    OccupationTimeline.coalesce_right l e fuel = l := by
  cases fuel with
  | zero => rfl
  | succ fuel =>
    rw [OccupationTimeline.coalesce_right, if_neg h]

theorem coalesce_right_step (l : List OccupationInterval) (e fuel : Nat)
    (h : e + 1 < l.length ∧
      (l.getD e ⟨0, 0⟩).num_cores = (l.getD (e + 1) ⟨0, 0⟩).num_cores) :
    OccupationTimeline.coalesce_right l e (fuel + 1) =
      OccupationTimeline.coalesce_right (l.eraseIdx (e + 1)) e fuel := by
  rw [OccupationTimeline.coalesce_right, if_pos h]

theorem sortedP_eraseIdx (l : List OccupationInterval) (k : Nat)
    (hs : SortedP l) : SortedP (l.eraseIdx k) := by
  intro i j hij hj
  have hel := List.length_eraseIdx l k
  rw [ivD_eraseIdx, ivD_eraseIdx]
  rcases Nat.lt_or_ge k l.length with hk | hk
  · rw [if_pos hk] at hel
    split_ifs with h1 h2 h2
    · exact hs i j hij (by omega)
    · exact hs i (j + 1) (by omega) (by omega)
    · exact absurd (by omega : i < k) h1
    · exact hs (i + 1) (j + 1) (by omega) (by omega)
  · rw [if_neg (by omega)] at hel
    rw [if_pos (by omega), if_pos (by omega)]
    exact hs i j hij (by omega)

theorem cntLeP_eraseIdx (l : List OccupationInterval) (k m : Nat)
    (hc : CntLeP l m) : CntLeP (l.eraseIdx k) m := by
  intro j hj
  have hel := List.length_eraseIdx l k
  rw [ivD_eraseIdx]
  split_ifs with h1
  · apply hc
    split_ifs at hel <;> omega
  · apply hc
    split_ifs at hel <;> omega

theorem coalesce_WF (l : List OccupationInterval) (m s e : Nat)
    (hsort : SortedP l) (hcnt : CntLeP l m)
    (hse : s ≤ e + 1) (he : e < l.length)
    (hadj : ∀ k, k + 1 < l.length → k + 1 ≠ s → k ≠ e →
      (l.getD k ⟨0, 0⟩).num_cores ≠ (l.getD (k + 1) ⟨0, 0⟩).num_cores)
    (hmerge : s = e + 1 → e + 1 < l.length →
      (l.getD e ⟨0, 0⟩).num_cores ≠ (l.getD (e + 1) ⟨0, 0⟩).num_cores)
    (l3 : List OccupationInterval) (e3 : Nat)
    (hcl : OccupationTimeline.coalesce_left l s e l.length = (l3, e3)) :
    SortedP (OccupationTimeline.coalesce_right l3 e3 l3.length) ∧
    AdjP (OccupationTimeline.coalesce_right l3 e3 l3.length) ∧
    CntLeP (OccupationTimeline.coalesce_right l3 e3 l3.length) m := by
  by_cases hc1 : 0 < s ∧ s < l.length ∧
      (l.getD s ⟨0, 0⟩).num_cores = (l.getD (s - 1) ⟨0, 0⟩).num_cores
  · -- at least one left removal happens
    obtain ⟨hs0, hsl, hseq⟩ := hc1
    have hsle : s ≤ e := by
      by_contra hgt
      push_neg at hgt
      have hs' : s = e + 1 := by omega
      have hne := hmerge hs' (by omega)
      rw [hs'] at hseq
      simp only [Nat.add_sub_cancel] at hseq
      exact hne hseq.symm
    obtain ⟨f, hf⟩ : ∃ f, l.length = f + 1 := ⟨l.length - 1, by omega⟩
    rw [hf, coalesce_left_step l s e f ⟨hs0, hsl, hseq⟩] at hcl
    have hlen' : (l.eraseIdx s).length = l.length - 1 := by
      rw [List.length_eraseIdx, if_pos hsl]
    by_cases hc2 : 0 < s ∧ s < (l.eraseIdx s).length ∧
        ((l.eraseIdx s).getD s ⟨0, 0⟩).num_cores =
          ((l.eraseIdx s).getD (s - 1) ⟨0, 0⟩).num_cores
    · -- a second left removal; this forces s = e
      have hseq2l : (l.getD (s + 1) ⟨0, 0⟩).num_cores =
          (l.getD (s - 1) ⟨0, 0⟩).num_cores := by
        have hx := hc2.2.2
        rw [ivD_eraseIdx, if_neg (by omega), ivD_eraseIdx, if_pos (by omega)] at hx
        exact hx
      have hsl2 : s < (l.eraseIdx s).length := hc2.2.1
      have hse2 : s = e := by
        by_contra hne
        have hslt : s < e := by omega
        have hx := hadj s (by omega) (by omega) (by omega)
        exact hx (hseq.trans hseq2l.symm)
      subst hse2
      obtain ⟨f2, hf2⟩ : ∃ f2, f = f2 + 1 := ⟨f - 1, by omega⟩
      rw [hf2, coalesce_left_step _ s _ f2 hc2] at hcl
      have hlen'' : ((l.eraseIdx s).eraseIdx s).length = l.length - 2 := by
        rw [List.length_eraseIdx, if_pos hsl2, hlen']
        omega
      have hstop3 : ¬(0 < s ∧ s < ((l.eraseIdx s).eraseIdx s).length ∧
          (((l.eraseIdx s).eraseIdx s).getD s ⟨0, 0⟩).num_cores =
            (((l.eraseIdx s).eraseIdx s).getD (s - 1) ⟨0, 0⟩).num_cores) := by
        rintro ⟨-, hsl3, hseq3⟩
        rw [ivD_eraseIdx, if_neg (by omega), ivD_eraseIdx, if_neg (by omega),
          ivD_eraseIdx, if_pos (by omega), ivD_eraseIdx, if_pos (by omega)] at hseq3
        have hp := hadj (s + 1) (by omega) (by omega) (by omega)
        exact hp (hseq2l.trans hseq3.symm)
      rw [coalesce_left_stop _ _ _ _ hstop3] at hcl
      injection hcl with hl3 he3
      subst hl3
      subst he3
      have hstopR : ¬(s - 1 - 1 + 1 < ((l.eraseIdx s).eraseIdx s).length ∧
          (((l.eraseIdx s).eraseIdx s).getD (s - 1 - 1) ⟨0, 0⟩).num_cores =
            (((l.eraseIdx s).eraseIdx s).getD (s - 1 - 1 + 1) ⟨0, 0⟩).num_cores) := by
        rintro ⟨hR1, hR2⟩
        rcases Nat.lt_or_ge s 2 with hs1 | hs2
        · -- s = 1
          have hs1' : s = 1 := by omega
          rw [ivD_eraseIdx, if_pos (by omega), ivD_eraseIdx, if_pos (by omega),
            ivD_eraseIdx, if_neg (by omega), ivD_eraseIdx, if_neg (by omega)] at hR2
          rw [show s - 1 - 1 = s - 1 from by omega] at hR2
          rw [show s - 1 + 1 + 1 + 1 = s + 2 from by omega] at hR2
          have hp := hadj (s + 1) (by omega) (by omega) (by omega)
          exact hp (hseq2l.trans hR2)
        · -- s ≥ 2: the checked pair lies strictly left of the removals
          have hidx : s - 1 - 1 + 1 = s - 1 := by omega
          rw [hidx] at hR1 hR2
          rw [ivD_eraseIdx, if_pos (by omega), ivD_eraseIdx, if_pos (by omega),
            ivD_eraseIdx, if_pos (by omega), ivD_eraseIdx, if_pos (by omega)] at hR2
          have hp := hadj (s - 2) (by omega) (by omega) (by omega)
          have hidx2 : s - 2 + 1 = s - 1 := by omega
          rw [hidx2] at hp
          exact hp hR2
      rw [coalesce_right_stop _ _ _ hstopR]
      refine ⟨sortedP_eraseIdx _ _ (sortedP_eraseIdx _ _ hsort), ?_,
        cntLeP_eraseIdx _ _ _ (cntLeP_eraseIdx _ _ _ hcnt)⟩
      intro k hk
      rw [hlen''] at hk
      by_cases hk1 : k + 1 < s
      · rw [ivD_eraseIdx, if_pos (by omega), ivD_eraseIdx, if_pos (by omega),
          ivD_eraseIdx, if_pos (by omega), ivD_eraseIdx, if_pos (by omega)]
        exact hadj k (by omega) (by omega) (by omega)
      · by_cases hk2 : k < s
        · rw [ivD_eraseIdx, if_pos (by omega), ivD_eraseIdx, if_pos (by omega),
            ivD_eraseIdx, if_neg (by omega), ivD_eraseIdx, if_neg (by omega)]
          intro heq
          have hp := hadj (s + 1) (by omega) (by omega) (by omega)
          have hidx : k + 1 + 1 + 1 = s + 2 := by omega
          rw [hidx] at heq
          have hkidx : k = s - 1 := by omega
          rw [hkidx] at heq
          exact hp (hseq2l.trans heq)
        · rw [ivD_eraseIdx, if_neg (by omega), ivD_eraseIdx, if_neg (by omega),
            ivD_eraseIdx, if_neg (by omega), ivD_eraseIdx, if_neg (by omega)]
          exact hadj (k + 1 + 1) (by omega) (by omega) (by omega)
    · -- exactly one left removal
      rw [coalesce_left_stop _ _ _ _ hc2] at hcl
      injection hcl with hl3 he3
      subst hl3
      subst he3
      push_neg at hc2
      have hc2' : s < (l.eraseIdx s).length →
          (l.getD (s + 1) ⟨0, 0⟩).num_cores ≠ (l.getD (s - 1) ⟨0, 0⟩).num_cores := by
        intro hlt
        have hx := hc2 hs0 hlt
        rw [ivD_eraseIdx, if_neg (by omega), ivD_eraseIdx, if_pos (by omega)] at hx
        exact hx
      have heidx : e - 1 + 1 = e := by omega
      by_cases hr : e - 1 + 1 < (l.eraseIdx s).length ∧
          ((l.eraseIdx s).getD (e - 1) ⟨0, 0⟩).num_cores =
            ((l.eraseIdx s).getD (e - 1 + 1) ⟨0, 0⟩).num_cores
      · -- one right removal as well
        have hrA : e < (l.eraseIdx s).length := by
          have := hr.1
          omega
        have hslt : s < e := by
          by_contra hge
          have hseeq : s = e := by omega
          have hrB := hr.2
          rw [heidx, ← hseeq] at hrB
          rw [ivD_eraseIdx, if_pos (by omega), ivD_eraseIdx, if_neg (by omega)] at hrB
          exact hc2' (by omega) hrB.symm
        have hrBl : (l.getD e ⟨0, 0⟩).num_cores = (l.getD (e + 1) ⟨0, 0⟩).num_cores := by
          have hrB := hr.2
          rw [heidx] at hrB
          rw [ivD_eraseIdx, if_neg (by omega), ivD_eraseIdx, if_neg (by omega)] at hrB
          have hi1 : e - 1 + 1 = e := heidx
          rw [hi1] at hrB
          exact hrB
        obtain ⟨f2, hf2⟩ : ∃ f2, (l.eraseIdx s).length = f2 + 1 :=
          ⟨(l.eraseIdx s).length - 1, by omega⟩
        rw [hf2, coalesce_right_step _ _ _ hr]
        have hstopR2 : ¬(e - 1 + 1 < ((l.eraseIdx s).eraseIdx (e - 1 + 1)).length ∧
            (((l.eraseIdx s).eraseIdx (e - 1 + 1)).getD (e - 1) ⟨0, 0⟩).num_cores =
              (((l.eraseIdx s).eraseIdx (e - 1 + 1)).getD (e - 1 + 1) ⟨0, 0⟩).num_cores) := by
          rintro ⟨hS1, hS2⟩
          rw [heidx] at hS1 hS2
          have hlen2 : ((l.eraseIdx s).eraseIdx e).length = l.length - 2 := by
            rw [List.length_eraseIdx, if_pos (by omega), hlen']
            omega
          rw [hlen2] at hS1
          rw [ivD_eraseIdx, if_pos (by omega), ivD_eraseIdx, if_neg (by omega),
            ivD_eraseIdx, if_neg (by omega), ivD_eraseIdx, if_neg (by omega)] at hS2
          rw [show e - 1 + 1 = e from heidx] at hS2
          rw [show e + 1 + 1 = e + 2 from rfl] at hS2
          have hp := hadj (e + 1) (by omega) (by omega) (by omega)
          exact hp (hrBl.symm.trans hS2)
        rw [coalesce_right_stop _ _ _ hstopR2]
        rw [heidx]
        have hlen2 : ((l.eraseIdx s).eraseIdx e).length = l.length - 2 := by
          rw [List.length_eraseIdx, if_pos (by omega), hlen']
          omega
        refine ⟨sortedP_eraseIdx _ _ (sortedP_eraseIdx _ _ hsort), ?_,
          cntLeP_eraseIdx _ _ _ (cntLeP_eraseIdx _ _ _ hcnt)⟩
        intro k hk
        rw [hlen2] at hk
        by_cases hk1 : k + 1 < s
        · rw [ivD_eraseIdx, if_pos (by omega), ivD_eraseIdx, if_pos (by omega),
            ivD_eraseIdx, if_pos (by omega), ivD_eraseIdx, if_pos (by omega)]
          exact hadj k (by omega) (by omega) (by omega)
        · by_cases hk2 : k < s
          · -- k = s - 1 < e, k + 1 = s < e
            rw [ivD_eraseIdx, if_pos (by omega), ivD_eraseIdx, if_pos (by omega),
              ivD_eraseIdx, if_pos (by omega), ivD_eraseIdx, if_neg (by omega)]
            intro heq
            exact hc2' (by omega) ((by rw [show k + 1 + 1 = s + 1 from by omega,
              show k = s - 1 from by omega] at heq; exact heq.symm))
          · by_cases hk3 : k + 1 < e
            · rw [ivD_eraseIdx, if_pos (by omega), ivD_eraseIdx, if_neg (by omega),
                ivD_eraseIdx, if_pos (by omega), ivD_eraseIdx, if_neg (by omega)]
              exact hadj (k + 1) (by omega) (by omega) (by omega)
            · by_cases hk4 : k < e
              · -- k = e - 1
                rw [ivD_eraseIdx, if_pos (by omega), ivD_eraseIdx, if_neg (by omega),
                  ivD_eraseIdx, if_neg (by omega), ivD_eraseIdx, if_neg (by omega)]
                intro heq
                rw [show k + 1 = e from by omega] at heq
                rw [show e + 1 + 1 = e + 2 from rfl] at heq
                have hp := hadj (e + 1) (by omega) (by omega) (by omega)
                exact hp (hrBl.symm.trans heq)
              · rw [ivD_eraseIdx, if_neg (by omega), ivD_eraseIdx, if_neg (by omega),
                  ivD_eraseIdx, if_neg (by omega), ivD_eraseIdx, if_neg (by omega)]
                exact hadj (k + 1 + 1) (by omega) (by omega) (by omega)
      · -- no right removal either: the final list is l.eraseIdx s
        rw [coalesce_right_stop _ _ _ hr]
        refine ⟨sortedP_eraseIdx _ _ hsort, ?_, cntLeP_eraseIdx _ _ _ hcnt⟩
        push_neg at hr
        intro k hk
        rw [hlen'] at hk
        by_cases hk1 : k + 1 < s
        · rw [ivD_eraseIdx, if_pos (by omega), ivD_eraseIdx, if_pos (by omega)]
          exact hadj k (by omega) (by omega) (by omega)
        · by_cases hk2 : k < s
          · -- k = s - 1
            rw [ivD_eraseIdx, if_pos (by omega), ivD_eraseIdx, if_neg (by omega)]
            intro heq
            exact hc2' (by omega) ((by rw [show k + 1 + 1 = s + 1 from by omega,
              show k = s - 1 from by omega] at heq; exact heq.symm))
          · by_cases hk3 : k = e - 1
            · -- the right seam: distinct because the right loop refused to fire
              rw [ivD_eraseIdx, if_neg (by omega), ivD_eraseIdx, if_neg (by omega)]
              intro heq
              rcases Nat.eq_or_lt_of_le hsle with hseq2 | hslt2
              · -- s = e: the pair is (s - 1, s): but k ≥ s and k = e - 1 = s - 1: contra
                omega
              · have hcond := hr (by omega)
                rw [heidx] at hcond
                rw [ivD_eraseIdx, if_neg (by omega), ivD_eraseIdx, if_neg (by omega)] at hcond
                rw [show e - 1 + 1 = e from heidx] at hcond
                rw [show k + 1 = e - 1 + 1 from by omega, show e - 1 + 1 = e from heidx] at heq
                exact hcond heq
            · by_cases hk4 : k + 1 = s
              · omega
              · rw [ivD_eraseIdx, if_neg (by omega), ivD_eraseIdx, if_neg (by omega)]
                exact hadj (k + 1) (by omega) (by omega) (by omega)
  · -- no left removal at all
    rw [coalesce_left_stop _ _ _ _ hc1] at hcl
    injection hcl with hl3 he3
    subst hl3
    subst he3
    push_neg at hc1
    by_cases hr : e + 1 < l.length ∧
        (l.getD e ⟨0, 0⟩).num_cores = (l.getD (e + 1) ⟨0, 0⟩).num_cores
    · -- one right removal
      obtain ⟨f2, hf2⟩ : ∃ f2, l.length = f2 + 1 := ⟨l.length - 1, by omega⟩
      rw [hf2, coalesce_right_step _ _ _ hr]
      obtain ⟨hrA, hrB⟩ := hr
      have hstopR : ¬(e + 1 < (l.eraseIdx (e + 1)).length ∧
          ((l.eraseIdx (e + 1)).getD e ⟨0, 0⟩).num_cores =
            ((l.eraseIdx (e + 1)).getD (e + 1) ⟨0, 0⟩).num_cores) := by
        rintro ⟨hS1, hS2⟩
        have hlenx : (l.eraseIdx (e + 1)).length = l.length - 1 := by
          rw [List.length_eraseIdx, if_pos (by omega)]
        rw [hlenx] at hS1
        rw [ivD_eraseIdx, if_pos (by omega), ivD_eraseIdx, if_neg (by omega)] at hS2
        have hp := hadj (e + 1) (by omega) (by omega) (by omega)
        exact hp (hrB.symm.trans hS2)
      rw [coalesce_right_stop _ _ _ hstopR]
      have hlenx : (l.eraseIdx (e + 1)).length = l.length - 1 := by
        rw [List.length_eraseIdx, if_pos (by omega)]
      refine ⟨sortedP_eraseIdx _ _ hsort, ?_, cntLeP_eraseIdx _ _ _ hcnt⟩
      intro k hk
      rw [hlenx] at hk
      by_cases hk1 : k + 1 < e + 1
      · rw [ivD_eraseIdx, if_pos (by omega), ivD_eraseIdx, if_pos (by omega)]
        by_cases hks : k + 1 = s
        · intro heq
          have hx := hc1 (by omega) (by omega)
          rw [hks] at heq
          rw [show k = s - 1 from by omega] at heq
          exact hx heq.symm
        · exact hadj k (by omega) (by omega) (by omega)
      · by_cases hk2 : k < e + 1
        · -- k = e
          rw [ivD_eraseIdx, if_pos (by omega), ivD_eraseIdx, if_neg (by omega)]
          intro heq
          rw [show k = e from by omega] at heq
          rw [show e + 1 + 1 = e + 2 from rfl] at heq
          have hp := hadj (e + 1) (by omega) (by omega) (by omega)
          exact hp (hrB.symm.trans heq)
        · rw [ivD_eraseIdx, if_neg (by omega), ivD_eraseIdx, if_neg (by omega)]
          exact hadj (k + 1) (by omega) (by omega) (by omega)
    · -- nothing to coalesce
      rw [coalesce_right_stop _ _ _ hr]
      refine ⟨hsort, ?_, hcnt⟩
      push_neg at hr
      intro k hk
      by_cases hks : k + 1 = s
      · intro heq
        have hx := hc1 (by omega) (by omega)
        rw [hks] at heq
        rw [show k = s - 1 from by omega] at heq
        exact hx heq.symm
      · by_cases hke : k = e
        · intro heq
          have := hr (by omega)
          rw [hke] at heq
          exact this heq
        · exact hadj k (by omega) hks hke

theorem stage2_WF (max : Nat) (ivs1 ivs2 : List OccupationInterval) (s e : Nat)
    (hsort : SortedP ivs1) (hcnt : CntLeP ivs1 max)
    (hse : s ≤ e + 1) (he : e < ivs1.length)
    (hadj : ∀ k, k + 1 < ivs1.length → k + 1 ≠ s → k ≠ e →
      (ivs1.getD k ⟨0, 0⟩).num_cores ≠ (ivs1.getD (k + 1) ⟨0, 0⟩).num_cores)
    (hmerge : s = e + 1 → e + 1 < ivs1.length →
      (ivs1.getD e ⟨0, 0⟩).num_cores ≠ (ivs1.getD (e + 1) ⟨0, 0⟩).num_cores)
    (hinc : OccupationTimeline.increment_range max ivs1 s e = (false, ivs2))
    (l3 : List OccupationInterval) (e3 : Nat)
    (hcl : OccupationTimeline.coalesce_left ivs2 s e ivs2.length = (l3, e3)) :
    SortedP (OccupationTimeline.coalesce_right l3 e3 l3.length) ∧
    AdjP (OccupationTimeline.coalesce_right l3 e3 l3.length) ∧
    CntLeP (OccupationTimeline.coalesce_right l3 e3 l3.length) max := by
  unfold OccupationTimeline.increment_range at hinc
  obtain ⟨hlen2, hout, hin⟩ :=
    increment_go_spec max (e + 1 - s) ivs1 s ivs2 (by omega) hinc
  have hs2 : ∀ j, j < ivs1.length →
      (ivs2.getD j ⟨0, 0⟩).start = (ivs1.getD j ⟨0, 0⟩).start := by
    intro j hj
    by_cases hjr : s ≤ j ∧ j < s + (e + 1 - s)
    · exact (hin j hjr.1 hjr.2).1
    · rw [hout j (by omega)]
  refine coalesce_WF ivs2 max s e ?_ ?_ (by omega) (by omega) ?_ ?_ l3 e3 hcl
  · intro j k hjk hk
    rw [hlen2] at hk
    rw [hs2 j (by omega), hs2 k (by omega)]
    exact hsort j k hjk hk
  · intro k hk
    rw [hlen2] at hk
    by_cases hkr : s ≤ k ∧ k < s + (e + 1 - s)
    · obtain ⟨-, hb, hc⟩ := hin k hkr.1 hkr.2
      omega
    · rw [hout k (by omega)]
      exact hcnt k hk
  · intro k hk hks hke
    rw [hlen2] at hk
    have h0 := hadj k (by omega) hks hke
    by_cases hkr : s ≤ k ∧ k + 1 ≤ e
    · have h1 := (hin k (by omega) (by omega)).2.1
      have h2 := (hin (k + 1) (by omega) (by omega)).2.1
      omega
    · have hcases : k + 1 < s ∨ e + 1 ≤ k := by omega
      rw [hout k (by omega), hout (k + 1) (by omega)]
      exact h0
  · intro hs1 hlt
    rw [hlen2] at hlt
    have h0 := hmerge hs1 hlt
    rw [hout e (by omega), hout (e + 1) (by omega)]
    exact h0

set_option maxHeartbeats 1000000 in
theorem insert_WF (tl : OccupationTimeline) (job : Job) (tl1 : OccupationTimeline)
    (hwf : TimelineWF tl) (h : tl.insert job = some (false, tl1)) : TimelineWF tl1 := by
  rw [timelineWF_iff] at hwf
  obtain ⟨hsort, hadj, hcnt⟩ := hwf
  rw [timelineWF_iff]
  unfold OccupationTimeline.insert at h
  split_ifs at h with hempty
  · have htl : tl1 = tl := by
      simp only [Option.some.injEq, Prod.mk.injEq, true_and] at h
      exact h.symm
    subst htl
    exact ⟨hsort, hadj, hcnt⟩
  · push_neg at hempty
    rcases hbs2 : OccupationTimeline.binary_search_start tl.intervals
        job.get_earliest_finish with i | b
    · -- the bound key2 is an existing start
      rw [hbs2] at h
      dsimp only at h
      by_cases hi0 : i = 0
      · rw [if_pos hi0, Option.bind_eq_bind, Option.none_bind] at h
        exact absurd h (by simp)
      · rw [if_neg hi0, Option.bind_eq_bind, Option.some_bind] at h
        dsimp only at h
        obtain ⟨hi_lt, hi_start⟩ := bs_inl_spec tl.intervals job.get_earliest_finish i hbs2
        rcases hbs1 : OccupationTimeline.binary_search_start tl.intervals
            job.latest_start with s0 | ns
        · -- B: key1 is an existing start
          rw [hbs1] at h
          dsimp only at h
          rw [Option.bind_eq_bind, Option.some_bind] at h
          dsimp only at h
          obtain ⟨hs_lt, hs_start⟩ := bs_inl_spec tl.intervals job.latest_start s0 hbs1
          have hsle : s0 ≤ i - 1 := by
            by_contra hgt
            push_neg at hgt
            rcases Nat.eq_or_lt_of_le (by omega : i ≤ s0) with heq | hlt
            · rw [← heq] at hs_start
              rw [hi_start] at hs_start
              omega
            · have := hsort i s0 hlt hs_lt
              rw [hi_start, hs_start] at this
              omega
          rcases hinc : OccupationTimeline.increment_range tl.max_num_cores
              tl.intervals s0 (i - 1) with ⟨ov, ivs2⟩
          rw [hinc] at h
          dsimp only at h
          cases ov with
          | true => exact absurd h (by simp)
          | false =>
            rw [if_neg (by simp)] at h
            rcases hcl : OccupationTimeline.coalesce_left ivs2 s0 (i - 1)
                ivs2.length with ⟨l3, e3⟩
            rw [hcl] at h
            dsimp only at h
            simp only [Option.some.injEq, Prod.mk.injEq, true_and] at h
            rw [← h]
            exact stage2_WF tl.max_num_cores tl.intervals ivs2 s0 (i - 1)
              hsort hcnt (by omega) (by omega)
              (fun k hk _ _ => hadj k hk)
              (fun h1 _ => absurd h1 (by omega))
              hinc l3 e3 hcl
        · -- B: key1 gets a new boundary, possibly merged into the next step
          rw [hbs1] at h
          dsimp only at h
          obtain ⟨hns_le, hns_below, hns_above⟩ :=
            bs_inr_spec tl.intervals job.latest_start ns hsort hbs1
          by_cases hns0 : ns = 0
          · rw [if_pos hns0, Option.bind_eq_bind, Option.none_bind] at h
            exact absurd h (by simp)
          · rw [if_neg hns0] at h
            have hns_le_i : ns ≤ i := by
              by_contra hgt
              push_neg at hgt
              have hx := hns_below i hgt
              rw [hi_start] at hx
              omega
            split_ifs at h with hm
            · -- merge with the following step
              rw [Option.bind_eq_bind, Option.some_bind] at h
              dsimp only at h
              obtain ⟨hm1, hm2, hm3⟩ := hm
              have hns_eq : ns = i := by
                rcases Nat.eq_or_lt_of_le hns_le_i with heq | hlt
                · exact heq
                · have hx := hsort ns i hlt hi_lt
                  rw [hi_start] at hx
                  omega
              subst hns_eq
              have hset_cores : ∀ j,
                  ((tl.intervals.set ns
                    { start := job.latest_start,
                      num_cores := (tl.intervals.getD ns ⟨0, 0⟩).num_cores }).getD
                      j ⟨0, 0⟩).num_cores =
                  (tl.intervals.getD j ⟨0, 0⟩).num_cores := by
                intro j
                by_cases hj : ns = j
                · subst hj
                  rw [ivD_set_eq _ _ _ hm1]
                · rw [ivD_set_ne _ _ _ _ hj]
              have hlen1 : (tl.intervals.set ns
                  { start := job.latest_start,
                    num_cores := (tl.intervals.getD ns ⟨0, 0⟩).num_cores }).length =
                  tl.intervals.length := List.length_set _ _ _
              split at h
              · exact absurd h (by simp)
              · rename_i hov
                rw [Bool.not_eq_true] at hov
                simp only [Option.some.injEq, Prod.mk.injEq, true_and] at h
                rw [← h]
                refine stage2_WF tl.max_num_cores _ _ ns (ns - 1)
                  ?_ ?_ (by omega) (by rw [hlen1]; omega) ?_ ?_
                  (by rw [← hov]) _ _ rfl
                · intro j k hjk hk
                  rw [hlen1] at hk
                  by_cases hj : ns = j
                  · subst hj
                    rw [ivD_set_eq _ _ _ hm1, ivD_set_ne _ _ _ _ (by omega)]
                    have hx := hsort ns k hjk hk
                    show job.latest_start < (tl.intervals.getD k ⟨0, 0⟩).start
                    omega
                  · by_cases hk' : ns = k
                    · subst hk'
                      rw [ivD_set_ne _ _ _ _ hj, ivD_set_eq _ _ _ hm1]
                      have hx := hns_below j (by omega)
                      show (tl.intervals.getD j ⟨0, 0⟩).start < job.latest_start
                      exact hx
                    · rw [ivD_set_ne _ _ _ _ hj, ivD_set_ne _ _ _ _ hk']
                      exact hsort j k hjk hk
                · intro k hk
                  rw [hlen1] at hk
                  rw [hset_cores]
                  exact hcnt k hk
                · intro k hk hks hke
                  rw [hlen1] at hk
                  rw [hset_cores, hset_cores]
                  exact hadj k hk
                · intro h1 hlt
                  rw [hset_cores, hset_cores]
                  rw [show ns - 1 + 1 = ns from by omega]
                  omega
            · -- plain insertion of the key1 boundary
              rw [Option.bind_eq_bind, Option.some_bind] at h
              dsimp only at h
              have hns1len : ns - 1 < tl.intervals.length := by omega
              have hlen1 : (List.insertIdx ns
                  ⟨job.latest_start, (tl.intervals.getD (ns - 1) ⟨0, 0⟩).num_cores⟩
                  tl.intervals).length = tl.intervals.length + 1 :=
                List.length_insertIdx _ _ (by omega)
              split at h
              · exact absurd h (by simp)
              · rename_i hov
                rw [Bool.not_eq_true] at hov
                simp only [Option.some.injEq, Prod.mk.injEq, true_and] at h
                rw [← h]
                refine stage2_WF tl.max_num_cores _ _ ns (i - 1 + 1)
                  ?_ ?_ (by omega) (by rw [hlen1]; omega) ?_ ?_
                  (by rw [← hov]) _ _ rfl
                · intro j k hjk hk
                  rw [hlen1] at hk
                  by_cases hj : j < ns
                  · rw [ivD_insertIdx_lt _ _ _ _ (by omega) hj]
                    by_cases hk1 : k < ns
                    · rw [ivD_insertIdx_lt _ _ _ _ (by omega) hk1]
                      exact hsort j k hjk (by omega)
                    · by_cases hk2 : k = ns
                      · subst hk2
                        rw [ivD_insertIdx_self _ _ _ (by omega)]
                        exact hns_below j hj
                      · rw [ivD_insertIdx_gt _ _ _ _ (by omega) (by omega)]
                        have hx := hns_above (k - 1) (by omega) (by omega)
                        have hy := hns_below j hj
                        omega
                  · by_cases hj2 : j = ns
                    · subst hj2
                      rw [ivD_insertIdx_self _ _ _ (by omega),
                        ivD_insertIdx_gt _ _ _ _ (by omega) (by omega)]
                      have hx := hns_above (k - 1) (by omega) (by omega)
                      show job.latest_start < (tl.intervals.getD (k - 1) ⟨0, 0⟩).start
                      exact hx
                    · rw [ivD_insertIdx_gt _ _ _ _ (by omega) (by omega),
                        ivD_insertIdx_gt _ _ _ _ (by omega) (by omega)]
                      exact hsort (j - 1) (k - 1) (by omega) (by omega)
                · intro k hk
                  rw [hlen1] at hk
                  by_cases hk1 : k < ns
                  · rw [ivD_insertIdx_lt _ _ _ _ (by omega) hk1]
                    exact hcnt k (by omega)
                  · by_cases hk2 : k = ns
                    · subst hk2
                      rw [ivD_insertIdx_self _ _ _ (by omega)]
                      exact hcnt (k - 1) (by omega)
                    · rw [ivD_insertIdx_gt _ _ _ _ (by omega) (by omega)]
                      exact hcnt (k - 1) (by omega)
                · intro k hk hks hke
                  rw [hlen1] at hk
                  by_cases hk1 : k + 1 < ns
                  · rw [ivD_insertIdx_lt _ _ _ _ (by omega) (by omega),
                      ivD_insertIdx_lt _ _ _ _ (by omega) (by omega)]
                    exact hadj k (by omega)
                  · by_cases hk2 : k + 1 = ns
                    · exact absurd hk2 hks
                    · by_cases hk3 : k = ns
                      · subst hk3
                        rw [ivD_insertIdx_self _ _ _ (by omega),
                          ivD_insertIdx_gt _ _ _ _ (by omega) (by omega)]
                        have hx := hadj (k - 1) (by omega)
                        rw [show k - 1 + 1 = k from by omega] at hx
                        rw [show k + 1 - 1 = k from by omega]
                        exact hx
                      · rw [ivD_insertIdx_gt _ _ _ _ (by omega) (by omega),
                          ivD_insertIdx_gt _ _ _ _ (by omega) (by omega)]
                        have hx := hadj (k - 1) (by omega)
                        rw [show k - 1 + 1 = k from by omega] at hx
                        rw [show k + 1 - 1 = k from by omega]
                        exact hx
                · intro h1 hlt
                  exact absurd h1 (by omega)
    · -- A: the bound key gets a fresh boundary entry
      rw [hbs2] at h
      dsimp only at h
      obtain ⟨hb_le, hb_below, hb_above⟩ :=
        bs_inr_spec tl.intervals job.get_earliest_finish b hsort hbs2
      by_cases hb0 : b = 0
      · rw [if_pos hb0, Option.bind_eq_bind, Option.none_bind] at h
        exact absurd h (by simp)
      · rw [if_neg hb0, Option.bind_eq_bind, Option.some_bind] at h
        dsimp only at h
        set ivs0 : List OccupationInterval := List.insertIdx b
          ⟨job.get_earliest_finish, (tl.intervals.getD (b - 1) ⟨0, 0⟩).num_cores⟩
          tl.intervals with hivs0
        have hlen0 : ivs0.length = tl.intervals.length + 1 := by
          rw [hivs0]
          exact List.length_insertIdx _ _ (by omega)
        have hA1 : SortedP ivs0 := by
          rw [hivs0]
          intro j k hjk hk
          rw [List.length_insertIdx _ _ (by omega)] at hk
          by_cases hj : j < b
          · rw [ivD_insertIdx_lt _ _ _ _ (by omega) hj]
            by_cases hk1 : k < b
            · rw [ivD_insertIdx_lt _ _ _ _ (by omega) hk1]
              exact hsort j k hjk (by omega)
            · by_cases hk2 : k = b
              · rw [hk2, ivD_insertIdx_self _ _ _ (by omega)]
                exact hb_below j hj
              · rw [ivD_insertIdx_gt _ _ _ _ (by omega) (by omega)]
                have hx := hb_above (k - 1) (by omega) (by omega)
                have hy := hb_below j hj
                omega
          · by_cases hj2 : j = b
            · rw [hj2, ivD_insertIdx_self _ _ _ (by omega),
                ivD_insertIdx_gt _ _ _ _ (by omega) (by omega)]
              have hx := hb_above (k - 1) (by omega) (by omega)
              show job.get_earliest_finish < (tl.intervals.getD (k - 1) ⟨0, 0⟩).start
              exact hx
            · rw [ivD_insertIdx_gt _ _ _ _ (by omega) (by omega),
                ivD_insertIdx_gt _ _ _ _ (by omega) (by omega)]
              exact hsort (j - 1) (k - 1) (by omega) (by omega)
        have hA2 : CntLeP ivs0 tl.max_num_cores := by
          rw [hivs0]
          intro k hk
          rw [List.length_insertIdx _ _ (by omega)] at hk
          by_cases hk1 : k < b
          · rw [ivD_insertIdx_lt _ _ _ _ (by omega) hk1]
            exact hcnt k (by omega)
          · by_cases hk2 : k = b
            · rw [hk2, ivD_insertIdx_self _ _ _ (by omega)]
              exact hcnt (b - 1) (by omega)
            · rw [ivD_insertIdx_gt _ _ _ _ (by omega) (by omega)]
              exact hcnt (k - 1) (by omega)
        have hA4 : (ivs0.getD (b - 1) ⟨0, 0⟩).start < job.get_earliest_finish := by
          rw [hivs0, ivD_insertIdx_lt _ _ _ _ (by omega) (by omega)]
          exact hb_below (b - 1) (by omega)
        have hA5 : job.get_earliest_finish ≤ (ivs0.getD b ⟨0, 0⟩).start := by
          rw [hivs0, ivD_insertIdx_self _ _ _ (by omega)]
        have hA6 : ∀ k, k + 1 < ivs0.length → k ≠ b - 1 →
            (ivs0.getD k ⟨0, 0⟩).num_cores ≠ (ivs0.getD (k + 1) ⟨0, 0⟩).num_cores := by
          rw [hivs0]
          intro k hk hke
          rw [List.length_insertIdx _ _ (by omega)] at hk
          by_cases hk1 : k + 1 < b
          · rw [ivD_insertIdx_lt _ _ _ _ (by omega) (by omega),
              ivD_insertIdx_lt _ _ _ _ (by omega) (by omega)]
            exact hadj k (by omega)
          · by_cases hk2 : k + 1 = b
            · exact absurd (by omega : k = b - 1) hke
            · by_cases hk3 : k = b
              · rw [hk3, ivD_insertIdx_self _ _ _ (by omega),
                  ivD_insertIdx_gt _ _ _ _ (by omega) (by omega)]
                have hx := hadj (b - 1) (by omega)
                rw [show b - 1 + 1 = b from by omega] at hx
                rw [show b + 1 - 1 = b from by omega]
                exact hx
              · rw [ivD_insertIdx_gt _ _ _ _ (by omega) (by omega),
                  ivD_insertIdx_gt _ _ _ _ (by omega) (by omega)]
                have hx := hadj (k - 1) (by omega)
                rw [show k - 1 + 1 = k from by omega] at hx
                rw [show k + 1 - 1 = k from by omega]
                exact hx
        clear_value ivs0
        clear hivs0
        rcases hbs1 : OccupationTimeline.binary_search_start ivs0
            job.latest_start with s0 | ns
        · -- B: key1 is an existing start of the extended list
          rw [hbs1] at h
          dsimp only at h
          rw [Option.bind_eq_bind, Option.some_bind] at h
          dsimp only at h
          obtain ⟨hs_lt, hs_start⟩ := bs_inl_spec ivs0 job.latest_start s0 hbs1
          have hsle : s0 ≤ b - 1 := by
            by_contra hgt
            push_neg at hgt
            have hx : job.get_earliest_finish ≤ (ivs0.getD s0 ⟨0, 0⟩).start := by
              rcases Nat.eq_or_lt_of_le (by omega : b ≤ s0) with heq | hlt
              · rw [← heq]
                exact hA5
              · have hy := hA1 b s0 hlt hs_lt
                have hz := hA5
                omega
            rw [hs_start] at hx
            omega
          split at h
          · exact absurd h (by simp)
          · rename_i hov
            rw [Bool.not_eq_true] at hov
            simp only [Option.some.injEq, Prod.mk.injEq, true_and] at h
            rw [← h]
            refine stage2_WF tl.max_num_cores _ _ s0 (b - 1)
              hA1 hA2 (by omega) (by rw [hlen0]; omega) ?_ ?_
              (by rw [← hov]) _ _ rfl
            · intro k hk hks hke
              exact hA6 k hk hke
            · intro h1 hlt
              exact absurd h1 (by omega)
        · -- B: key1 gets its own boundary in the extended list (or merges)
          rw [hbs1] at h
          dsimp only at h
          obtain ⟨hns_le, hns_below, hns_above⟩ :=
            bs_inr_spec ivs0 job.latest_start ns hA1 hbs1
          by_cases hns0 : ns = 0
          · rw [if_pos hns0, Option.bind_eq_bind, Option.none_bind] at h
            exact absurd h (by simp)
          · rw [if_neg hns0] at h
            have hns_le_b : ns ≤ b := by
              by_contra hgt
              push_neg at hgt
              have hx := hns_below b hgt
              have hy := hA5
              omega
            split_ifs at h with hm
            · -- merge with the following step
              rw [Option.bind_eq_bind, Option.some_bind] at h
              dsimp only at h
              obtain ⟨hm1, hm2, hm3⟩ := hm
              have hns_eq : ns = b := by
                rcases Nat.eq_or_lt_of_le hns_le_b with heq | hlt
                · exact heq
                · rcases Nat.eq_or_lt_of_le (by omega : ns ≤ b - 1) with heq2 | hlt2
                  · rw [heq2] at hm3
                    omega
                  · have hx := hA1 ns (b - 1) hlt2 (by omega)
                    omega
              subst hns_eq
              have hset_cores : ∀ j,
                  ((ivs0.set ns
                    { start := job.latest_start,
                      num_cores := (ivs0.getD ns ⟨0, 0⟩).num_cores }).getD
                      j ⟨0, 0⟩).num_cores =
                  (ivs0.getD j ⟨0, 0⟩).num_cores := by
                intro j
                by_cases hj : ns = j
                · rw [← hj, ivD_set_eq _ _ _ hm1]
                · rw [ivD_set_ne _ _ _ _ hj]
              have hlen1 : (ivs0.set ns
                  { start := job.latest_start,
                    num_cores := (ivs0.getD ns ⟨0, 0⟩).num_cores }).length =
                  ivs0.length := List.length_set _ _ _
              split at h
              · exact absurd h (by simp)
              · rename_i hov
                rw [Bool.not_eq_true] at hov
                simp only [Option.some.injEq, Prod.mk.injEq, true_and] at h
                rw [← h]
                refine stage2_WF tl.max_num_cores _ _ ns (ns - 1)
                  ?_ ?_ (by omega) (by rw [hlen1, hlen0]; omega) ?_ ?_
                  (by rw [← hov]) _ _ rfl
                · intro j k hjk hk
                  rw [hlen1] at hk
                  by_cases hj : ns = j
                  · rw [← hj, ivD_set_eq _ _ _ hm1, ivD_set_ne _ _ _ _ (by omega)]
                    have hx := hA1 ns k (by omega) hk
                    show job.latest_start < (ivs0.getD k ⟨0, 0⟩).start
                    omega
                  · by_cases hk' : ns = k
                    · rw [ivD_set_ne _ _ _ _ hj, ← hk', ivD_set_eq _ _ _ hm1]
                      have hx := hns_below j (by omega)
                      show (ivs0.getD j ⟨0, 0⟩).start < job.latest_start
                      exact hx
                    · rw [ivD_set_ne _ _ _ _ hj, ivD_set_ne _ _ _ _ hk']
                      exact hA1 j k hjk hk
                · intro k hk
                  rw [hlen1] at hk
                  rw [hset_cores]
                  exact hA2 k hk
                · intro k hk hks hke
                  rw [hlen1] at hk
                  rw [hset_cores, hset_cores]
                  exact hA6 k hk (by omega)
                · intro h1 hlt
                  rw [hset_cores, hset_cores]
                  rw [show ns - 1 + 1 = ns from by omega]
                  omega
            · -- plain insertion of the key1 boundary into the extended list
              rw [Option.bind_eq_bind, Option.some_bind] at h
              dsimp only at h
              have hlen1 : (List.insertIdx ns
                  ⟨job.latest_start, (ivs0.getD (ns - 1) ⟨0, 0⟩).num_cores⟩
                  ivs0).length = ivs0.length + 1 :=
                List.length_insertIdx _ _ (by omega)
              split at h
              · exact absurd h (by simp)
              · rename_i hov
                rw [Bool.not_eq_true] at hov
                simp only [Option.some.injEq, Prod.mk.injEq, true_and] at h
                rw [← h]
                refine stage2_WF tl.max_num_cores _ _ ns (b - 1 + 1)
                  ?_ ?_ (by omega) (by rw [hlen1, hlen0]; omega) ?_ ?_
                  (by rw [← hov]) _ _ rfl
                · intro j k hjk hk
                  rw [hlen1] at hk
                  by_cases hj : j < ns
                  · rw [ivD_insertIdx_lt _ _ _ _ (by omega) hj]
                    by_cases hk1 : k < ns
                    · rw [ivD_insertIdx_lt _ _ _ _ (by omega) hk1]
                      exact hA1 j k hjk (by omega)
                    · by_cases hk2 : k = ns
                      · rw [hk2, ivD_insertIdx_self _ _ _ (by omega)]
                        exact hns_below j hj
                      · rw [ivD_insertIdx_gt _ _ _ _ (by omega) (by omega)]
                        have hx := hns_above (k - 1) (by omega) (by omega)
                        have hy := hns_below j hj
                        omega
                  · by_cases hj2 : j = ns
                    · rw [hj2, ivD_insertIdx_self _ _ _ (by omega),
                        ivD_insertIdx_gt _ _ _ _ (by omega) (by omega)]
                      have hx := hns_above (k - 1) (by omega) (by omega)
                      show job.latest_start < (ivs0.getD (k - 1) ⟨0, 0⟩).start
                      exact hx
                    · rw [ivD_insertIdx_gt _ _ _ _ (by omega) (by omega),
                        ivD_insertIdx_gt _ _ _ _ (by omega) (by omega)]
                      exact hA1 (j - 1) (k - 1) (by omega) (by omega)
                · intro k hk
                  rw [hlen1] at hk
                  by_cases hk1 : k < ns
                  · rw [ivD_insertIdx_lt _ _ _ _ (by omega) hk1]
                    exact hA2 k (by omega)
                  · by_cases hk2 : k = ns
                    · rw [hk2, ivD_insertIdx_self _ _ _ (by omega)]
                      exact hA2 (ns - 1) (by omega)
                    · rw [ivD_insertIdx_gt _ _ _ _ (by omega) (by omega)]
                      exact hA2 (k - 1) (by omega)
                · intro k hk hks hke
                  rw [hlen1] at hk
                  by_cases hk1 : k + 1 < ns
                  · rw [ivD_insertIdx_lt _ _ _ _ (by omega) (by omega),
                      ivD_insertIdx_lt _ _ _ _ (by omega) (by omega)]
                    exact hA6 k (by omega) (by omega)
                  · by_cases hk2 : k + 1 = ns
                    · exact absurd hk2 hks
                    · by_cases hk3 : k = ns
                      · rw [hk3, ivD_insertIdx_self _ _ _ (by omega),
                          ivD_insertIdx_gt _ _ _ _ (by omega) (by omega)]
                        have hx := hA6 (ns - 1) (by omega) (by omega)
                        rw [show ns - 1 + 1 = ns from by omega] at hx
                        rw [show ns + 1 - 1 = ns from by omega]
                        exact hx
                      · rw [ivD_insertIdx_gt _ _ _ _ (by omega) (by omega),
                          ivD_insertIdx_gt _ _ _ _ (by omega) (by omega)]
                        have hx := hA6 (k - 1) (by omega) (by omega)
                        rw [show k - 1 + 1 = k from by omega] at hx
                        rw [show k + 1 - 1 = k from by omega]
                        exact hx
                · intro h1 hlt
                  exact absurd h1 (by omega)

theorem refine_full_WF (tl : OccupationTimeline) (job : Job) (r : RefineResult)
    (tl1 : OccupationTimeline) (j1 : Job)
    (hwf : TimelineWF tl)
    (h : tl.refine_full job = some (r, tl1, j1, false)) : TimelineWF tl1 := by
  unfold OccupationTimeline.refine_full at h
  split_ifs at h with h1
  · simp only [Option.some.injEq, Prod.mk.injEq] at h
    obtain ⟨-, htl, -⟩ := h
    rw [← htl]
    exact hwf
  · dsimp only at h
    rcases hadv : tl.refine_advance_es job (tl.intervals.length + 1) job with _ | job1
    · rw [hadv, Option.bind_eq_bind, Option.none_bind] at h
      exact absurd h (by simp)
    · rw [hadv] at h
      simp only [Option.bind_eq_bind, Option.some_bind] at h
      rcases hret : tl.refine_retreat_lf job (tl.intervals.length + 1) job1 with _ | job2
      · rw [hret, Option.none_bind] at h
        exact absurd h (by simp)
      · rw [hret, Option.some_bind] at h
        by_cases h2 : job2.is_certainly_infeasible = true
        · rw [if_pos h2] at h
          simp only [Option.some.injEq, Prod.mk.injEq] at h
          obtain ⟨-, htl, -⟩ := h
          rw [← htl]
          exact hwf
        · rw [if_neg h2] at h
          by_cases h3 : job2 = job
          · rw [if_pos h3] at h
            simp only [Option.some.injEq, Prod.mk.injEq] at h
            obtain ⟨-, htl, -⟩ := h
            rw [← htl]
            exact hwf
          · rw [if_neg h3] at h
            by_cases h4 : job.latest_start < job.get_earliest_finish
            · rw [if_pos h4] at h
              by_cases h5 : job2.latest_start < job.latest_start
              · rw [if_pos h5] at h
                rcases hins1 : tl.insert (Job.release_to_deadline job2.index
                    job2.latest_start (job.latest_start - job2.latest_start)
                    job.latest_start) with _ | p1
                · rw [hins1, Option.none_bind] at h
                  exact absurd h (by simp)
                · obtain ⟨ovA, tlA⟩ := p1
                  rw [hins1, Option.some_bind] at h
                  dsimp only at h
                  by_cases h6 : job.get_earliest_finish < job2.get_earliest_finish
                  · rw [if_pos h6] at h
                    rcases hins2 : tlA.insert (Job.release_to_deadline job2.index
                        job.get_earliest_finish
                        (job2.get_earliest_finish - job.get_earliest_finish)
                        job2.get_earliest_finish) with _ | p2
                    · rw [hins2, Option.none_bind] at h
                      exact absurd h (by simp)
                    · obtain ⟨ovB, tlB⟩ := p2
                      rw [hins2, Option.some_bind] at h
                      dsimp only at h
                      simp only [Option.some.injEq, Prod.mk.injEq] at h
                      obtain ⟨-, htl, -, hov⟩ := h
                      rw [Bool.or_eq_false_iff] at hov
                      rw [← htl]
                      exact insert_WF tlA _ tlB
                        (insert_WF tl _ tlA hwf (by rw [hins1, hov.1]))
                        (by rw [hins2, hov.2])
                  · rw [if_neg h6] at h
                    simp only [Option.some.injEq, Prod.mk.injEq] at h
                    obtain ⟨-, htl, -, hov⟩ := h
                    rw [← htl]
                    exact insert_WF tl _ tlA hwf (by rw [hins1, hov])
              · rw [if_neg h5] at h
                by_cases h6 : job.get_earliest_finish < job2.get_earliest_finish
                · rw [if_pos h6] at h
                  rcases hins2 : tl.insert (Job.release_to_deadline job2.index
                      job.get_earliest_finish
                      (job2.get_earliest_finish - job.get_earliest_finish)
                      job2.get_earliest_finish) with _ | p2
                  · rw [hins2, Option.none_bind] at h
                    exact absurd h (by simp)
                  · obtain ⟨ovB, tlB⟩ := p2
                    rw [hins2, Option.some_bind] at h
                    dsimp only at h
                    simp only [Option.some.injEq, Prod.mk.injEq] at h
                    obtain ⟨-, htl, -, hov⟩ := h
                    rw [Bool.false_or] at hov
                    rw [← htl]
                    exact insert_WF tl _ tlB hwf (by rw [hins2, hov])
                · rw [if_neg h6] at h
                  simp only [Option.some.injEq, Prod.mk.injEq] at h
                  obtain ⟨-, htl, -⟩ := h
                  rw [← htl]
                  exact hwf
            · rw [if_neg h4] at h
              by_cases h7 : job2.latest_start < job2.get_earliest_finish
              · rw [if_pos h7] at h
                rcases hins3 : tl.insert job2 with _ | p3
                · rw [hins3, Option.none_bind] at h
                  exact absurd h (by simp)
                · obtain ⟨ovC, tlC⟩ := p3
                  rw [hins3, Option.some_bind] at h
                  dsimp only at h
                  simp only [Option.some.injEq, Prod.mk.injEq] at h
                  obtain ⟨-, htl, -, hov⟩ := h
                  rw [← htl]
                  exact insert_WF tl _ tlC hwf (by rw [hins3, hov])
              · rw [if_neg h7] at h
                simp only [Option.some.injEq, Prod.mk.injEq] at h
                obtain ⟨-, htl, -⟩ := h
                rw [← htl]
                exact hwf

theorem new_WF (max : Nat) : TimelineWF (OccupationTimeline.new max) := by
  constructor
  · simp [OccupationTimeline.new]
  · intro iv hiv
    simp only [OccupationTimeline.new, List.mem_singleton] at hiv
    subst hiv
    exact Nat.zero_le _

theorem run_op_WF (tl : OccupationTimeline) (op : TimelineOp)
    (tl1 : OccupationTimeline)
    (hwf : TimelineWF tl) (h : run_op tl op = some tl1) : TimelineWF tl1 := by
  cases op with
  | ins j =>
    simp only [run_op] at h
    rcases hins : tl.insert j with _ | p
    · rw [hins, Option.bind_eq_bind, Option.none_bind] at h
      exact absurd h (by simp)
    · obtain ⟨inf, tlA⟩ := p
      rw [hins] at h
      simp only [Option.bind_eq_bind, Option.some_bind] at h
      split_ifs at h with hinf
      rw [Bool.not_eq_true] at hinf
      simp only [Option.some.injEq] at h
      rw [← h]
      exact insert_WF tl j tlA hwf (by rw [hins, hinf])
  | ref j =>
    simp only [run_op] at h
    rcases href : tl.refine_full j with _ | q
    · rw [href, Option.bind_eq_bind, Option.none_bind] at h
      exact absurd h (by simp)
    · obtain ⟨r, tlA, jA, ov⟩ := q
      rw [href] at h
      simp only [Option.bind_eq_bind, Option.some_bind] at h
      split_ifs at h with hcond
      rw [not_or, Bool.not_eq_true] at hcond
      simp only [Option.some.injEq] at h
      rw [← h]
      exact refine_full_WF tl j r tlA jA hwf (by rw [href, hcond.2])

theorem run_ops_WF (ops : List TimelineOp) :
    ∀ tl tl1, TimelineWF tl → run_ops tl ops = some tl1 → TimelineWF tl1 := by
  induction ops with
  | nil =>
    intro tl tl1 hwf h
    rw [run_ops, List.foldlM_nil] at h
    obtain rfl : tl = tl1 := Option.some.inj h
    exact hwf
  | cons op ops ih =>
    intro tl tl1 hwf h
    rw [run_ops, List.foldlM_cons] at h
    rcases hop : run_op tl op with _ | tlA
    · rw [hop, Option.bind_eq_bind, Option.none_bind] at h
      exact absurd h (by simp)
    · rw [hop] at h
      simp only [Option.bind_eq_bind, Option.some_bind] at h
      exact ih tlA tl1 (run_op_WF tl op tlA hwf hop) h

/-- C6 (the amended claim): starting from the fresh timeline of
`OccupationTimeline.new`, after any sequence of insert and refine operations
of which none signalled infeasibility — including, per the amendment, the
inserts a refine performs internally — the interval list is strictly sorted
by start time, adjacent entries have distinct busy-core counts, and every
count is at most `max_num_cores`. -/
theorem C6_timeline_invariant (max : Nat) (ops : List TimelineOp)
    (tl1 : OccupationTimeline)
    (h : run_ops (OccupationTimeline.new max) ops = some tl1) :
    TimelineWF tl1 :=
  run_ops_WF ops (OccupationTimeline.new max) tl1 (new_WF max) h

/-- Witness for `C6_timeline_invariant`: inserting the concrete job
`occupation_cex_blocker` into a fresh one-core timeline succeeds and the
resulting timeline `[(0,0), (5,1), (8,0)]` satisfies the invariant. -/
theorem C6_timeline_invariant_witness :
    run_ops (OccupationTimeline.new 1) [TimelineOp.ins occupation_cex_blocker] =
      some ⟨[⟨0, 0⟩, ⟨5, 1⟩, ⟨8, 0⟩], 1⟩ ∧
    TimelineWF ⟨[⟨0, 0⟩, ⟨5, 1⟩, ⟨8, 0⟩], 1⟩ :=
  ⟨by decide, C6_timeline_invariant 1 [TimelineOp.ins occupation_cex_blocker]
    ⟨[⟨0, 0⟩, ⟨5, 1⟩, ⟨8, 0⟩], 1⟩ (by decide)⟩

/-! ## Infrastructure for the strengthening proof (C4) -/

theorem jD_set_ne (l : List Job) (k : Nat) (v : Job) (j : Nat) (h : k ≠ j) :
    jD (l.set k v) j = jD l j := by
  simp [jD, List.getD_eq_getElem?_getD, List.getElem?_set_ne h]

theorem jD_set_eq (l : List Job) (k : Nat) (v : Job) (h : k < l.length) :
    jD (l.set k v) k = v := by
  simp [jD, List.getD_eq_getElem?_getD, List.getElem?_set_eq h]

theorem jD_get? (l : List Job) (i : Nat) (j : Job) (h : l.get? i = some j) :
    i < l.length ∧ jD l i = j := by
  rw [List.get?_eq_some] at h
  obtain ⟨hi, hj⟩ := h
  refine ⟨hi, ?_⟩
  rw [jD, List.getD_eq_get _ _ hi, hj]

theorem countP_split (p q r : Constraint → Bool) :
    ∀ l : List Constraint,
      (∀ a ∈ l, (p a = (q a || r a)) ∧ ¬(q a = true ∧ r a = true)) →
      l.countP p = l.countP q + l.countP r
  | [], _ => by simp
  | c :: l, h => by
    have hc := h c (List.mem_cons_self c l)
    have hl := countP_split p q r l fun a ha => h a (List.mem_cons_of_mem c ha)
    rcases hq : q c with _ | _ <;> rcases hr : r c with _ | _
    · simp [List.countP_cons, hl, hc.1, hq, hr]
    · simp [List.countP_cons, hl, hc.1, hq, hr]
      omega
    · simp [List.countP_cons, hl, hc.1, hq, hr]
      omega
    · exact absurd ⟨hq, hr⟩ hc.2

theorem countP_congr_f (p q : Constraint → Bool) :
    ∀ l : List Constraint, (∀ a ∈ l, p a = q a) → l.countP p = l.countP q
  | [], _ => by simp
  | c :: l, h => by
    have hc := h c (List.mem_cons_self c l)
    have hl := countP_congr_f p q l fun a ha => h a (List.mem_cons_of_mem c ha)
    simp only [List.countP_cons, hl, hc]

theorem cntB_nil (cs : List Constraint) (x : Nat) : cntB cs x [] = cntIn cs x := by
  unfold cntB cntIn
  exact countP_congr_f _ _ cs fun a _ => by simp

theorem cntIn_cons_eq (c : Constraint) (cs : List Constraint) :
    cntIn (c :: cs) c.before = cntIn cs c.before + 1 := by
  unfold cntIn
  simp [List.countP_cons]

theorem cntIn_cons_ne (c : Constraint) (cs : List Constraint) (x : Nat)
    (h : c.before ≠ x) : cntIn (c :: cs) x = cntIn cs x := by
  unfold cntIn
  simp [List.countP_cons, h]

theorem cntInA_cons_eq (c : Constraint) (cs : List Constraint) :
    cntInA (c :: cs) c.after = cntInA cs c.after + 1 := by
  unfold cntInA
  simp [List.countP_cons]

theorem cntInA_cons_ne (c : Constraint) (cs : List Constraint) (x : Nat)
    (h : c.after ≠ x) : cntInA (c :: cs) x = cntInA cs x := by
  unfold cntInA
  simp [List.countP_cons, h]

theorem cntB_split (cs : List Constraint) (x s : Nat) (C : List Nat)
    (hs : s ∉ C) :
    cntB cs x C =
      cntB cs x (C ++ [s]) + cntIn (cs.filter fun c => decide (c.after = s)) x := by
  unfold cntB cntIn
  rw [List.countP_filter]
  refine countP_split _ _ _ cs fun a _ => ⟨?_, ?_⟩
  · rcases h1 : decide (a.before = x ∧ a.after ∉ C ++ [s]) with _ | _ <;>
      rcases h2 : (decide (a.before = x) && decide (a.after = s)) with _ | _ <;>
      simp_all
  · intro ⟨h1, h2⟩
    simp only [decide_eq_true_eq, Bool.and_eq_true] at h1 h2
    exact h1.2 (by simp [h2.2])

theorem cntA_split (cs : List Constraint) (x s : Nat) (C : List Nat)
    (hs : s ∉ C) :
    cntA cs x C =
      cntA cs x (C ++ [s]) + cntInA (cs.filter fun c => decide (c.before = s)) x := by
  unfold cntA cntInA
  rw [List.countP_filter]
  refine countP_split _ _ _ cs fun a _ => ⟨?_, ?_⟩
  · rcases h1 : decide (a.after = x ∧ a.before ∉ C ++ [s]) with _ | _ <;>
      rcases h2 : (decide (a.after = x) && decide (a.before = s)) with _ | _ <;>
      simp_all
  · intro ⟨h1, h2⟩
    simp only [decide_eq_true_eq, Bool.and_eq_true] at h1 h2
    exact h1.2 (by simp [h2.2])

theorem cntB_zero_mem (cs : List Constraint) (x : Nat) (C : List Nat)
    (h : cntB cs x C = 0) :
    ∀ c ∈ cs, c.before = x → c.after ∈ C := by
  intro c hc hb
  rw [cntB, List.countP_eq_zero] at h
  have := h c hc
  simp only [decide_eq_true_eq] at this
  by_contra hn
  exact this ⟨hb, hn⟩

theorem cntA_zero_mem (cs : List Constraint) (x : Nat) (C : List Nat)
    (h : cntA cs x C = 0) :
    ∀ c ∈ cs, c.after = x → c.before ∈ C := by
  intro c hc hb
  rw [cntA, List.countP_eq_zero] at h
  have := h c hc
  simp only [decide_eq_true_eq] at this
  by_contra hn
  exact this ⟨hb, hn⟩

theorem nodup_shift (s : Nat) (rest C : List Nat)
    (h : ((s :: rest) ++ C).Nodup) : (rest ++ (C ++ [s])).Nodup := by
  have hp := (List.perm_append_singleton s (rest ++ C)).symm
  have h2 := hp.nodup (show (s :: (rest ++ C)).Nodup from h)
  rwa [List.append_assoc] at h2

theorem mem_of_nodup_length (l : List Nat) (n : Nat) (hnd : l.Nodup)
    (hlt : ∀ x ∈ l, x < n) (hlen : l.length = n) : ∀ y, y < n → y ∈ l := by
  intro y hy
  have hsub : l.toFinset ⊆ Finset.range n := by
    intro x hx
    rw [List.mem_toFinset] at hx
    exact Finset.mem_range.mpr (hlt x hx)
  have hcard : (Finset.range n).card ≤ l.toFinset.card := by
    rw [Finset.card_range, List.toFinset_card_of_nodup hnd, hlen]
  have := Finset.eq_of_subset_of_card_le hsub hcard
  rw [← List.mem_toFinset, this]
  exact Finset.mem_range.mpr hy

theorem phase1_bucket_spec (n : Nat) (pjobs : List Job) (allcs : List Constraint)
    (bj : Nat → Nat) (s : Nat) (completed1 : List Nat) (lss : Int)
    (hbj : ∀ i, i < n → bj i = i)
    (hend : ∀ c ∈ allcs, c.before < n ∧ c.after < n)
    (hs : s ∈ completed1) :
    ∀ (cs : List Constraint) (remaining : Nat → Int) (stack : List Nat)
      (jobs : List Job) (modified : Bool)
      (out : (Nat → Int) × List Nat × List Job × Bool),
      strengthen_phase1_bucket bj lss cs remaining stack jobs modified = some out →
      (∀ c ∈ cs, c ∈ allcs ∧ c.after = s) →
      (∀ x, remaining x = (cntB allcs x completed1 : Int) + (cntIn cs x : Int)) →
      jobs.length = n →
      (∀ i, i < n → (jD jobs i).execution_time = (jD pjobs i).execution_time ∧
        (jD jobs i).earliest_start = (jD pjobs i).earliest_start ∧
        (jD jobs i).index = (jD pjobs i).index) →
      (∀ x, x ∈ stack ∨ x ∈ completed1 → remaining x = 0) →
      (stack ++ completed1).Nodup →
      (∀ x ∈ stack, x < n) →
      (∀ c ∈ allcs, c.after ∈ completed1 → c ∉ cs → P1bound c jobs) →
      (∀ c ∈ allcs, c.before ∈ stack → c.after ∈ completed1) →
      (jD jobs s).latest_start = lss →
      ((∀ x, out.1 x = (cntB allcs x completed1 : Int)) ∧
        out.2.2.1.length = n ∧
        (∀ i, i < n → (jD out.2.2.1 i).execution_time = (jD pjobs i).execution_time ∧
          (jD out.2.2.1 i).earliest_start = (jD pjobs i).earliest_start ∧
          (jD out.2.2.1 i).index = (jD pjobs i).index) ∧
        (∀ x, x ∈ out.2.1 ∨ x ∈ completed1 → out.1 x = 0) ∧
        (out.2.1 ++ completed1).Nodup ∧
        (∀ x ∈ out.2.1, x < n) ∧
        (∀ c ∈ allcs, c.after ∈ completed1 → P1bound c out.2.2.1) ∧
        (∀ c ∈ allcs, c.before ∈ out.2.1 → c.after ∈ completed1)) := by
  intro cs
  induction cs with
  | nil =>
    intro remaining stack jobs modified out h hcs hrem hlen hframe hzero hnd hslt hI3 hord hlss
    simp only [strengthen_phase1_bucket, Option.some.injEq] at h
    subst h
    refine ⟨?_, hlen, hframe, hzero, hnd, hslt, ?_, hord⟩
    · intro x
      have := hrem x
      simpa [cntIn] using this
    · intro c hc hca
      exact hI3 c hc hca (List.not_mem_nil c)
  | cons c rest ih =>
    intro remaining stack jobs modified out h hcs hrem hlen hframe hzero hnd hslt hI3 hord hlss
    obtain ⟨hcall, hcafter⟩ := hcs c (List.mem_cons_self c rest)
    obtain ⟨hbn, han⟩ := hend c hcall
    simp only [strengthen_phase1_bucket] at h
    by_cases hrlt : remaining c.before - 1 < 0
    · rw [if_pos hrlt] at h
      exact absurd h (by simp)
    rw [if_neg hrlt] at h
    rw [hbj c.before hbn] at h
    rcases hg : jobs.get? c.before with _ | pj
    · rw [hg, Option.bind_eq_bind, Option.none_bind] at h
      exact absurd h (by simp)
    rw [hg, Option.bind_eq_bind, Option.some_bind] at h
    obtain ⟨hblen, hjd⟩ := jD_get? jobs c.before pj hg
    -- facts about the head constraint
    have hrem_b := hrem c.before
    have hcntc : cntIn (c :: rest) c.before = cntIn rest c.before + 1 :=
      cntIn_cons_eq c rest
    have hrge : 1 ≤ remaining c.before := by omega
    have hbstack : c.before ∉ stack := by
      intro hmem
      have := hzero c.before (Or.inl hmem)
      omega
    have hbcomp : c.before ∉ completed1 := by
      intro hmem
      have := hzero c.before (Or.inr hmem)
      omega
    have hbs : c.before ≠ s := fun he => hbcomp (he ▸ hs)
    -- the updated remaining function
    have hrem' : ∀ x, (fun x => if x = c.before then remaining c.before - 1
        else remaining x) x =
        (cntB allcs x completed1 : Int) + (cntIn rest x : Int) := by
      intro x
      by_cases hx : x = c.before
      · subst hx
        simp only [if_pos rfl]
        rw [hrem_b, hcntc]
        push_cast
        ring
      · simp only [if_neg hx]
        rw [hrem x, cntIn_cons_ne c rest x (fun he => hx (he ▸ rfl))]
    have hcsr : ∀ c' ∈ rest, c' ∈ allcs ∧ c'.after = s := fun c' hc' =>
      hcs c' (List.mem_cons_of_mem c hc')
    -- case split on the two branches of the update and of the push
    by_cases hmut : lss - (c.delay + (if c.constraint_type = ConstraintType.FinishToStart
        then pj.execution_time else 0)) < pj.latest_start
    case pos =>
      rw [if_pos hmut] at h
      dsimp only at h
      set nlat := lss - (c.delay + (if c.constraint_type = ConstraintType.FinishToStart
        then pj.execution_time else 0)) with hnlat
      set njobs := jobs.set c.before { pj with latest_start := nlat } with hnj
      clear_value nlat
      have hlen' : njobs.length = n := by
        rw [hnj, List.length_set]; exact hlen
      have hjdb : jD njobs c.before = { pj with latest_start := nlat } := by
        rw [hnj]; exact jD_set_eq jobs c.before _ hblen
      have hjdo : ∀ i, i ≠ c.before → jD njobs i = jD jobs i := by
        intro i hi
        rw [hnj]; exact jD_set_ne jobs c.before _ i (fun he => hi he.symm)
      clear_value njobs
      have hframe' : ∀ i, i < n → (jD njobs i).execution_time = (jD pjobs i).execution_time ∧
          (jD njobs i).earliest_start = (jD pjobs i).earliest_start ∧
          (jD njobs i).index = (jD pjobs i).index := by
        intro i hi
        by_cases hib : i = c.before
        · rw [hib, hjdb]
          have h5 := hframe i hi
          rw [hib, hjd] at h5
          exact h5
        · rw [hjdo i hib]
          exact hframe i hi
      have hlss' : (jD njobs s).latest_start = lss := by
        rw [hjdo s (fun he => hbs he.symm)]
        exact hlss
      have hI3' : ∀ c' ∈ allcs, c'.after ∈ completed1 → c' ∉ rest →
          P1bound c' njobs := by
        intro c' hc' hca' hcr'
        by_cases hcc : c' = c
        · subst hcc
          unfold P1bound
          rw [hcafter] at hca' ⊢
          rw [hjdb, hjdo s (fun he => hbs he.symm), hlss]
          dsimp only
          rw [hnlat]
        · have hold := hI3 c' hc' hca' (by
            intro hmem
            rcases List.mem_cons.mp hmem with he | he
            · exact hcc he
            · exact hcr' he)
          unfold P1bound at hold ⊢
          have hca_ne : c'.after ≠ c.before := by
            intro he
            have hz := hzero c'.after (Or.inr hca')
            rw [he] at hz
            omega
          rw [hjdo c'.after hca_ne]
          by_cases hcb : c'.before = c.before
          · rw [hcb, hjdb]
            dsimp only
            rw [hcb, hjd] at hold
            omega
          · rw [hjdo c'.before hcb]
            exact hold
      by_cases hpush : remaining c.before - 1 = 0
      case pos =>
        rw [if_pos hpush] at h
        have hzero' : ∀ x, x ∈ c.before :: stack ∨ x ∈ completed1 →
            (fun x => if x = c.before then remaining c.before - 1
              else remaining x) x = 0 := by
          intro x hx
          by_cases hxb : x = c.before
          · simp only [if_pos hxb]
            exact hpush
          · simp only [if_neg hxb]
            apply hzero
            rcases hx with hx | hx
            · rcases List.mem_cons.mp hx with he | he
              · exact absurd he hxb
              · exact Or.inl he
            · exact Or.inr hx
        have hnd' : ((c.before :: stack) ++ completed1).Nodup := by
          rw [List.cons_append, List.nodup_cons]
          refine ⟨?_, hnd⟩
          rw [List.mem_append]
          rintro (hm | hm)
          · exact hbstack hm
          · exact hbcomp hm
        have hslt' : ∀ x ∈ c.before :: stack, x < n := by
          intro x hx
          rcases List.mem_cons.mp hx with he | he
          · rw [he]; exact hbn
          · exact hslt x he
        have hord' : ∀ c' ∈ allcs, c'.before ∈ c.before :: stack →
            c'.after ∈ completed1 := by
          intro c' hc' hcb
          rcases List.mem_cons.mp hcb with he | he
          · -- the pushed job has no unprocessed successors left
            have hz : cntB allcs c.before completed1 + cntIn rest c.before = 0 := by
              have := hrem' c.before
              simp only [if_pos rfl] at this
              omega
            have : cntB allcs c'.before completed1 = 0 := by
              rw [he]; omega
            exact cntB_zero_mem allcs c'.before completed1 this c' hc' rfl
          · exact hord c' hc' he
        exact ih _ _ _ _ _ h hcsr hrem' hlen' hframe' hzero' hnd' hslt' hI3' hord' hlss'
      case neg =>
        rw [if_neg hpush] at h
        have hzero' : ∀ x, x ∈ stack ∨ x ∈ completed1 →
            (fun x => if x = c.before then remaining c.before - 1
              else remaining x) x = 0 := by
          intro x hx
          by_cases hxb : x = c.before
          · exfalso
            rcases hx with hx | hx
            · exact hbstack (hxb ▸ hx)
            · exact hbcomp (hxb ▸ hx)
          · simp only [if_neg hxb]
            exact hzero x hx
        exact ih _ _ _ _ _ h hcsr hrem' hlen' hframe' hzero' hnd hslt hI3' hord hlss'
    case neg =>
      rw [if_neg hmut] at h
      dsimp only at h
      have hI3' : ∀ c' ∈ allcs, c'.after ∈ completed1 → c' ∉ rest →
          P1bound c' jobs := by
        intro c' hc' hca' hcr'
        by_cases hcc : c' = c
        · subst hcc
          unfold P1bound
          rw [hcafter] at hca' ⊢
          rw [hjd, hlss]
          omega
        · exact hI3 c' hc' hca' (by
            intro hmem
            rcases List.mem_cons.mp hmem with he | he
            · exact hcc he
            · exact hcr' he)
      by_cases hpush : remaining c.before - 1 = 0
      case pos =>
        rw [if_pos hpush] at h
        have hzero' : ∀ x, x ∈ c.before :: stack ∨ x ∈ completed1 →
            (fun x => if x = c.before then remaining c.before - 1
              else remaining x) x = 0 := by
          intro x hx
          by_cases hxb : x = c.before
          · simp only [if_pos hxb]
            exact hpush
          · simp only [if_neg hxb]
            apply hzero
            rcases hx with hx | hx
            · rcases List.mem_cons.mp hx with he | he
              · exact absurd he hxb
              · exact Or.inl he
            · exact Or.inr hx
        have hnd' : ((c.before :: stack) ++ completed1).Nodup := by
          rw [List.cons_append, List.nodup_cons]
          refine ⟨?_, hnd⟩
          rw [List.mem_append]
          rintro (hm | hm)
          · exact hbstack hm
          · exact hbcomp hm
        have hslt' : ∀ x ∈ c.before :: stack, x < n := by
          intro x hx
          rcases List.mem_cons.mp hx with he | he
          · rw [he]; exact hbn
          · exact hslt x he
        have hord' : ∀ c' ∈ allcs, c'.before ∈ c.before :: stack →
            c'.after ∈ completed1 := by
          intro c' hc' hcb
          rcases List.mem_cons.mp hcb with he | he
          · have hz : cntB allcs c.before completed1 + cntIn rest c.before = 0 := by
              have := hrem' c.before
              simp only [if_pos rfl] at this
              omega
            have : cntB allcs c'.before completed1 = 0 := by
              rw [he]; omega
            exact cntB_zero_mem allcs c'.before completed1 this c' hc' rfl
          · exact hord c' hc' he
        exact ih _ _ _ _ _ h hcsr hrem' hlen hframe hzero' hnd' hslt' hI3' hord' hlss
      case neg =>
        rw [if_neg hpush] at h
        have hzero' : ∀ x, x ∈ stack ∨ x ∈ completed1 →
            (fun x => if x = c.before then remaining c.before - 1
              else remaining x) x = 0 := by
          intro x hx
          by_cases hxb : x = c.before
          · exfalso
            rcases hx with hx | hx
            · exact hbstack (hxb ▸ hx)
            · exact hbcomp (hxb ▸ hx)
          · simp only [if_neg hxb]
            exact hzero x hx
        exact ih _ _ _ _ _ h hcsr hrem' hlen hframe hzero' hnd hslt hI3' hord hlss

theorem get_append_left_nat (l1 l2 : List Nat) (k : Nat) (h1 : k < l1.length)
    (h : k < (l1 ++ l2).length) : (l1 ++ l2).get ⟨k, h⟩ = l1.get ⟨k, h1⟩ := by
  simp only [List.get_eq_getElem]
  exact List.getElem_append_left h1

theorem get_concat_self_nat (l1 : List Nat) (a : Nat)
    (h : l1.length < (l1 ++ [a]).length) : (l1 ++ [a]).get ⟨l1.length, h⟩ = a := by
  simp only [List.get_eq_getElem]
  exact List.getElem_concat_length l1 a l1.length rfl h

theorem get_reverse_nat (l : List Nat) (i : Nat) (h : i < l.reverse.length)
    (h2 : l.length - 1 - i < l.length) :
    l.reverse.get ⟨i, h⟩ = l.get ⟨l.length - 1 - i, h2⟩ := by
  simp only [List.get_eq_getElem]
  exact List.getElem_reverse' (by simpa using h)

theorem mem_take_of_get_nat (l : List Nat) (m k : Nat) (hm : m < l.length)
    (hmk : m < k) (x : Nat) (hx : l.get ⟨m, hm⟩ = x) : x ∈ l.take k := by
  have hm2 : m < (l.take k).length := by
    rw [List.length_take]
    omega
  have : (l.take k).get ⟨m, hm2⟩ = x := by
    simp only [List.get_eq_getElem]
    rw [List.getElem_take ..]
    simpa [List.get_eq_getElem] using hx
  rw [← this]
  exact List.get_mem _ _ _

theorem get_of_mem_take_nat (l : List Nat) (k : Nat) (x : Nat)
    (hx : x ∈ l.take k) : ∃ m, ∃ hm : m < l.length, m < k ∧ l.get ⟨m, hm⟩ = x := by
  obtain ⟨⟨m, hm⟩, hget⟩ := List.mem_iff_get.mp hx
  have hml : m < l.length := by
    have := hm
    rw [List.length_take] at this
    omega
  have hmk : m < k := by
    have := hm
    rw [List.length_take] at this
    omega
  refine ⟨m, hml, hmk, ?_⟩
  rw [← hget]
  simp only [List.get_eq_getElem]
  exact (List.getElem_take ..).symm

theorem phase1_go_spec (n : Nat) (pjobs : List Job) (allcs : List Constraint)
    (bj : Nat → Nat)
    (hbj : ∀ i, i < n → bj i = i)
    (hend : ∀ c ∈ allcs, c.before < n ∧ c.after < n) :
    ∀ (fuel : Nat) (remaining : Nat → Int) (stack completed : List Nat)
      (jobs : List Job) (modified : Bool) (out : List Job × List Nat × Bool),
      strengthen_phase1_go bj allcs fuel remaining stack completed jobs modified =
        some out →
      (∀ x, remaining x = (cntB allcs x completed : Int)) →
      jobs.length = n →
      (∀ i, i < n → (jD jobs i).execution_time = (jD pjobs i).execution_time ∧
        (jD jobs i).earliest_start = (jD pjobs i).earliest_start ∧
        (jD jobs i).index = (jD pjobs i).index) →
      (∀ x, x ∈ stack ∨ x ∈ completed → remaining x = 0) →
      (stack ++ completed).Nodup →
      (∀ x ∈ stack, x < n) →
      (∀ x ∈ completed, x < n) →
      (∀ c ∈ allcs, c.after ∈ completed → P1bound c jobs) →
      (∀ c ∈ allcs, c.before ∈ stack → c.after ∈ completed) →
      (∀ c ∈ allcs, ∀ k, ∀ hk : k < completed.length,
        completed.get ⟨k, hk⟩ = c.before → c.after ∈ completed.take k) →
      (out.1.length = n ∧
        (∀ i, i < n → (jD out.1 i).execution_time = (jD pjobs i).execution_time ∧
          (jD out.1 i).earliest_start = (jD pjobs i).earliest_start ∧
          (jD out.1 i).index = (jD pjobs i).index) ∧
        out.2.1.Nodup ∧
        (∀ x ∈ out.2.1, x < n) ∧
        (∀ c ∈ allcs, c.after ∈ out.2.1 → P1bound c out.1) ∧
        (∀ c ∈ allcs, ∀ k, ∀ hk : k < out.2.1.length,
          out.2.1.get ⟨k, hk⟩ = c.before → c.after ∈ out.2.1.take k)) := by
  intro fuel
  induction fuel with
  | zero =>
    intro remaining stack completed jobs modified out h
    exact absurd h (by simp [strengthen_phase1_go])
  | succ fuel ih =>
    intro remaining stack completed jobs modified out h hrem hlen hframe hzero hnd
      hslt hclt hI3 hord hordp
    cases stack with
    | nil =>
      simp only [strengthen_phase1_go, Option.some.injEq] at h
      subst h
      exact ⟨hlen, hframe, (List.nodup_append.mp hnd).2.1, hclt, hI3, hordp⟩
    | cons successor rest =>
      simp only [strengthen_phase1_go] at h
      rcases hg : jobs.get? successor with _ | sj
      · rw [hg, Option.bind_eq_bind, Option.none_bind] at h
        exact absurd h (by simp)
      rw [hg, Option.bind_eq_bind, Option.some_bind] at h
      rcases hb : strengthen_phase1_bucket bj sj.latest_start
          (allcs.filter fun c => decide (c.after = successor)) remaining rest jobs
          modified with _ | q
      · rw [hb, Option.bind_eq_bind, Option.none_bind] at h
        exact absurd h (by simp)
      obtain ⟨rem1, stack1, jobs1, mod1⟩ := q
      rw [hb, Option.bind_eq_bind, Option.some_bind] at h
      dsimp only at h
      obtain ⟨hsl, hjds⟩ := jD_get? jobs successor sj hg
      have hsn : successor < n := by rw [hlen] at hsl; exact hsl
      have hsnotc : successor ∉ completed := by
        have := List.nodup_append.mp hnd
        exact fun hm => this.2.2 (List.mem_cons_self _ _) hm
      have hsmem : successor ∈ completed ++ [successor] :=
        List.mem_append_right _ (List.mem_singleton.mpr rfl)
      have BS := phase1_bucket_spec n pjobs allcs bj successor
        (completed ++ [successor]) sj.latest_start hbj hend hsmem
        (allcs.filter fun c => decide (c.after = successor)) remaining rest jobs
        modified (rem1, stack1, jobs1, mod1) hb
        (by
          intro c hc
          rw [List.mem_filter] at hc
          exact ⟨hc.1, by simpa using hc.2⟩)
        (by
          intro x
          rw [hrem x, cntB_split allcs x successor completed hsnotc]
          push_cast
          ring)
        hlen hframe
        (by
          intro x hx
          apply hzero
          rcases hx with hx | hx
          · exact Or.inl (List.mem_cons_of_mem _ hx)
          · rcases List.mem_append.mp hx with hx | hx
            · exact Or.inr hx
            · rw [List.mem_singleton] at hx
              rw [hx]
              exact Or.inl (List.mem_cons_self _ _))
        (nodup_shift successor rest completed hnd)
        (fun x hx => hslt x (List.mem_cons_of_mem _ hx))
        (by
          intro c hc hca hcf
          rcases List.mem_append.mp hca with hca | hca
          · exact hI3 c hc hca
          · rw [List.mem_singleton] at hca
            exact absurd (List.mem_filter.mpr ⟨hc, by simpa using hca⟩) hcf)
        (by
          intro c hc hcb
          exact List.mem_append_left _ (hord c hc (List.mem_cons_of_mem _ hcb)))
        (by rw [hjds])
      obtain ⟨brem, blen, bframe, bzero, bnd, bslt, bI3, bord⟩ := BS
      have hclt' : ∀ x ∈ completed ++ [successor], x < n := by
        intro x hx
        rcases List.mem_append.mp hx with hx | hx
        · exact hclt x hx
        · rw [List.mem_singleton] at hx
          rw [hx]; exact hsn
      have hordp' : ∀ c ∈ allcs, ∀ k, ∀ hk : k < (completed ++ [successor]).length,
          (completed ++ [successor]).get ⟨k, hk⟩ = c.before →
          c.after ∈ (completed ++ [successor]).take k := by
        intro c hc k hk hget
        have hk2 : k < completed.length + 1 := by
          rw [List.length_append, List.length_singleton] at hk
          omega
        by_cases hkc : k < completed.length
        · rw [get_append_left_nat completed [successor] k hkc hk] at hget
          rw [List.take_append_of_le_length (Nat.le_of_lt hkc)]
          exact hordp c hc k hkc hget
        · have hke : k = completed.length := by omega
          have hget2 : (completed ++ [successor]).get ⟨k, hk⟩ = successor := by
            have hfin : (⟨k, hk⟩ : Fin (completed ++ [successor]).length) =
                ⟨completed.length, by rw [List.length_append, List.length_singleton]; omega⟩ :=
              Fin.ext hke
            rw [hfin]
            exact get_concat_self_nat completed successor _
          have hbs : c.before = successor := by rw [← hget, hget2]
          have hin : c.after ∈ completed :=
            hord c hc (by rw [hbs]; exact List.mem_cons_self _ _)
          rw [hke, List.take_append_of_le_length (Nat.le_refl _), List.take_length]
          exact hin
      exact ih rem1 stack1 (completed ++ [successor]) jobs1 mod1 out h
        brem blen bframe bzero bnd bslt hclt' bI3 bord hordp'

theorem phase2_bucket_spec (n : Nat) (bjobs : List Job) (allcs : List Constraint)
    (bj : Nat → Nat) (q : Nat) (Q1 : List Nat) (eps pexec : Int)
    (hbj : ∀ i, i < n → bj i = i)
    (hend : ∀ c ∈ allcs, c.before < n ∧ c.after < n)
    (hq1 : q ∈ Q1) :
    ∀ (cs : List Constraint) (remaining : Nat → Int) (jobs : List Job)
      (modified : Bool) (out : (Nat → Int) × List Job × Bool),
      strengthen_phase2_bucket bj eps pexec cs remaining jobs modified = some out →
      (∀ c ∈ cs, c ∈ allcs ∧ c.before = q) →
      (∀ x, remaining x = (cntA allcs x Q1 : Int) + (cntInA cs x : Int)) →
      jobs.length = n →
      (∀ i, i < n → (jD jobs i).execution_time = (jD bjobs i).execution_time ∧
        (jD jobs i).latest_start = (jD bjobs i).latest_start ∧
        (jD jobs i).index = (jD bjobs i).index) →
      (∀ x, x ∈ Q1 → remaining x = 0) →
      (∀ c ∈ allcs, c.before ∈ Q1 → c ∉ cs → P2bound c jobs) →
      (jD jobs q).earliest_start = eps →
      (jD jobs q).execution_time = pexec →
      ((∀ x, out.1 x = (cntA allcs x Q1 : Int)) ∧
        out.2.1.length = n ∧
        (∀ i, i < n → (jD out.2.1 i).execution_time = (jD bjobs i).execution_time ∧
          (jD out.2.1 i).latest_start = (jD bjobs i).latest_start ∧
          (jD out.2.1 i).index = (jD bjobs i).index) ∧
        (∀ x, x ∈ Q1 → out.1 x = 0) ∧
        (∀ c ∈ allcs, c.before ∈ Q1 → P2bound c out.2.1)) := by
  intro cs
  induction cs with
  | nil =>
    intro remaining jobs modified out h hcs hrem hlen hframe hzero hP2 heps hpex
    simp only [strengthen_phase2_bucket, Option.some.injEq] at h
    subst h
    refine ⟨?_, hlen, hframe, hzero, ?_⟩
    · intro x
      have := hrem x
      simpa [cntInA] using this
    · intro c hc hcb
      exact hP2 c hc hcb (List.not_mem_nil c)
  | cons c rest ih =>
    intro remaining jobs modified out h hcs hrem hlen hframe hzero hP2 heps hpex
    obtain ⟨hcall, hcbefore⟩ := hcs c (List.mem_cons_self c rest)
    obtain ⟨hbn, han⟩ := hend c hcall
    simp only [strengthen_phase2_bucket] at h
    by_cases hrlt : remaining c.after - 1 < 0
    · rw [if_pos hrlt] at h
      exact absurd h (by simp)
    rw [if_neg hrlt] at h
    rw [hbj c.after han] at h
    rcases hg : jobs.get? c.after with _ | sj
    · rw [hg, Option.bind_eq_bind, Option.none_bind] at h
      exact absurd h (by simp)
    rw [hg, Option.bind_eq_bind, Option.some_bind] at h
    obtain ⟨halen, hjd⟩ := jD_get? jobs c.after sj hg
    have hrem_a := hrem c.after
    have hcntc : cntInA (c :: rest) c.after = cntInA rest c.after + 1 :=
      cntInA_cons_eq c rest
    have hrge : 1 ≤ remaining c.after := by omega
    have haq1 : c.after ∉ Q1 := by
      intro hmem
      have := hzero c.after hmem
      omega
    have haq : c.after ≠ q := fun he => haq1 (he ▸ hq1)
    have hrem' : ∀ x, (fun x => if x = c.after then remaining c.after - 1
        else remaining x) x =
        (cntA allcs x Q1 : Int) + (cntInA rest x : Int) := by
      intro x
      by_cases hx : x = c.after
      · subst hx
        simp only [if_pos rfl]
        rw [hrem_a, hcntc]
        push_cast
        ring
      · simp only [if_neg hx]
        rw [hrem x, cntInA_cons_ne c rest x (fun he => hx (he ▸ rfl))]
    have hcsr : ∀ c' ∈ rest, c' ∈ allcs ∧ c'.before = q := fun c' hc' =>
      hcs c' (List.mem_cons_of_mem c hc')
    have hzero' : ∀ x, x ∈ Q1 →
        (fun x => if x = c.after then remaining c.after - 1
          else remaining x) x = 0 := by
      intro x hx
      by_cases hxb : x = c.after
      · exact absurd (hxb ▸ hx) haq1
      · simp only [if_neg hxb]
        exact hzero x hx
    by_cases hmut : sj.earliest_start < eps + (c.delay +
        (if c.constraint_type = ConstraintType.FinishToStart then pexec else 0))
    case pos =>
      rw [if_pos hmut] at h
      dsimp only at h
      set near := eps + (c.delay + (if c.constraint_type = ConstraintType.FinishToStart
        then pexec else 0)) with hnear
      set njobs := jobs.set c.after { sj with earliest_start := near } with hnj
      clear_value njobs
      have hlen' : njobs.length = n := by
        rw [hnj, List.length_set]; exact hlen
      have hjda : jD njobs c.after = { sj with earliest_start := near } := by
        rw [hnj]; exact jD_set_eq jobs c.after _ halen
      have hjdo : ∀ i, i ≠ c.after → jD njobs i = jD jobs i := by
        intro i hi
        rw [hnj]; exact jD_set_ne jobs c.after _ i (fun he => hi he.symm)
      clear_value near
      have hframe' : ∀ i, i < n → (jD njobs i).execution_time = (jD bjobs i).execution_time ∧
          (jD njobs i).latest_start = (jD bjobs i).latest_start ∧
          (jD njobs i).index = (jD bjobs i).index := by
        intro i hi
        by_cases hia : i = c.after
        · rw [hia, hjda]
          have h5 := hframe i hi
          rw [hia, hjd] at h5
          exact h5
        · rw [hjdo i hia]
          exact hframe i hi
      have heps' : (jD njobs q).earliest_start = eps := by
        rw [hjdo q (fun he => haq he.symm)]
        exact heps
      have hpex' : (jD njobs q).execution_time = pexec := by
        rw [hjdo q (fun he => haq he.symm)]
        exact hpex
      have hP2' : ∀ c' ∈ allcs, c'.before ∈ Q1 → c' ∉ rest →
          P2bound c' njobs := by
        intro c' hc' hcb' hcr'
        by_cases hcc : c' = c
        · subst hcc
          unfold P2bound
          rw [hcbefore] at hcb' ⊢
          rw [hjda, hjdo q (fun he => haq he.symm), heps, hpex]
          dsimp only
          rw [hnear]
        · have hold := hP2 c' hc' hcb' (by
            intro hmem
            rcases List.mem_cons.mp hmem with he | he
            · exact hcc he
            · exact hcr' he)
          unfold P2bound at hold ⊢
          have hcb_ne : c'.before ≠ c.after := by
            intro he
            have hz := hzero c'.before hcb'
            rw [he] at hz
            omega
          rw [hjdo c'.before hcb_ne]
          by_cases hca : c'.after = c.after
          · rw [hca, hjda]
            dsimp only
            rw [hca, hjd] at hold
            omega
          · rw [hjdo c'.after hca]
            exact hold
      exact ih _ _ _ _ h hcsr hrem' hlen' hframe' hzero' hP2' heps' hpex'
    case neg =>
      rw [if_neg hmut] at h
      dsimp only at h
      have hP2' : ∀ c' ∈ allcs, c'.before ∈ Q1 → c' ∉ rest →
          P2bound c' jobs := by
        intro c' hc' hcb' hcr'
        by_cases hcc : c' = c
        · subst hcc
          unfold P2bound
          rw [hcbefore] at hcb' ⊢
          rw [hjd, heps, hpex]
          omega
        · exact hP2 c' hc' hcb' (by
            intro hmem
            rcases List.mem_cons.mp hmem with he | he
            · exact hcc he
            · exact hcr' he)
      exact ih _ _ _ _ h hcsr hrem' hlen hframe hzero' hP2' heps hpex

theorem phase2_go_spec (n : Nat) (bjobs : List Job) (allcs : List Constraint)
    (bj : Nat → Nat) (l : List Nat)
    (hbj : ∀ i, i < n → bj i = i)
    (hend : ∀ c ∈ allcs, c.before < n ∧ c.after < n)
    (hlnd : l.Nodup)
    (hlord : ∀ c ∈ allcs, ∀ k, ∀ hk : k < l.length,
      l.get ⟨k, hk⟩ = c.after → c.before ∈ l.take k) :
    ∀ (R Q : List Nat) (remaining : Nat → Int) (jobs : List Job)
      (modified : Bool) (out : List Job × Bool),
      l = Q ++ R →
      strengthen_phase2_go bj allcs R remaining jobs modified = some out →
      (∀ x, remaining x = (cntA allcs x Q : Int)) →
      jobs.length = n →
      (∀ i, i < n → (jD jobs i).execution_time = (jD bjobs i).execution_time ∧
        (jD jobs i).latest_start = (jD bjobs i).latest_start ∧
        (jD jobs i).index = (jD bjobs i).index) →
      (∀ x, x ∈ Q → remaining x = 0) →
      (∀ c ∈ allcs, c.before ∈ Q → P2bound c jobs) →
      (out.1.length = n ∧
        (∀ i, i < n → (jD out.1 i).execution_time = (jD bjobs i).execution_time ∧
          (jD out.1 i).latest_start = (jD bjobs i).latest_start ∧
          (jD out.1 i).index = (jD bjobs i).index) ∧
        (∀ c ∈ allcs, c.before ∈ l → P2bound c out.1)) := by
  intro R
  induction R with
  | nil =>
    intro Q remaining jobs modified out hQR h hrem hlen hframe hzero hP2
    simp only [strengthen_phase2_go, Option.some.injEq] at h
    subst h
    refine ⟨hlen, hframe, ?_⟩
    intro c hc hcb
    rw [hQR, List.append_nil] at hcb
    exact hP2 c hc hcb
  | cons q rest ih =>
    intro Q remaining jobs modified out hQR h hrem hlen hframe hzero hP2
    simp only [strengthen_phase2_go] at h
    rcases hg : jobs.get? q with _ | qj
    · rw [hg, Option.bind_eq_bind, Option.none_bind] at h
      exact absurd h (by simp)
    rw [hg, Option.bind_eq_bind, Option.some_bind] at h
    rcases hb : strengthen_phase2_bucket bj qj.earliest_start qj.execution_time
        (allcs.filter fun c => decide (c.before = q)) remaining jobs modified
        with _ | p
    · rw [hb, Option.bind_eq_bind, Option.none_bind] at h
      exact absurd h (by simp)
    obtain ⟨rem1, jobs1, mod1⟩ := p
    rw [hb, Option.bind_eq_bind, Option.some_bind] at h
    dsimp only at h
    subst hQR
    obtain ⟨hql, hjdq⟩ := jD_get? jobs q qj hg
    have hqn : q < n := by rw [hlen] at hql; exact hql
    have hqQ : q ∉ Q := by
      rcases List.nodup_append.mp hlnd with ⟨-, -, hdisj⟩
      exact fun hm => (hdisj hm) (List.mem_cons_self _ _)
    have hassoc : Q ++ q :: rest = (Q ++ [q]) ++ rest := by simp
    have hlen_l : Q.length < (Q ++ q :: rest).length := by
      rw [List.length_append, List.length_cons]; omega
    have hgetq : (Q ++ q :: rest).get ⟨Q.length, hlen_l⟩ = q := by
      simp only [List.get_eq_getElem]
      rw [List.getElem_append_right (Nat.le_refl Q.length)]
      simp
    have htakeQ : (Q ++ q :: rest).take Q.length = Q := by
      rw [List.take_append_of_le_length (Nat.le_refl _), List.take_length]
    have hremq0 : cntA allcs q Q = 0 := by
      rw [cntA, List.countP_eq_zero]
      intro c hc
      simp only [decide_eq_true_eq]
      rintro ⟨ha, hb⟩
      apply hb
      have := hlord c hc Q.length hlen_l (by rw [hgetq, ha])
      rwa [htakeQ] at this
    have BS := phase2_bucket_spec n bjobs allcs bj q (Q ++ [q])
      qj.earliest_start qj.execution_time hbj hend
      (List.mem_append_right _ (List.mem_singleton.mpr rfl))
      (allcs.filter fun c => decide (c.before = q)) remaining jobs modified
      (rem1, jobs1, mod1) hb
      (by
        intro c hc
        rw [List.mem_filter] at hc
        exact ⟨hc.1, by simpa using hc.2⟩)
      (by
        intro x
        rw [hrem x, cntA_split allcs x q Q hqQ]
        push_cast
        ring)
      hlen hframe
      (by
        intro x hx
        rcases List.mem_append.mp hx with hx | hx
        · exact hzero x hx
        · rw [List.mem_singleton] at hx
          rw [hx, hrem q, hremq0]
          norm_num)
      (by
        intro c hc hcb hcf
        rcases List.mem_append.mp hcb with hcb | hcb
        · exact hP2 c hc hcb
        · rw [List.mem_singleton] at hcb
          exact absurd (List.mem_filter.mpr ⟨hc, by simpa using hcb⟩) hcf)
      (by rw [hjdq])
      (by rw [hjdq])
    obtain ⟨brem, blen, bframe, bzero, bP2⟩ := BS
    exact ih (Q ++ [q]) rem1 jobs1 mod1 out hassoc h brem blen bframe bzero bP2

theorem cntA_nil (cs : List Constraint) (x : Nat) : cntA cs x [] = cntInA cs x := by
  unfold cntA cntInA
  exact countP_congr_f _ _ cs fun a _ => by simp

theorem map_id_of_eq (l : List Nat) (f : Nat → Nat) (h : ∀ x ∈ l, f x = x) :
    l.map f = l := by
  induction l with
  | nil => rfl
  | cons a l ih =>
    rw [List.map_cons, h a (List.mem_cons_self a l),
      ih fun x hx => h x (List.mem_cons_of_mem a hx)]

theorem reverse_order (l : List Nat) (n : Nat) (allcs : List Constraint)
    (hnd : l.Nodup) (hlen : l.length = n) (hlt : ∀ x ∈ l, x < n)
    (hend : ∀ c ∈ allcs, c.before < n ∧ c.after < n)
    (hord : ∀ c ∈ allcs, ∀ k, ∀ hk : k < l.length,
      l.get ⟨k, hk⟩ = c.before → c.after ∈ l.take k) :
    ∀ c ∈ allcs, ∀ k, ∀ hk : k < l.reverse.length,
      l.reverse.get ⟨k, hk⟩ = c.after → c.before ∈ l.reverse.take k := by
  intro c hc k hk hget
  have hbl : c.before ∈ l :=
    mem_of_nodup_length l n hnd hlt hlen c.before (hend c hc).1
  obtain ⟨⟨j, hj⟩, hgj⟩ := List.mem_iff_get.mp hbl
  have hsub := hord c hc j hj hgj
  obtain ⟨i, hi, hij, hgi⟩ := get_of_mem_take_nat l j c.after hsub
  have hkr : k < l.length := by rw [List.length_reverse] at hk; exact hk
  have h2 : l.length - 1 - k < l.length := by omega
  have hgrev : l.get ⟨l.length - 1 - k, h2⟩ = c.after := by
    rw [← get_reverse_nat l k hk h2]
    exact hget
  have hieq : i = l.length - 1 - k := by
    have hfe := (List.Nodup.get_inj_iff hnd).mp
      (show l.get ⟨i, hi⟩ = l.get ⟨l.length - 1 - k, h2⟩ by rw [hgi, hgrev])
    exact congrArg Fin.val hfe
  have hm2 : l.length - 1 - j < l.reverse.length := by
    rw [List.length_reverse]; omega
  have hmk : l.length - 1 - j < k := by omega
  have hmrev : l.reverse.get ⟨l.length - 1 - j, hm2⟩ = c.before := by
    have h3 : l.length - 1 - (l.length - 1 - j) < l.length := by omega
    rw [get_reverse_nat l (l.length - 1 - j) hm2 h3]
    have hfin : (⟨l.length - 1 - (l.length - 1 - j), h3⟩ : Fin l.length) = ⟨j, hj⟩ :=
      Fin.ext (show l.length - 1 - (l.length - 1 - j) = j from by omega)
    rw [hfin]
    exact hgj
  exact mem_take_of_get_nat l.reverse (l.length - 1 - j) k hm2 hmk c.before hmrev

/-- C4 (the amended claim): for every *valid* problem whose constraints all
satisfy `before < after`, if `strengthen_bounds_using_constraints` returns a
non-Cyclic result, then every constraint `c` of the strengthened problem
satisfies `earliest_start(after) >= earliest_start(before) + gap` and
`latest_start(before) <= latest_start(after) - gap`, where
`gap = delay + (FinishToStart ? execution_time(before) : 0)`. -/
theorem C4_strengthen_postcondition (p p' : Problem) (r : StrengthenConstraintsResult)
    (hval : p.validate)
    (hba : ∀ c ∈ p.constraints, c.before < c.after)
    (h : strengthen_bounds_using_constraints p = some (p', r))
    (hr : r ≠ .Cyclic) :
    ∀ c ∈ p.constraints,
      (p'.jobs.getD c.before Job.dummy).earliest_start +
        (c.delay + (if c.constraint_type = .FinishToStart then
          (p'.jobs.getD c.before Job.dummy).execution_time else 0)) ≤
        (p'.jobs.getD c.after Job.dummy).earliest_start ∧
      (p'.jobs.getD c.before Job.dummy).latest_start ≤
        (p'.jobs.getD c.after Job.dummy).latest_start -
        (c.delay + (if c.constraint_type = .FinishToStart then
          (p'.jobs.getD c.before Job.dummy).execution_time else 0)) := by
  have hend : ∀ c ∈ p.constraints, c.before < p.jobs.length ∧ c.after < p.jobs.length :=
    fun c hc => ⟨(hval.2 c hc).2.1, (hval.2 c hc).2.2⟩
  have hbj : ∀ i, i < p.jobs.length → (p.jobs.getD i Job.dummy).index = i := by
    intro i hi
    rw [List.getD_eq_get _ _ hi]
    exact hval.1 i hi
  have hguard : (p.constraints.all fun c =>
      decide (c.before < p.jobs.length) && decide (c.after < p.jobs.length)) = true := by
    rw [List.all_eq_true]
    intro c hc
    have := hend c hc
    simp [this.1, this.2]
  simp only [strengthen_bounds_using_constraints] at h
  rw [if_pos hguard] at h
  rw [Option.bind_eq_bind, Option.bind_eq_some] at h
  obtain ⟨t1, h1, h⟩ := h
  obtain ⟨jobs1, completed, modified1⟩ := t1
  dsimp only at h
  -- the seed facts
  have hseed_mem : ∀ x ∈ (((List.range p.jobs.length).filter fun j =>
      decide (((p.constraints.filter fun c => decide (c.before = j)).length : Int) = 0)).map
      fun i => (p.jobs.getD i Job.dummy).index).reverse,
      x < p.jobs.length ∧
        ((p.constraints.filter fun c => decide (c.before = x)).length : Int) = 0 := by
    intro x hx
    rw [List.mem_reverse, List.mem_map] at hx
    obtain ⟨j, hj, hje⟩ := hx
    rw [List.mem_filter, List.mem_range] at hj
    have hxj : x = j := by rw [← hje, hbj j hj.1]
    subst hxj
    exact ⟨hj.1, by simpa using hj.2⟩
  have hseednd : ((((List.range p.jobs.length).filter fun j =>
      decide (((p.constraints.filter fun c => decide (c.before = j)).length : Int) = 0)).map
      fun i => (p.jobs.getD i Job.dummy).index).reverse).Nodup := by
    rw [map_id_of_eq _ _ (fun x hx => by
      rw [List.mem_filter, List.mem_range] at hx
      exact hbj x hx.1)]
    exact List.nodup_reverse.mpr (List.Nodup.filter _ (List.nodup_range _))
  have G := phase1_go_spec p.jobs.length p.jobs p.constraints
    (fun i => (p.jobs.getD i Job.dummy).index) hbj hend
    (2 * p.jobs.length + p.constraints.length + 1)
    (fun j => ((p.constraints.filter fun c => decide (c.before = j)).length : Int))
    ((((List.range p.jobs.length).filter fun j =>
      decide (((p.constraints.filter fun c => decide (c.before = j)).length : Int) = 0)).map
      fun i => (p.jobs.getD i Job.dummy).index).reverse)
    [] p.jobs false (jobs1, completed, modified1) h1
    (by
      intro x
      rw [cntB_nil]
      unfold cntIn
      rw [List.countP_eq_length_filter])
    rfl
    (fun i hi => ⟨rfl, rfl, rfl⟩)
    (by
      intro x hx
      rcases hx with hx | hx
      · exact (hseed_mem x hx).2
      · exact absurd hx (List.not_mem_nil _))
    (by rw [List.append_nil]; exact hseednd)
    (fun x hx => (hseed_mem x hx).1)
    (fun x hx => absurd hx (List.not_mem_nil _))
    (fun c hc hca => absurd hca (List.not_mem_nil _))
    (by
      intro c hc hcb
      exfalso
      have h0 := (hseed_mem _ hcb).2
      have hmem : c ∈ p.constraints.filter fun c' => decide (c'.before = c.before) :=
        List.mem_filter.mpr ⟨hc, by simp⟩
      have hpos : 0 < (p.constraints.filter fun c' => decide (c'.before = c.before)).length :=
        List.length_pos.mpr (List.ne_nil_of_mem hmem)
      omega)
    (fun c hc k hk => absurd hk (by simp))
  obtain ⟨glen, gframe, gnd, glt, gI3, gordp⟩ := G
  by_cases hcl : completed.length = p.jobs.length
  case neg =>
    rw [if_neg hcl] at h
    simp only [Option.some.injEq, Prod.mk.injEq] at h
    exact absurd h.2.symm hr
  case pos =>
    rw [if_pos hcl] at h
    rw [Option.bind_eq_bind, Option.bind_eq_some] at h
    obtain ⟨t2, h2, h⟩ := h
    obtain ⟨jobs2, modified2⟩ := t2
    dsimp only at h
    simp only [Option.some.injEq, Prod.mk.injEq] at h
    obtain ⟨hp', hr'⟩ := h
    have hcomp : ∀ y, y < p.jobs.length → y ∈ completed :=
      mem_of_nodup_length completed p.jobs.length gnd glt hcl
    have flord := reverse_order completed p.jobs.length p.constraints gnd hcl glt
      hend gordp
    have F := phase2_go_spec p.jobs.length jobs1 p.constraints
      (fun i => (p.jobs.getD i Job.dummy).index) completed.reverse hbj hend
      (List.nodup_reverse.mpr gnd) flord
      completed.reverse []
      (fun j => ((p.constraints.filter fun c => decide (c.after = j)).length : Int))
      jobs1 modified1 (jobs2, modified2)
      (List.nil_append _).symm h2
      (by
        intro x
        rw [cntA_nil]
        unfold cntInA
        rw [List.countP_eq_length_filter])
      glen
      (fun i hi => ⟨rfl, rfl, rfl⟩)
      (fun x hx => absurd hx (List.not_mem_nil _))
      (fun c hc hcb => absurd hcb (List.not_mem_nil _))
    obtain ⟨flen, fframe, fP2⟩ := F
    intro c hc
    obtain ⟨hbn, han⟩ := hend c hc
    have hbrev : c.before ∈ completed.reverse :=
      List.mem_reverse.mpr (hcomp c.before hbn)
    constructor
    · have fp2c := fP2 c hc hbrev
      unfold P2bound jD at fp2c
      rw [← hp']
      exact fp2c
    · have gi3c := gI3 c hc (hcomp c.after han)
      unfold P1bound at gi3c
      obtain ⟨hex_b, hlat_b, -⟩ := fframe c.before hbn
      obtain ⟨-, hlat_a, -⟩ := fframe c.after han
      rw [← hp']
      show (jD jobs2 c.before).latest_start ≤
        (jD jobs2 c.after).latest_start -
        (c.delay + (if c.constraint_type = .FinishToStart then
          (jD jobs2 c.before).execution_time else 0))
      rw [hlat_b, hlat_a, hex_b]
      exact gi3c


/-- C4 (counterexample to the claim as stated, which quantifies over *every*
problem with `before < after` constraints): on `strengthen_cex_problem`, whose
`index` fields do not match positions, the run returns `Modified` (not
`Cyclic`) yet the earliest-start inequality of its single constraint fails —
the update lands on the wrong job. -/
theorem C4_counterexample :
    (∀ c ∈ strengthen_cex_problem.constraints, c.before < c.after) ∧
    Constraint.new 0 1 5 .StartToStart ∈ strengthen_cex_problem.constraints ∧
    (strengthen_bounds_using_constraints strengthen_cex_problem).map
      (fun pr => (pr.2, decide ((pr.1.jobs.getD 0 Job.dummy).earliest_start +
        ((Constraint.new 0 1 5 .StartToStart).delay +
          (if (Constraint.new 0 1 5 .StartToStart).constraint_type = .FinishToStart then
            (pr.1.jobs.getD 0 Job.dummy).execution_time else 0)) ≤
        (pr.1.jobs.getD 1 Job.dummy).earliest_start))) =
      some (.Modified, false) :=
  ⟨by decide, by decide, by decide⟩

/-- Witness for `C4_strengthen_postcondition`: the valid two-job chain
`strengthen_wit_problem` is strengthened to `strengthen_wit_result`, and both
postcondition inequalities hold there. -/
theorem C4_strengthen_postcondition_witness :
    strengthen_wit_problem.validate ∧
    (∀ c ∈ strengthen_wit_problem.constraints, c.before < c.after) ∧
    strengthen_bounds_using_constraints strengthen_wit_problem =
      some (strengthen_wit_result, .Modified) ∧
    (StrengthenConstraintsResult.Modified ≠ .Cyclic) ∧
    ∀ c ∈ strengthen_wit_problem.constraints,
      (strengthen_wit_result.jobs.getD c.before Job.dummy).earliest_start +
        (c.delay + (if c.constraint_type = .FinishToStart then
          (strengthen_wit_result.jobs.getD c.before Job.dummy).execution_time else 0)) ≤
        (strengthen_wit_result.jobs.getD c.after Job.dummy).earliest_start ∧
      (strengthen_wit_result.jobs.getD c.before Job.dummy).latest_start ≤
        (strengthen_wit_result.jobs.getD c.after Job.dummy).latest_start -
        (c.delay + (if c.constraint_type = .FinishToStart then
          (strengthen_wit_result.jobs.getD c.before Job.dummy).execution_time else 0)) :=
  ⟨by decide, by decide, by decide, by decide,
    C4_strengthen_postcondition strengthen_wit_problem strengthen_wit_result .Modified
      (by decide) (by decide) (by decide) (by decide)⟩

/-- C8: for the problem with one core and jobs `release_to_deadline(0,0,5,16)`,
`(1,0,3,10)`, `(2,0,8,10)`, `run_feasibility_load_test` returns `true`
(wrapped in `some`: no panic occurs), and the step ending at time 7 — the
second step — leaves the accumulated minimum executed load at 8 and the
accumulated maximum executed load at 7. -/
theorem C8_load_test_scenario :
    run_feasibility_load_test load_scenario_problem = some true ∧
    (((LoadTest.new load_scenario_problem).next.bind fun s => s.2.next).map fun s =>
      (s.1, s.2.current_time, s.2.minimum_executed_load, s.2.maximum_executed_load)) =
      some (.CertainlyInfeasible, 7, 8, 7) :=
  ⟨rfl, rfl⟩

/-- C10: for jobs of positive execution time, the first step of the load test
reads `times_of_interest[0]` unconditionally, so `run_feasibility_load_test`
hits that out-of-bounds access (`none`) exactly for the problem with no jobs:
with an empty job vector `times_of_interest` is empty and the run is `none`;
with at least one job the vector is nonempty (the job's `latest_start` and
`latest_finish` differ because `execution_time > 0`, so one of them survives
the removal of `0`) and the first read succeeds. -/
theorem C10_load_test_first_access (p : Problem)
    (hexec : ∀ j ∈ p.jobs, 0 < j.execution_time) :
    (p.jobs = [] → run_feasibility_load_test p = none) ∧
    (p.jobs ≠ [] →
      (LoadTest.new p).times_of_interest.get? (LoadTest.new p).time_index ≠ none) := by
  constructor
  · intro hjobs
    obtain ⟨jobs, cs, nc⟩ := p
    simp only at hjobs
    subst hjobs
    rfl
  · intro hjobs
    have hne : (LoadTest.new p).times_of_interest ≠ [] := by
      obtain ⟨j, hj⟩ := List.exists_mem_of_ne_nil p.jobs hjobs
      have hlsne : j.latest_start ≠ j.get_latest_finish := by
        have := hexec j hj
        simp only [Job.get_latest_finish]
        omega
      -- one of the two contributed times is nonzero
      obtain ⟨v, hv_mem, hv_ne⟩ :
          ∃ v, (v = j.latest_start ∨ v = j.get_latest_finish) ∧ v ≠ 0 := by
        by_cases h0 : j.latest_start = 0
        · exact ⟨j.get_latest_finish, Or.inr rfl, by rw [h0] at hlsne; omega⟩
        · exact ⟨j.latest_start, Or.inl rfl, h0⟩
      intro hempty
      have hvin : v ∈ ((p.jobs.flatMap fun j =>
          [j.latest_start, j.get_latest_finish]).dedup).filter fun t => decide (t ≠ 0) := by
        rw [List.mem_filter, List.mem_dedup, List.mem_flatMap]
        exact ⟨⟨j, hj, by rcases hv_mem with h | h <;> simp [h]⟩, by simpa using hv_ne⟩
      have := (List.perm_insertionSort (· ≤ ·) (((p.jobs.flatMap fun j =>
          [j.latest_start, j.get_latest_finish]).dedup).filter fun t => decide (t ≠ 0))).mem_iff.mpr hvin
      rw [show (LoadTest.new p).times_of_interest = List.insertionSort (· ≤ ·)
        (((p.jobs.flatMap fun j => [j.latest_start, j.get_latest_finish]).dedup).filter
          fun t => decide (t ≠ 0)) from rfl] at hempty
      rw [hempty] at this
      exact (List.not_mem_nil v) this
    have : (LoadTest.new p).time_index = 0 := rfl
    rw [this]
    intro hnone
    rw [List.get?_eq_none] at hnone
    exact hne (List.eq_nil_of_length_eq_zero (by omega))

/-- Witness for C10 at the concrete three-job load-test problem. -/
theorem C10_load_test_first_access_witness :
    (∀ j ∈ load_scenario_problem.jobs, 0 < j.execution_time) ∧
    ((load_scenario_problem.jobs = [] →
        run_feasibility_load_test load_scenario_problem = none) ∧
      (load_scenario_problem.jobs ≠ [] →
        (LoadTest.new load_scenario_problem).times_of_interest.get?
          (LoadTest.new load_scenario_problem).time_index ≠ none)) :=
  ⟨by decide, C10_load_test_first_access load_scenario_problem (by decide)⟩

/-- C2 (code bug): `pipeline_cex`-shaped valid problem on which
`ProblemPermutation::possible` returns `Some`, yet `transform_back` does not
restore the original problem (the handle's `completed_jobs` permutation
`[1, 2, 0]` is applied in the wrong direction, so the jobs come back at
permuted-squared positions; the source's own round-trip tests only use
involutive permutations and cannot see this). -/
theorem C2_transform_back_not_identity :
    permutation_cex_problem.validate ∧
    ((ProblemPermutation.possible permutation_cex_problem).map fun r =>
      r.2.transform_back r.1) ≠ some permutation_cex_problem :=
  ⟨by decide, by decide⟩

/-- C3 (code bug): on the same valid problem `ProblemPermutation::possible`
returns `Some`, but the rewritten constraints are not the old constraints
renamed by the job permutation, and `before < after` fails (the problem
reports `is_job_order_possible = false`), contradicting the function's own
doc comment. -/
theorem C3_possible_not_topological :
    permutation_cex_problem.validate ∧
    ((ProblemPermutation.possible permutation_cex_problem).map fun r =>
      r.1.is_job_order_possible) = some false :=
  ⟨by decide, by decide⟩

/-- C5 (counterexample to the claim as stated, which quantifies over *every*
list of sizes): with the negative size `-2` present,
`is_certainly_unpackable 1 5 [6, -2]` answers `true`, yet the multiset fits
in one bin of capacity 5 (`6 + (-2) = 4 ≤ 5`). -/
theorem C5_counterexample :
    is_certainly_unpackable 1 5 pack_cex_sizes = true ∧ CanPack 1 5 pack_cex_sizes :=
  ⟨rfl, ⟨[[6, -2]], by decide, by decide, by decide⟩⟩

/-- C6 (counterexample to the claim as stated): inserting
`occupation_cex_blocker` (returns `false`) and then refining
`occupation_cex_victim` (returns `ModifiedJobAndIntervals`, not `Infeasible`)
leaves the timeline with the adjacent equal-count entries `(5, 1), (7, 1)`:
the refinement re-inserts the grown certain coverage `[7, 8)`, that internal
insert overflows the single core and aborts before coalescing, and its
signal is discarded by `refine`. -/
theorem C6_counterexample :
    run_ops_claimed (OccupationTimeline.new 1)
      [.ins occupation_cex_blocker, .ref occupation_cex_victim] =
      some ⟨[⟨0, 0⟩, ⟨5, 1⟩, ⟨7, 1⟩, ⟨8, 0⟩], 1⟩ ∧
    ¬ TimelineWF ⟨[⟨0, 0⟩, ⟨5, 1⟩, ⟨7, 1⟩, ⟨8, 0⟩], 1⟩ :=
  ⟨rfl, by simp [TimelineWF, List.chain'_cons]⟩

/-- C9 (counterexample to the claim as stated, which quantifies over *every*
job examined by the interval test): for the valid problem whose only job has
`earliest_start = 10 ≥ latest_finish = 1`, the tree query over the job's
(empty) window `[10, 1)` does *not* return the job's own interval, and the
multiset passed to the oracle is empty rather than containing
`min(execution_time, latest_finish - earliest_start)`. -/
theorem C9_counterexample :
    interval_cex_problem.validate ∧
    (∀ j ∈ interval_cex_problem.jobs, 0 < j.execution_time) ∧
    (interval_test_tree 1 interval_cex_problem).query ⟨0, 10, 1⟩ = [] ∧
    required_loads_go interval_cex_problem 10 1
      ((interval_test_tree 1 interval_cex_problem).query ⟨0, 10, 1⟩) = some [] :=
  ⟨by decide, by decide, rfl, rfl⟩

/-- C1 (code bug): `pipeline_cex_problem` admits the feasible schedule
(job 1 at time 0, job 2 at time 1, job 0 at time 9, all on core 0), yet the
pipeline driver emits INFEASIBLE for it, for every fuel: the permutation
stage rewrites the constraints with wrongly renamed endpoints (see C3), the
precedence strengthening then derives impossible bounds from those corrupted
constraints, and every job becomes self-infeasible. -/
theorem C1_pipeline_unsound :
    FeasibleSchedule pipeline_cex_problem pipeline_cex_starts pipeline_cex_cores ∧
    ∀ occupation_fuel split_fuel,
      main_verdict occupation_fuel split_fuel pipeline_cex_problem =
        some .INFEASIBLE := by
  refine ⟨⟨rfl, rfl, ?_, ?_, ?_⟩, fun _ _ => rfl⟩
  · intro i hi
    have hi3 : i < 3 := hi
    interval_cases i <;> exact ⟨by decide, by decide, by decide⟩
  · intro t
    have h1 : pipeline_cex_problem.num_cores = 1 := rfl
    rw [h1, Finset.card_le_one]
    intro a ha b hb
    rw [Finset.mem_filter, Finset.mem_range] at ha hb
    obtain ⟨ha3, ha1, ha2⟩ := ha
    obtain ⟨hb3, hb1, hb2⟩ := hb
    have ha3' : a < 3 := ha3
    have hb3' : b < 3 := hb3
    interval_cases a <;> interval_cases b <;>
      simp only [pipeline_cex_starts, pipeline_cex_problem, Job.release_to_deadline,
        List.getD, List.get?, Option.getD, Job.dummy] at ha1 ha2 hb1 hb2 <;>
      omega
  · intro c hc
    fin_cases hc <;>
      norm_num [ConstraintSatisfied, pipeline_cex_starts, pipeline_cex_problem,
        Constraint.new, Job.release_to_deadline, Job.dummy]

/-- Counting through a `filter`: the count survives iff the element passes. -/
theorem count_filter_eq {α : Type} [DecidableEq α] (l : List α) (p : α → Bool)
    (a : α) : (l.filter p).count a = if p a then l.count a else 0 := by
  split
  · exact List.count_filter (by assumption)
  · rw [List.count_eq_zero]
    intro hmem
    rw [List.mem_filter] at hmem
    simp_all

/-- Exact count of an interval in a query of a split tree: as often as it
was inserted when it overlaps the query interval, never otherwise. -/
theorem query_split_count (fuel : Nat) (ivs : List JobInterval) (q iv : JobInterval) :
    ((IntervalTree.split_list fuel ivs).query q).count iv =
      if iv.start < q.end_time ∧ q.start < iv.end_time then ivs.count iv else 0 := by
  induction fuel generalizing ivs with
  | zero =>
    show ((IntervalTree.leaf ivs).query q).count iv = _
    rw [IntervalTree.query, count_filter_eq]
    by_cases h : iv.start < q.end_time ∧ q.start < iv.end_time <;> simp [h]
  | succ fuel ih =>
    rw [IntervalTree.split_list]
    by_cases hlen : ivs.length < 50
    · rw [if_pos hlen]
      rw [IntervalTree.query, count_filter_eq]
      by_cases h : iv.start < q.end_time ∧ q.start < iv.end_time <;> simp [h]
    · rw [if_neg hlen]
      rw [IntervalTree.query]
      rw [List.count_append, List.count_append]
      set sorted := List.insertionSort
        (fun a b => a.start + a.end_time ≤ b.start + b.end_time) ivs with hsorted
      have hperm : sorted.count iv = ivs.count iv :=
        (List.perm_insertionSort _ ivs).count_eq iv
      clear_value sorted
      set st := ((sorted.getD (sorted.length / 2) ⟨0, 0, 0⟩).start +
        (sorted.getD (sorted.length / 2) ⟨0, 0, 0⟩).end_time) / 2 with hst
      clear_value st
      rw [apply_ite (List.count iv), apply_ite (List.count iv)]
      simp only [List.count_nil]
      rw [ih, ih]
      simp only [count_filter_eq]
      simp only [hperm, Bool.and_eq_true, decide_eq_true_eq]
      generalize List.count iv ivs = N
      split_ifs <;> omega

/-- C7: for every list of inserted intervals, every split fuel and every
query interval `[a, b)`, the tree query emits each inserted interval exactly
as often as it was inserted when it overlaps the query
(`start < b ∧ end > a`), and never otherwise — in particular, for a *set* of
inserted intervals each overlapping interval is emitted exactly once, no
overlapping interval is missed, and nothing else is emitted. -/
theorem C7_query_exact (fuel : Nat) (ivs : List JobInterval) (q iv : JobInterval) :
    ((IntervalTree.split_list fuel ivs).query q).count iv =
      if iv.start < q.end_time ∧ q.start < iv.end_time then ivs.count iv else 0 :=
  query_split_count fuel ivs q iv

/-- `required_loads_go` is total when every mentioned job index resolves. -/
theorem required_loads_go_total (p : Problem) (a b : Int) (L : List JobInterval)
    (hall : ∀ iv ∈ L, (p.jobs.get? iv.job).isSome) :
    ∃ loads, required_loads_go p a b L = some loads := by
  induction L with
  | nil => exact ⟨[], rfl⟩
  | cons iv L ih =>
    obtain ⟨jb, hjb⟩ := Option.isSome_iff_exists.mp (hall iv (.head L))
    obtain ⟨loads, hloads⟩ := ih fun x hx => hall x (.tail iv hx)
    rw [required_loads_go, hjb, hloads]
    simp only [Option.bind_eq_bind, Option.some_bind]
    rw [← apply_ite some]
    exact ⟨_, rfl⟩

/-- If a fully-contained interval of a positive-execution job occurs in the
queried list, its full in-window load is among the required loads. -/
theorem required_loads_go_mem (p : Problem) (a b : Int) (L : List JobInterval)
    (hall : ∀ iv ∈ L, (p.jobs.get? iv.job).isSome)
    (iv0 : JobInterval) (h0 : iv0 ∈ L) (hs : iv0.start = a) (he : iv0.end_time = b)
    (jb0 : Job) (hjb : p.jobs.get? iv0.job = some jb0)
    (hpos : 0 < jb0.execution_time) :
    ∃ loads, required_loads_go p a b L = some loads ∧
      min jb0.execution_time (b - a) ∈ loads := by
  induction L with
  | nil => cases h0
  | cons iv L ih =>
    obtain ⟨jb, hjbhead⟩ := Option.isSome_iff_exists.mp (hall iv (.head L))
    rcases List.mem_cons.mp h0 with h0h | h0t
    · cases h0h
      rw [hjb] at hjbhead
      injection hjbhead with hjbeq
      cases hjbeq
      obtain ⟨loads, hloads⟩ := required_loads_go_total p a b L
        fun x hx => hall x (.tail iv0 hx)
      rw [required_loads_go, hjb, hloads]
      have hn1 : ¬ iv0.start < a := by omega
      have hn2 : ¬ b < iv0.end_time := by omega
      simp only [Option.bind_eq_bind, Option.some_bind, if_neg hn1, if_neg hn2]
      rw [if_pos hpos]
      refine ⟨_, rfl, ?_⟩
      rw [sub_zero]
      exact .head _
    · obtain ⟨loads, hloads, hmem⟩ := ih (fun x hx => hall x (.tail iv hx)) h0t
      rw [required_loads_go, hjbhead, hloads]
      simp only [Option.bind_eq_bind, Option.some_bind]
      rw [← apply_ite some]
      refine ⟨_, rfl, ?_⟩
      have hgen : ∀ (c : Prop) (inst : Decidable c) (y : Int),
          min jb0.execution_time (b - a) ∈ (if c then y :: loads else loads) := by
        intro c inst y
        split
        · exact .tail _ hmem
        · exact hmem
      exact hgen _ _ _

/-- In a valid problem, looking a job's own `index` up in the job vector
returns that job. -/
theorem validate_get_index (p : Problem) (hvalid : p.validate) (j : Job)
    (hj : j ∈ p.jobs) : p.jobs.get? j.index = some j := by
  obtain ⟨⟨k, hk⟩, rfl⟩ := List.mem_iff_get.mp hj
  rw [hvalid.1 k hk]
  exact List.get?_eq_get hk

/-- C9 (amended): for every job `J` with a nonempty window
(`earliest_start < latest_finish`) and positive execution time examined by
the interval test of a valid problem, the tree query over `J`'s window
returns `J`'s own interval, and the load list passed to
`is_certainly_unpackable` contains the entry
`min(J.execution_time, J.latest_finish - J.earliest_start)` for `J` itself. -/
theorem C9_interval_test_includes_self (p : Problem) (split_fuel : Nat) (j : Job)
    (hvalid : p.validate) (hj : j ∈ p.jobs) (hexec : 0 < j.execution_time)
    (hwin : j.earliest_start < j.get_latest_finish) :
    (⟨j.index, j.earliest_start, j.get_latest_finish⟩ : JobInterval) ∈
      (interval_test_tree split_fuel p).query
        ⟨j.index, j.earliest_start, j.get_latest_finish⟩ ∧
    ∃ loads,
      required_loads_go p j.earliest_start j.get_latest_finish
        ((interval_test_tree split_fuel p).query
          ⟨j.index, j.earliest_start, j.get_latest_finish⟩) = some loads ∧
      min j.execution_time (j.get_latest_finish - j.earliest_start) ∈ loads := by
  have hmemins : (⟨j.index, j.earliest_start, j.get_latest_finish⟩ : JobInterval) ∈
      p.jobs.map fun j => (⟨j.index, j.earliest_start, j.get_latest_finish⟩ : JobInterval) :=
    List.mem_map_of_mem _ hj
  have hcount := query_split_count split_fuel
    (p.jobs.map fun j => (⟨j.index, j.earliest_start, j.get_latest_finish⟩ : JobInterval))
    ⟨j.index, j.earliest_start, j.get_latest_finish⟩
    ⟨j.index, j.earliest_start, j.get_latest_finish⟩
  rw [if_pos ⟨hwin, hwin⟩] at hcount
  have hq : (⟨j.index, j.earliest_start, j.get_latest_finish⟩ : JobInterval) ∈
      (interval_test_tree split_fuel p).query
        ⟨j.index, j.earliest_start, j.get_latest_finish⟩ := by
    rw [← List.count_pos_iff]
    rw [interval_test_tree, hcount]
    exact List.count_pos_iff.mpr hmemins
  refine ⟨hq, ?_⟩
  have hall : ∀ iv ∈ (interval_test_tree split_fuel p).query
      ⟨j.index, j.earliest_start, j.get_latest_finish⟩, (p.jobs.get? iv.job).isSome := by
    intro iv hiv
    have hivc := query_split_count split_fuel
      (p.jobs.map fun j => (⟨j.index, j.earliest_start, j.get_latest_finish⟩ : JobInterval))
      ⟨j.index, j.earliest_start, j.get_latest_finish⟩ iv
    rw [← interval_test_tree] at hivc
    have : 0 < ((interval_test_tree split_fuel p).query
        ⟨j.index, j.earliest_start, j.get_latest_finish⟩).count iv :=
      List.count_pos_iff.mpr hiv
    rw [hivc] at this
    have hin : iv ∈ p.jobs.map fun j =>
        (⟨j.index, j.earliest_start, j.get_latest_finish⟩ : JobInterval) := by
      by_cases hcond : iv.start < j.get_latest_finish ∧ j.earliest_start < iv.end_time
      · rw [if_pos hcond] at this
        exact List.count_pos_iff.mp this
      · rw [if_neg hcond] at this
        omega
    obtain ⟨j2, hj2, rfl⟩ := List.mem_map.mp hin
    rw [validate_get_index p hvalid j2 hj2]
    rfl
  exact required_loads_go_mem p j.earliest_start j.get_latest_finish _ hall
    ⟨j.index, j.earliest_start, j.get_latest_finish⟩ hq rfl rfl j
    (validate_get_index p hvalid j hj) hexec

/-- Witness for C9 (amended) at the first job of the three-job load-test
problem. -/
theorem C9_interval_test_includes_self_witness :
    (load_scenario_problem.validate ∧
      Job.release_to_deadline 0 0 5 16 ∈ load_scenario_problem.jobs ∧
      0 < (Job.release_to_deadline 0 0 5 16).execution_time ∧
      (Job.release_to_deadline 0 0 5 16).earliest_start <
        (Job.release_to_deadline 0 0 5 16).get_latest_finish) ∧
    ((⟨(Job.release_to_deadline 0 0 5 16).index,
        (Job.release_to_deadline 0 0 5 16).earliest_start,
        (Job.release_to_deadline 0 0 5 16).get_latest_finish⟩ : JobInterval) ∈
      (interval_test_tree 1 load_scenario_problem).query
        ⟨(Job.release_to_deadline 0 0 5 16).index,
         (Job.release_to_deadline 0 0 5 16).earliest_start,
         (Job.release_to_deadline 0 0 5 16).get_latest_finish⟩ ∧
    ∃ loads,
      required_loads_go load_scenario_problem
        (Job.release_to_deadline 0 0 5 16).earliest_start
        (Job.release_to_deadline 0 0 5 16).get_latest_finish
        ((interval_test_tree 1 load_scenario_problem).query
          ⟨(Job.release_to_deadline 0 0 5 16).index,
           (Job.release_to_deadline 0 0 5 16).earliest_start,
           (Job.release_to_deadline 0 0 5 16).get_latest_finish⟩) = some loads ∧
      min (Job.release_to_deadline 0 0 5 16).execution_time
        ((Job.release_to_deadline 0 0 5 16).get_latest_finish -
          (Job.release_to_deadline 0 0 5 16).earliest_start) ∈ loads) :=
  ⟨⟨by decide, by decide, by decide, by decide⟩,
   C9_interval_test_includes_self load_scenario_problem 1
     (Job.release_to_deadline 0 0 5 16) (by decide) (by decide) (by decide) (by decide)⟩
